import Mathlib

/-!
# Scheduler and process-lifecycle core of enhanced-xv6 (`kernel/proc.c`)

A shallow embedding of the process table, the PID allocator, the tick
accountant, the MLFQ queue set, the policy selectors and the lifecycle
operations of `kernel/proc.c`, with theorems about them.

Conventions of the embedding

* `proc.h` and `param.h` are not among the sources.  The fields of
  `struct proc` are taken to be C `int`s and are modelled as mathematical
  integers; `x++` is `x + 1`.  Expressions whose value range matters
  (the PBS niceness and dynamic priority) are evaluated with 32-bit
  two's-complement wrap-around (`wrap32`).  `NPROC` is the length of the
  process table.
* Pointers into the process table (`parent`, `initproc`, `minp`) are slot
  indices; a null pointer is `none`.
* Every kernel operation is executed atomically (the per-slot locks of the
  source serialise the accesses to a slot); the interleaving of operations is
  the step relation of `Reach`.
* The build-time policy (`#ifdef FCFS / RR / PBS / MLFQ`) is the parameter
  `Policy` of the operations that contain conditional code.
-/

namespace Xv6

set_option autoImplicit false

/-- The `enum procstate` of the kernel. -/
inductive procstate where
  | UNUSED
  | USED
  | SLEEPING
  | RUNNABLE
  | RUNNING
  | ZOMBIE
deriving DecidableEq

/-- The scheduling policy chosen at build time. -/
inductive Policy where
  | FCFS
  | RR
  | PBS
  | MLFQ
deriving DecidableEq

/-- A sleep channel: the null pointer, the address of a process-table slot
(`sleep(p, &wait_lock)`, `wakeup(initproc)`), or another kernel address
(`&ticks`, a pipe, ...). -/
inductive Chan where
  | null
  | slot (i : Nat)
  | addr (a : Nat)
deriving DecidableEq

/-- The channel value of a pointer to a process slot. -/
def Chan.ofPtr : Option Nat → Chan
  | none => Chan.null
  | some i => Chan.slot i

/-- One slot of the process table (`struct proc`).  The file table, the
working directory, the kernel stack and the saved context are opaque handles
of the file-system and context-switch collaborators and are left out. -/
structure Proc where
  state : procstate
  chan : Chan
  killed : Int
  xstate : Int
  pid : Int
  parent : Option Nat
  sz : Int
  pagetable : Int
  trapframe : Int
  name : List Nat
  mask : Int
  ctime : Int
  rtime : Int
  etime : Int
  wtime : Int
  twtime : Int
  rtime_prev : Int
  stime_prev : Int
  is_new : Int
  pstatic : Int
  pdynamic : Int
  niceness : Int
  ns : Int
  cur_queue : Int
  mlfq_priority : Int
  qcount : List Int
deriving DecidableEq

/-- A slot as the zero-initialised global `proc[NPROC]` holds it at boot. -/
def Proc.zero : Proc where
  state := procstate.UNUSED
  chan := Chan.null
  killed := 0
  xstate := 0
  pid := 0
  parent := none
  sz := 0
  pagetable := 0
  trapframe := 0
  name := List.replicate 16 0
  mask := 0
  ctime := 0
  rtime := 0
  etime := 0
  wtime := 0
  twtime := 0
  rtime_prev := 0
  stime_prev := 0
  is_new := 0
  pstatic := 0
  pdynamic := 0
  niceness := 0
  ns := 0
  cur_queue := 0
  mlfq_priority := 0
  qcount := [0, 0, 0, 0, 0]

/-- The global variables of `proc.c` together with the tick counter.  The rows
of `queue` are indexed by C `int`s; the bound `NPROC` of a row is not part of
the array model (an index is just a key). -/
structure State where
  proc : List Proc
  initproc : Option Nat
  nextpid : Int
  ticks : Int
  queue : Int → Int → Int
  queue_tail : Int → Int
  ageing_threshold : Int → Int

/-- 32-bit two's-complement wrap-around of a C `int` result. -/
def wrap32 (x : Int) : Int := (x + 2147483648) % 4294967296 - 2147483648

/-- C integer division on the RISC-V target: truncation towards zero, and the
quotient of a division by zero has all bits set (`-1`), without a trap. -/
def cdiv (a b : Int) : Int := if b = 0 then -1 else wrap32 (Int.tdiv a b)

/-! ## PID allocator -/

/-- `allocpid`: returns the current `nextpid` and post-increments it.  The
counter is a mathematical integer here; it is the value of the C `int` as
long as it has not passed `2^31 - 1`, and the theorem on the values that
`allocpid` returns is stated within that range. -/
def allocpid (s : State) : Int × State :=
  let pid := s.nextpid
  (pid, { s with nextpid := s.nextpid + 1 })

/-- `k` successive calls of `allocpid`; the pids are listed in call order. -/
def allocpid_calls : Nat → State → List Int × State
  | 0, s => ([], s)
  | k + 1, s =>
    let r := allocpid s
    let rest := allocpid_calls k r.2
    (r.1 :: rest.1, rest.2)

/-! ## MLFQ queue set -/

/-- `queue_init` under MLFQ: empty queues and the ageing thresholds. -/
def queue_init (pol : Policy) (s : State) : State :=
  if pol = Policy.MLFQ then
    { s with
      queue_tail := fun i => if 0 ≤ i ∧ i < 5 then -1 else s.queue_tail i
      ageing_threshold := fun i =>
        if i = 0 then -1 else if i = 1 then 10 else if i = 2 then 20
        else if i = 3 then 30 else if i = 4 then 40 else s.ageing_threshold i }
  else s

/-- The state after `procinit` and `queue_init`: `nproc` zeroed slots, zeroed
globals, `nextpid = 1`. -/
def boot (pol : Policy) (nproc : Nat) : State :=
  queue_init pol
    { proc := List.replicate nproc Proc.zero
      initproc := none
      nextpid := 1
      ticks := 0
      queue := fun _ _ => 0
      queue_tail := fun _ => 0
      ageing_threshold := fun _ => 0 }

/-- Array store `row[i] = v`. -/
def store (row : Int → Int) (i v : Int) : Int → Int :=
  fun j => if j = i then v else row j

/-- Replace row `q` of the queue array. -/
def State.setRow (s : State) (q : Int) (row : Int → Int) : State :=
  { s with queue := fun l => if l = q then row else s.queue l }

/-- Assign `queue_tail[q] = t`. -/
def State.setTail (s : State) (q t : Int) : State :=
  { s with queue_tail := fun l => if l = q then t else s.queue_tail l }

/-- The logical content of queue `q`: the entries at indices `0..queue_tail[q]`. -/
def qcontent (s : State) (q : Int) : List Int :=
  (List.range (s.queue_tail q + 1).toNat).map (fun (j : Nat) => s.queue q (j : Int))

/-- `push_to`: append `pid` at the tail of queue `queue_number`; a negative pid
is refused. -/
def push_to (s : State) (queue_number pid : Int) : State :=
  if pid < 0 then s
  else
    let s1 := s.setTail queue_number (s.queue_tail queue_number + 1)
    s1.setRow queue_number
      (store (s1.queue queue_number) (s1.queue_tail queue_number) pid)

/-- The shift loop `for (i = a; i < a + n; i++) row[i] = row[i + 1]`. -/
def shift_left (row : Int → Int) (a : Int) (n : Nat) : Int → Int :=
  (List.range n).foldl
    (fun (r : Int → Int) (k : Nat) => store r (a + (k : Int)) (r (a + (k : Int) + 1))) row

/-- `pop_given`: remove the entry at index 0 of queue `queue_number` (the pid
argument is not used), write `-1` into the vacated tail entry. -/
def pop_given (s : State) (queue_number _pid : Int) : State :=
  if s.queue_tail queue_number < 0 then s
  else
    let row1 := shift_left (s.queue queue_number) 0 (s.queue_tail queue_number).toNat
    let row2 := store row1 (s.queue_tail queue_number) (-1)
    (s.setRow queue_number row2).setTail queue_number (s.queue_tail queue_number - 1)

/-- The search loop of `pop_specific`: the first index `i` in
`0..queue_tail` with `row[i] == pid`. -/
def find_idx (row : Int → Int) (tail pid : Int) : Option Nat :=
  (List.range (tail + 1).toNat).find? (fun (i : Nat) => decide (row (i : Int) = pid))

/-- `pop_specific`: remove the first occurrence of `pid` from queue
`queue_number`; nothing happens when it does not occur. -/
def pop_specific (s : State) (queue_number pid : Int) : State :=
  match find_idx (s.queue queue_number) (s.queue_tail queue_number) pid with
  | none => s
  | some idx =>
    let row1 := shift_left (s.queue queue_number) (idx : Int)
      (s.queue_tail queue_number - (idx : Int)).toNat
    (s.setRow queue_number row1).setTail queue_number (s.queue_tail queue_number - 1)

/-! ## Process table helpers -/

/-- Assign the record of slot `i` (`proc[i] = p`). -/
def State.setProc (s : State) (i : Nat) (p : Proc) : State :=
  { s with proc := s.proc.set i p }

/-- The first slot, in table order, that satisfies `f`: the result of a scan
`for (p = proc; p < &proc[NPROC]; p++)` that stops at the first hit. -/
def first_idx (f : Proc → Bool) : List Proc → Option Nat
  | [] => none
  | p :: rest => if f p then some 0 else (first_idx f rest).map (fun i => i + 1)

/-- `safestrcpy(s, t, n)`: copy at most `n - 1` characters of the
NUL-terminated `t` into `s` and terminate with NUL. -/
def safestrcpy (s t : List Nat) (n : Nat) : List Nat :=
  let src := (t.takeWhile (fun c => c ≠ 0)).take (n - 1)
  src ++ [0] ++ s.drop (src.length + 1)

/-! ## Allocation and release of a slot -/

/-- `freeproc`: release the VM handles, clear the identity fields and mark the
slot `UNUSED`. -/
def freeproc (p : Proc) : Proc :=
  { p with
    trapframe := 0
    pagetable := 0
    sz := 0
    pid := 0
    parent := none
    name := p.name.set 0 0
    chan := Chan.null
    killed := 0
    xstate := 0
    state := procstate.UNUSED }

/-- `allocproc`: claim the first `UNUSED` slot.  `tf` is the result of
`kalloc()` for the trapframe and `pt` the result of `proc_pagetable` (`0` is
a failed allocation).  Returns the new state and the claimed slot, or `none`
when there is no free slot or an allocation fails. -/
def allocproc (s : State) (tf pt : Int) : State × Option Nat :=
  match first_idx (fun p => decide (p.state = procstate.UNUSED)) s.proc with
  | none => (s, none)
  | some i =>
    match s.proc[i]? with
    | none => (s, none)
    | some p0 =>
      let r := allocpid s
      let p1 : Proc :=
        { p0 with
          pid := r.1
          state := procstate.USED
          ctime := s.ticks
          rtime := 0
          etime := 0
          twtime := 0
          stime_prev := 0
          rtime_prev := 0
          is_new := 1
          ns := 0
          pstatic := 60
          trapframe := tf }
      if tf = 0 then (r.2.setProc i (freeproc p1), none)
      else
        let p2 : Proc := { p1 with qcount := [0, 0, 0, 0, 0], pagetable := pt }
        if pt = 0 then (r.2.setProc i (freeproc p2), none)
        else (r.2.setProc i p2, some i)

/-- The bytes of the string "initcode". -/
def initcode_name : List Nat := [105, 110, 105, 116, 99, 111, 100, 101, 0]

/-- `userinit`: set up the first user process.  The source dereferences the
result of `allocproc` unchecked; a failed allocation leaves the state as
`allocproc` left it. -/
def userinit (pol : Policy) (s : State) (tf pt : Int) : State :=
  let r := allocproc s tf pt
  match r.2 with
  | none => r.1
  | some i =>
    let s1 : State := { r.1 with initproc := some i }
    match s1.proc[i]? with
    | none => s1
    | some p =>
      let p1 : Proc :=
        { p with sz := 4096, name := safestrcpy p.name initcode_name 16,
                 state := procstate.RUNNABLE }
      if pol = Policy.MLFQ then
        let p2 : Proc := { p1 with cur_queue := 0 }
        let s2 := push_to (s1.setProc i p2) p2.cur_queue p2.pid
        s2.setProc i { p2 with mlfq_priority := 0 }
      else s1.setProc i p1

/-- `fork` called by the process in slot `caller`.  `copyok` tells whether
`uvmcopy` succeeds.  Returns the new state and the value returned to the
parent. -/
def fork (pol : Policy) (s : State) (caller : Nat) (tf pt : Int) (copyok : Bool) :
    State × Int :=
  match s.proc[caller]? with
  | none => (s, -1)
  | some p =>
    let r := allocproc s tf pt
    match r.2 with
    | none => (r.1, -1)
    | some i =>
      match r.1.proc[i]? with
      | none => (r.1, -1)
      | some np =>
        if copyok = false then (r.1.setProc i (freeproc np), -1)
        else
          let np1 : Proc :=
            { np with sz := p.sz, mask := p.mask, name := safestrcpy np.name p.name 16 }
          let pid := np1.pid
          let np2 : Proc := { np1 with parent := some caller }
          let np3 : Proc := { np2 with state := procstate.RUNNABLE }
          if pol = Policy.MLFQ then
            let np4 : Proc := { np3 with cur_queue := 0 }
            (push_to (r.1.setProc i np4) np4.cur_queue np4.pid, pid)
          else (r.1.setProc i np3, pid)

/-! ## sleep, wakeup, yield, kill -/

/-- The transition `SLEEPING -> RUNNABLE` of slot `i` as `wakeup` and `kill`
perform it: under MLFQ the pid is pushed to `queue[cur_queue]` and
`mlfq_priority` is set to `cur_queue`. -/
def make_runnable (pol : Policy) (s : State) (i : Nat) (p : Proc) : State :=
  let p1 : Proc := { p with state := procstate.RUNNABLE }
  if pol = Policy.MLFQ then
    (push_to (s.setProc i p1) p1.cur_queue p1.pid).setProc i
      { p1 with mlfq_priority := p1.cur_queue }
  else s.setProc i p1

/-- One iteration of the loop of `wakeup`; `caller` is `myproc()`. -/
def wakeup_body (pol : Policy) (caller : Option Nat) (chan : Chan) (s : State) (i : Nat) :
    State :=
  if some i = caller then s
  else
    match s.proc[i]? with
    | none => s
    | some p =>
      if p.state = procstate.SLEEPING ∧ p.chan = chan then make_runnable pol s i p
      else s

/-- `wakeup(chan)`: wake every process other than the caller that sleeps on
`chan`. -/
def wakeup (pol : Policy) (s : State) (caller : Option Nat) (chan : Chan) : State :=
  (List.range s.proc.length).foldl (wakeup_body pol caller chan) s

/-- `sleep(chan, lk)` up to the hand-off to the scheduler. -/
def sleep (s : State) (caller : Nat) (chan : Chan) : State :=
  match s.proc[caller]? with
  | none => s
  | some p => s.setProc caller { p with chan := chan, state := procstate.SLEEPING }

/-- The rest of `sleep` once the sleeper runs again: `p->chan = 0`. -/
def sleep_return (s : State) (caller : Nat) : State :=
  match s.proc[caller]? with
  | none => s
  | some p => s.setProc caller { p with chan := Chan.null }

/-- `yield` up to the hand-off to the scheduler. -/
def yield (pol : Policy) (s : State) (caller : Nat) : State :=
  match s.proc[caller]? with
  | none => s
  | some p =>
    let p1 : Proc := { p with state := procstate.RUNNABLE }
    if pol = Policy.MLFQ then
      (push_to (s.setProc caller p1) p1.cur_queue p1.pid).setProc caller
        { p1 with mlfq_priority := p1.cur_queue }
    else s.setProc caller p1

/-- `kill(pid)`: the first slot whose pid equals `pid` is marked killed and,
if it sleeps, made runnable.  Returns the new state and the return value. -/
def kill (pol : Policy) (s : State) (pid : Int) : State × Int :=
  match first_idx (fun p => decide (p.pid = pid)) s.proc with
  | none => (s, -1)
  | some i =>
    match s.proc[i]? with
    | none => (s, -1)
    | some p =>
      let p1 : Proc := { p with killed := 1 }
      if p1.state = procstate.SLEEPING then (make_runnable pol (s.setProc i p1) i p1, 0)
      else (s.setProc i p1, 0)

/-! ## exit, wait, waitx -/

/-- One iteration of the loop of `reparent`. -/
def reparent_body (pol : Policy) (caller : Nat) (s : State) (i : Nat) : State :=
  match s.proc[i]? with
  | none => s
  | some pp =>
    if pp.parent = some caller then
      wakeup pol (s.setProc i { pp with parent := s.initproc }) (some caller)
        (Chan.ofPtr s.initproc)
    else s

/-- `reparent(p)`: give the children of `caller` to `initproc`. -/
def reparent (pol : Policy) (s : State) (caller : Nat) : State :=
  (List.range s.proc.length).foldl (reparent_body pol caller) s

/-- `exit(status)` called by the process in slot `caller`, up to the hand-off
to the scheduler. -/
def exit (pol : Policy) (s : State) (caller : Nat) (status : Int) : State :=
  let s1 := reparent pol s caller
  match s1.proc[caller]? with
  | none => s1
  | some p =>
    let s2 := wakeup pol s1 (some caller) (Chan.ofPtr p.parent)
    match s2.proc[caller]? with
    | none => s2
    | some p2 =>
      s2.setProc caller
        { p2 with xstate := status, state := procstate.ZOMBIE, etime := s2.ticks }

/-- Whether the scan of `wait` sets `havekids`. -/
def havekids (tbl : List Proc) (caller : Nat) : Bool :=
  tbl.any (fun np => decide (np.parent = some caller))

/-- One pass of the `for(;;)` loop of `wait(addr)`.  `copyok` tells whether
`copyout` succeeds.  The result is the new state together with `some` return
value, or `none` when the caller went to sleep on its own slot (the loop
continues with another pass once it runs again). -/
def wait (s : State) (caller : Nat) (addr : Int) (copyok : Bool) : State × Option Int :=
  match s.proc[caller]? with
  | none => (s, some (-1))
  | some p =>
    match first_idx
        (fun np => decide (np.parent = some caller ∧ np.state = procstate.ZOMBIE)) s.proc with
    | some i =>
      match s.proc[i]? with
      | none => (s, some (-1))
      | some np =>
        let pid := np.pid
        if addr ≠ 0 ∧ copyok = false then (s, some (-1))
        else (s.setProc i (freeproc np), some pid)
    | none =>
      if havekids s.proc caller = false ∨ p.killed ≠ 0 then (s, some (-1))
      else (sleep s caller (Chan.slot caller), none)

/-- The values `waitx` hands back: the return value and the contents of
`*wtime` and `*rtime` (both `uint`). -/
structure WaitxOut where
  ret : Int
  wtime : Int
  rtime : Int
deriving DecidableEq

/-- One pass of the `for(;;)` loop of `waitx(addr, wtime, rtime)`; as `wait`,
and a reaped child's `rtime` and `etime - ctime - rtime` are stored through
the `uint` pointers.  `w0` and `r0` are the previous contents of `*wtime` and
`*rtime`. -/
def waitx (s : State) (caller : Nat) (addr : Int) (copyok : Bool) (w0 r0 : Int) :
    State × Option WaitxOut :=
  match s.proc[caller]? with
  | none => (s, some ⟨-1, w0, r0⟩)
  | some p =>
    match first_idx
        (fun np => decide (np.parent = some caller ∧ np.state = procstate.ZOMBIE)) s.proc with
    | some i =>
      match s.proc[i]? with
      | none => (s, some ⟨-1, w0, r0⟩)
      | some np =>
        let pid := np.pid
        let rtime := np.rtime % 4294967296
        let wtime := (np.etime - np.ctime - np.rtime) % 4294967296
        if addr ≠ 0 ∧ copyok = false then (s, some ⟨-1, wtime, rtime⟩)
        else (s.setProc i (freeproc np), some ⟨pid, wtime, rtime⟩)
    | none =>
      if havekids s.proc caller = false ∨ p.killed ≠ 0 then (s, some ⟨-1, w0, r0⟩)
      else (sleep s caller (Chan.slot caller), none)

/-! ## Tick accountant -/

/-- The statement `if (p->mlfq_priority != -1) p->qcount[p->cur_queue]++;`. -/
def count_queue (p : Proc) : Proc :=
  if p.mlfq_priority ≠ -1 then
    { p with qcount := p.qcount.set p.cur_queue.toNat (p.qcount.getD p.cur_queue.toNat 0 + 1) }
  else p

/-- The statement `if (p->state == RUNNING) { p->rtime++; p->rtime_prev++; }`. -/
def count_run (p : Proc) : Proc :=
  if p.state = procstate.RUNNING then
    { p with rtime := p.rtime + 1, rtime_prev := p.rtime_prev + 1 }
  else p

/-- The statement `if (p->state == SLEEPING) p->stime_prev++;`. -/
def count_sleep (p : Proc) : Proc :=
  if p.state = procstate.SLEEPING then { p with stime_prev := p.stime_prev + 1 } else p

/-- The statements `p->wtime++; p->twtime++;` of the `RUNNABLE` branch. -/
def count_wait (p : Proc) : Proc :=
  { p with wtime := p.wtime + 1, twtime := p.twtime + 1 }

/-- The statements `p->mlfq_priority = -1; p->cur_queue -= 1;` of the ageing
branch. -/
def age_down (p : Proc) : Proc :=
  { p with mlfq_priority := -1, cur_queue := p.cur_queue - 1 }

/-- The statements `p->mlfq_priority = p->cur_queue; p->wtime = 0;` of the
ageing branch. -/
def age_done (p : Proc) : Proc :=
  { p with mlfq_priority := p.cur_queue, wtime := 0 }

/-- The body of the loop of `updatetime` for slot `i`. -/
def updatetime_body (pol : Policy) (s : State) (i : Nat) : State :=
  match s.proc[i]? with
  | none => s
  | some p0 =>
    let p3 := count_sleep (count_run (count_queue p0))
    if p3.state = procstate.RUNNABLE then
      let p4 := count_wait p3
      if pol = Policy.MLFQ ∧ p4.wtime > s.ageing_threshold p4.cur_queue ∧ p4.cur_queue ≠ 0 then
        let s1 := pop_specific s p4.cur_queue p4.pid
        let p5 := age_down p4
        let s2 := push_to s1 p5.cur_queue p5.pid
        s2.setProc i (age_done p5)
      else s.setProc i p4
    else s.setProc i p3

/-- `updatetime`: one sweep of the tick accountant over the table. -/
def updatetime (pol : Policy) (s : State) : State :=
  (List.range s.proc.length).foldl (updatetime_body pol) s

/-- `n` successive sweeps of the tick accountant. -/
def updatetime_n (pol : Policy) : Nat → State → State
  | 0, s => s
  | n + 1, s => updatetime_n pol n (updatetime pol s)

/-! ## setpriority -/

/-- The body of the loop of `setpriority` for slot `i`; the accumulator holds
the state and `prev_priority`. -/
def setpriority_body (pid priority : Int) (acc : State × Int) (i : Nat) : State × Int :=
  match acc.1.proc[i]? with
  | none => acc
  | some p =>
    if p.pid = pid then
      (acc.1.setProc i { p with pstatic := priority, is_new := 1, stime_prev := 0,
                                rtime_prev := 0 }, p.pstatic)
    else acc

/-- `setpriority(pid, priority)`.  The arguments are the C `int`s that
`sys_setpriority` decoded; the conversions to `uint` and back do not change
which slot matches nor the value stored. -/
def setpriority (s : State) (pid priority : Int) : State × Int :=
  (List.range s.proc.length).foldl (setpriority_body pid priority) (s, -1)

/-- `calc_dpriority(pid, prev_priority)` called by the process in slot
`caller`: the caller yields when a slot with that pid has
`prev_priority > pdynamic`. -/
def calc_dpriority (pol : Policy) (s : State) (caller : Nat) (pid prev_priority : Int) :
    State :=
  match first_idx (fun p => decide (p.pid = pid ∧ prev_priority > p.pdynamic)) s.proc with
  | none => s
  | some _ => yield pol s caller

/-- `sys_setpriority` with argument 0 decoded as `priority` and argument 1 as
`pid`. -/
def sys_setpriority (pol : Policy) (s : State) (caller : Nat) (priority pid : Int) :
    State × Int :=
  let r := setpriority s pid priority
  (calc_dpriority pol r.1 caller pid r.2, r.2)

/-! ## Policy selectors and the scheduler -/

/-- The candidate pointer `minp` of the selectors: the slot index together
with the record it points to. -/
abbrev Cand := Option (Nat × Proc)

/-- The FCFS selector loop over the slots from index `i` on. -/
def fcfs_scan : List Proc → Nat → Cand → Cand
  | [], _, minp => minp
  | p :: rest, i, minp =>
    let minp1 : Cand :=
      if p.state = procstate.RUNNABLE then
        match minp with
        | some (m, mp) => if p.ctime < mp.ctime then some (i, p) else some (m, mp)
        | none => some (i, p)
      else minp
    fcfs_scan rest (i + 1) minp1

/-- The divisor `p->rtime_prev + p->stime_prev` of the niceness computation. -/
def pbs_divisor (p : Proc) : Int := wrap32 (p.rtime_prev + p.stime_prev)

/-- The niceness the PBS pass assigns to a slot. -/
def pbs_niceness (p : Proc) : Int :=
  if p.is_new = 1 then 5
  else cdiv (wrap32 (p.stime_prev * 10)) (pbs_divisor p)

/-- The PBS pass on one slot: recompute `niceness` and `pdynamic`. -/
def pbs_update (p : Proc) : Proc :=
  let niceness := pbs_niceness p
  let fmin_val : Int :=
    if wrap32 (wrap32 (p.pstatic - niceness) + 5) < 100 then
      wrap32 (wrap32 (p.pstatic - niceness) + 5)
    else 100
  let fmax_val : Int := if fmin_val > 0 then fmin_val else 0
  { p with niceness := niceness, pdynamic := fmax_val }

/-- Whether the PBS pass replaces the candidate `minp` by the slot `p`. -/
def pbs_replaces (minp p : Proc) : Bool :=
  if minp.pdynamic > p.pdynamic then true
  else if minp.pdynamic = p.pdynamic then
    if minp.ns > p.ns then true
    else if minp.ns = p.ns then
      if minp.ctime < p.ctime then true else false
    else false
  else false

/-- The PBS selector loop over the slots from index `i` on; returns the
updated slots and the candidate. -/
def pbs_scan : List Proc → Nat → Cand → List Proc × Cand
  | [], _, minp => ([], minp)
  | p :: rest, i, minp =>
    let p1 := pbs_update p
    let minp1 : Cand :=
      if p1.state = procstate.RUNNABLE then
        match minp with
        | some (m, mp) => if pbs_replaces mp p1 then some (i, p1) else some (m, mp)
        | none => some (i, p1)
      else minp
    let r := pbs_scan rest (i + 1) minp1
    (p1 :: r.1, r.2)

/-- The dispatch common to FCFS and PBS: if the candidate is still
`RUNNABLE` it becomes `RUNNING`; under PBS its `is_new`, `rtime_prev`
and `stime_prev` are reset and `ns` is incremented.  The second component is
`c->proc` during the run of the process. -/
def dispatch (pol : Policy) (tbl : List Proc) (minp : Option Nat) : List Proc × Option Nat :=
  match minp with
  | none => (tbl, none)
  | some m =>
    match tbl[m]? with
    | none => (tbl, none)
    | some p =>
      if p.state = procstate.RUNNABLE then
        let p1 : Proc := { p with state := procstate.RUNNING }
        let p2 : Proc :=
          if pol = Policy.PBS then
            { p1 with is_new := 0, rtime_prev := 0, stime_prev := 0, ns := p1.ns + 1 }
          else p1
        (tbl.set m p2, some m)
      else (tbl, none)

/-- The pid the MLFQ selector peeks: entry 0 of the lowest-indexed queue
with `queue_tail >= 0`, or `-1`. -/
def mlfq_chosen_pid (s : State) : Int :=
  match (List.range 5).find? (fun (i : Nat) => decide (s.queue_tail (i : Int) ≥ 0)) with
  | some i => s.queue (i : Int) 0
  | none => -1

/-- The table scan of the MLFQ selector: `minp` ends as the last slot whose
pid equals `chosen_pid`. -/
def mlfq_find (tbl : List Proc) (chosen_pid : Int) : Option Nat :=
  (List.range tbl.length).foldl
    (fun minp i =>
      match tbl[i]? with
      | none => minp
      | some p => if p.pid = chosen_pid then some i else minp)
    none

/-- One round of the scheduler loop under MLFQ, up to the context switch. -/
def scheduler_mlfq (s : State) : State × Option Nat :=
  let chosen_pid := mlfq_chosen_pid s
  if chosen_pid = -1 then (s, none)
  else
    match mlfq_find s.proc chosen_pid with
    | none => (s, none)
    | some m =>
      match s.proc[m]? with
      | none => (s, none)
      | some minp =>
        if minp.pid > 0 ∧ minp.state = procstate.RUNNABLE then
          if minp.state = procstate.RUNNABLE ∧ minp.pid ≥ 0 then
            let p1 : Proc := { minp with state := procstate.RUNNING }
            let s1 := pop_given (s.setProc m p1) p1.cur_queue p1.pid
            (s1.setProc m { p1 with mlfq_priority := -1, ns := p1.ns + 1 }, some m)
          else (s, none)
        else (s, none)

/-- One round of the scheduler loop under FCFS, PBS or MLFQ, up to the
context switch.  (Under RR the loop dispatches slot by slot, see
`rr_dispatch`.) -/
def scheduler_round (pol : Policy) (s : State) : State × Option Nat :=
  match pol with
  | Policy.FCFS =>
    let minp := fcfs_scan s.proc 0 none
    let r := dispatch pol s.proc (minp.map (fun c => c.1))
    ({ s with proc := r.1 }, r.2)
  | Policy.PBS =>
    let sel := pbs_scan s.proc 0 none
    let r := dispatch pol sel.1 (sel.2.map (fun c => c.1))
    ({ s with proc := r.1 }, r.2)
  | Policy.MLFQ => scheduler_mlfq s
  | Policy.RR => (s, none)

/-- One iteration of the RR scheduler loop at slot `i`: a `RUNNABLE` slot
becomes `RUNNING`. -/
def rr_dispatch (s : State) (i : Nat) : State :=
  match s.proc[i]? with
  | none => s
  | some p =>
    if p.state = procstate.RUNNABLE then s.setProc i { p with state := procstate.RUNNING }
    else s

/-! ## The transition system -/

/-- The operations that change the state, with their arguments and the
outcomes of the collaborators they consult. -/
inductive Label where
  | userinit (tf pt : Int)
  | fork (caller : Nat) (tf pt : Int) (copyok : Bool)
  | exit (caller : Nat) (status : Int)
  | wait (caller : Nat) (addr : Int) (copyok : Bool)
  | waitx (caller : Nat) (addr : Int) (copyok : Bool)
  | yield (caller : Nat)
  | sleep (caller : Nat) (chan : Chan)
  | sleep_return (caller : Nat)
  | wakeup (caller : Option Nat) (chan : Chan)
  | kill (pid : Int)
  | setpriority (caller : Nat) (priority pid : Int)
  | tick
  | updatetime
  | sched
  | rr (i : Nat)
deriving DecidableEq

/-- Whether slot `i` holds a process that is `RUNNING`, that is, whether it can
be the `myproc()` of a kernel operation. -/
def running (s : State) (i : Nat) : Bool :=
  match s.proc[i]? with
  | none => false
  | some p => decide (p.state = procstate.RUNNING)

/-- When an operation can take place: a system call is made by a `RUNNING`
process, `userinit` runs once and its allocation succeeds, `init` does not
exit (the source panics), and each build has its own scheduler loop. -/
def enabled (pol : Policy) (s : State) : Label → Bool
  | Label.userinit tf pt => decide (s.initproc = none) && (allocproc s tf pt).2.isSome
  | Label.fork caller _ _ _ => running s caller
  | Label.exit caller _ => running s caller && decide (s.initproc ≠ some caller)
  | Label.wait caller _ _ => running s caller
  | Label.waitx caller _ _ => running s caller
  | Label.yield caller => running s caller
  | Label.sleep caller _ => running s caller
  | Label.sleep_return caller => running s caller
  | Label.wakeup caller _ =>
    match caller with
    | none => true
    | some c => running s c
  | Label.kill _ => true
  | Label.setpriority caller _ _ => running s caller
  | Label.tick => true
  | Label.updatetime => true
  | Label.sched => decide (pol ≠ Policy.RR)
  | Label.rr _ => decide (pol = Policy.RR)

/-- The state after an operation. -/
def apply (pol : Policy) (s : State) : Label → State
  | Label.userinit tf pt => userinit pol s tf pt
  | Label.fork caller tf pt copyok => (fork pol s caller tf pt copyok).1
  | Label.exit caller status => exit pol s caller status
  | Label.wait caller addr copyok => (wait s caller addr copyok).1
  | Label.waitx caller addr copyok => (waitx s caller addr copyok 0 0).1
  | Label.yield caller => yield pol s caller
  | Label.sleep caller chan => sleep s caller chan
  | Label.sleep_return caller => sleep_return s caller
  | Label.wakeup caller chan => wakeup pol s caller chan
  | Label.kill pid => (kill pol s pid).1
  | Label.setpriority caller priority pid => (sys_setpriority pol s caller priority pid).1
  | Label.tick => { s with ticks := (s.ticks + 1) % 4294967296 }
  | Label.updatetime => updatetime pol s
  | Label.sched => (scheduler_round pol s).1
  | Label.rr i => rr_dispatch s i

/-- The run of a list of operations from a state. -/
def run (pol : Policy) (s : State) (ls : List Label) : State :=
  ls.foldl (apply pol) s

/-- Whether every operation of the list is enabled when its turn comes. -/
def run_ok (pol : Policy) : State → List Label → Bool
  | _, [] => true
  | s, l :: ls => enabled pol s l && run_ok pol (apply pol s l) ls

/-- The states reachable from boot with a table of `nproc` slots by operations
that satisfy `ok`. -/
inductive Reach (pol : Policy) (nproc : Nat) (ok : Label → Prop) : State → Prop where
  | boot : Reach pol nproc ok (boot pol nproc)
  | step {s : State} (l : Label) :
      Reach pol nproc ok s → ok l → enabled pol s l = true → Reach pol nproc ok (apply pol s l)

/-- The states reachable from boot. -/
def Reachable (pol : Policy) (nproc : Nat) (s : State) : Prop :=
  Reach pol nproc (fun _ => True) s

/-- A queue state for the examples: queue 1 holds the pids 3, 5, 3. -/
def exQueues : State :=
  push_to (push_to (push_to (boot Policy.MLFQ 4) 1 3) 1 5) 1 3

/-! ## Invariants of the reachable states -/

/-- The invariant of the pids: the table keeps its length, `nextpid` is
positive and above every pid in use, a slot is `UNUSED` exactly when its pid
is 0, and no two slots hold the same non-zero pid. -/
structure PInv (nproc : Nat) (s : State) : Prop where
  len : s.proc.length = nproc
  nextpid_pos : 1 ≤ s.nextpid
  pid_range : ∀ (i : Nat) (p : Proc), s.proc[i]? = some p →
    (p.state = procstate.UNUSED ↔ p.pid = 0) ∧ 0 ≤ p.pid ∧ p.pid < s.nextpid
  pid_inj : ∀ (i j : Nat) (pi pj : Proc), s.proc[i]? = some pi → s.proc[j]? = some pj →
    pi.pid = pj.pid → pi.pid ≠ 0 → i = j

/-- The invariant of the MLFQ queues: every slot is at level 0, the queues
1..4 are empty, queue 0 holds the pids of the `RUNNABLE` slots, each once,
and a `RUNNING` slot has `mlfq_priority = -1`. -/
structure QInv (s : State) : Prop where
  tails : ∀ l : Int, 1 ≤ l → l < 5 → s.queue_tail l = -1
  tail0 : -1 ≤ s.queue_tail 0
  curq : ∀ (i : Nat) (p : Proc), s.proc[i]? = some p → p.cur_queue = 0
  nodup : (qcontent s 0).Nodup
  mem : ∀ x : Int, x ∈ qcontent s 0 ↔
    ∃ (i : Nat) (p : Proc), s.proc[i]? = some p ∧ p.state = procstate.RUNNABLE ∧ p.pid = x
  running : ∀ (i : Nat) (p : Proc), s.proc[i]? = some p → p.state = procstate.RUNNING → p.mlfq_priority = -1

/-- The invariant of a build: the pid invariant, and under MLFQ the queue
invariant. -/
def Inv (pol : Policy) (nproc : Nat) (s : State) : Prop :=
  PInv nproc s ∧ (pol = Policy.MLFQ → QInv s)

/-! ## The effect of one tick on a single slot -/

/-- The counters of a slot after the counting statements of the loop body of
`updatetime`. -/
def tick_counters (p : Proc) : Proc :=
  let p3 := count_sleep (count_run (count_queue p))
  if p3.state = procstate.RUNNABLE then count_wait p3 else p3

/-- The ageing test of the loop body, on the slot with its counters updated. -/
def ageing_fires (pol : Policy) (threshold : Int → Int) (p : Proc) : Prop :=
  p.state = procstate.RUNNABLE ∧ pol = Policy.MLFQ ∧ p.wtime > threshold p.cur_queue ∧
    p.cur_queue ≠ 0

instance (pol : Policy) (threshold : Int → Int) (p : Proc) :
    Decidable (ageing_fires pol threshold p) := by
  unfold ageing_fires; infer_instance

/-- The slot after one tick of the accountant. -/
def tick_slot (pol : Policy) (threshold : Int → Int) (p : Proc) : Proc :=
  if ageing_fires pol threshold (tick_counters p) then age_done (age_down (tick_counters p))
  else tick_counters p

/-! ## Example runs -/

/-- An MLFQ system with three slots after `userinit`: `init` (pid 1) waits in
queue 0. -/
def exInit : State := run Policy.MLFQ (boot Policy.MLFQ 3) [Label.userinit 1 1]

/-- The run of `exInit` continued: `init` is dispatched and forks a child
(pid 2, slot 1). -/
def exForked : State :=
  run Policy.MLFQ (boot Policy.MLFQ 3)
    [Label.userinit 1 1, Label.sched, Label.fork 0 1 1 true]

/-- The run of `exInit` continued: `init` is dispatched and then calls
`kill(0)`. -/
def exKillZero : State :=
  run Policy.MLFQ (boot Policy.MLFQ 3) [Label.userinit 1 1, Label.sched, Label.kill 0]

/-- The operations of a run in which slot 1 is used twice: `init` forks a
child and waits, the child runs and exits, `init` reaps it and forks again. -/
def reuse_ops : List Label :=
  [Label.userinit 1 1, Label.sched, Label.fork 0 1 1 true, Label.wait 0 0 true, Label.sched,
   Label.exit 1 0, Label.sched, Label.wait 0 0 true, Label.fork 0 1 1 true]

/-- The state after `reuse_ops` under MLFQ with three slots. -/
def exReuse : State := run Policy.MLFQ (boot Policy.MLFQ 3) reuse_ops

/-- A PBS system with three slots: `init` is set up, dispatched, and yields. -/
def exPbsYield : State :=
  run Policy.PBS (boot Policy.PBS 3) [Label.userinit 1 1, Label.sched, Label.yield 0]

/-- Whether slot `i` is `RUNNING` or its pid is in one of the five queues. -/
def on_queue_or_running (s : State) (i : Nat) : Bool :=
  match s.proc[i]? with
  | none => false
  | some p =>
    decide (p.state = procstate.RUNNING) ||
      (List.range 5).any (fun (l : Nat) => decide (p.pid ∈ qcontent s (l : Int)))

/-- The number of sweeps of the tick accountant, in a run from `s`, that find
slot `i` on a queue or `RUNNING`. -/
def active_ticks (pol : Policy) : State → Nat → List Label → Nat
  | _, _, [] => 0
  | s, i, l :: ls =>
    (if l = Label.updatetime ∧ on_queue_or_running s i = true then 1 else 0)
      + active_ticks pol (apply pol s l) i ls

/-! ## How an operation changes the static priority of a slot -/

/-- The static priority of a slot after an operation: unchanged, the default
60 of `allocproc`, or the priority argument of a `setpriority` call. -/
def PstaticStep (l : Label) (p q : Proc) : Prop :=
  q.pstatic = p.pstatic ∨ q.pstatic = 60 ∨
    ∃ (caller : Nat) (pid : Int), l = Label.setpriority caller q.pstatic pid

/-- The relation `PstaticStep` between the slots of two states. -/
def PstaticFrame (l : Label) (s t : State) : Prop :=
  t.proc.length = s.proc.length ∧
  ∀ (j : Nat) (p q : Proc), s.proc[j]? = some p → t.proc[j]? = some q → PstaticStep l p q

/-- The priorities the claim on the range of `pstatic` allows
`setpriority` to be called with. -/
def priority_in_range : Label → Prop
  | Label.setpriority _ priority _ => 0 ≤ priority ∧ priority ≤ 100
  | _ => True

/-- A PBS system with three slots: `init` is set up, dispatched, and calls
`setpriority(500, 1)` on itself. -/
def exPriority : State :=
  run Policy.PBS (boot Policy.PBS 3)
    [Label.userinit 1 1, Label.sched, Label.setpriority 0 500 1]

/-- The loop shape that the FCFS and PBS selectors share: a `RUNNABLE` slot
becomes the candidate when there is none yet or when `replaces minp p` holds. -/
def scan_with (replaces : Proc → Proc → Bool) : List Proc → Nat → Cand → Cand
  | [], _, minp => minp
  | p :: rest, i, minp =>
    let minp1 : Cand :=
      if p.state = procstate.RUNNABLE then
        match minp with
        | some (m, mp) => if replaces mp p then some (i, p) else some (m, mp)
        | none => some (i, p)
      else minp
    scan_with replaces rest (i + 1) minp1

/-- The test of the FCFS selector: `p->ctime < minp->ctime`. -/
def fcfs_replaces (minp p : Proc) : Bool := decide (p.ctime < minp.ctime)

/-- A table for the examples: three `RUNNABLE` slots created at ticks 7, 3
and 3, and a sleeping slot created at tick 1. -/
def exTable : List Proc :=
  [{ Proc.zero with state := procstate.RUNNABLE, pid := 1, ctime := 7 },
   { Proc.zero with state := procstate.SLEEPING, pid := 2, ctime := 1 },
   { Proc.zero with state := procstate.RUNNABLE, pid := 3, ctime := 3 },
   { Proc.zero with state := procstate.RUNNABLE, pid := 4, ctime := 3 }]

/-- A PBS system with three slots in which two children of `init`, created at
ticks 0 and 1, wait with the same dynamic priority and the same `ns`, and
`init` has yielded. -/
def exTie : State :=
  run Policy.PBS (boot Policy.PBS 3)
    [Label.userinit 1 1, Label.sched, Label.fork 0 1 1 true, Label.tick, Label.updatetime,
     Label.fork 0 1 1 true, Label.yield 0]

/-- A PBS system with three slots: `init` (pid 1) forks a child (pid 2), calls
`setpriority(60, 1)` on itself and then `setpriority(40, 2)`, which makes it
yield: both are `RUNNABLE` and new, with static priorities 60 and 40. -/
def exPbsPair : State :=
  run Policy.PBS (boot Policy.PBS 3)
    [Label.userinit 1 1, Label.sched, Label.fork 0 1 1 true, Label.setpriority 0 60 1,
     Label.setpriority 0 40 2]

/-- The operations of a run under which slot 1 is released with a non-zero
`wtime`: `init` forks a child, a tick passes while the child is `RUNNABLE`,
`init` waits, the child runs and exits, `init` reaps it. -/
def stale_ops : List Label :=
  [Label.userinit 1 1, Label.sched, Label.fork 0 1 1 true, Label.tick, Label.updatetime,
   Label.wait 0 0 true, Label.sched, Label.exit 1 0, Label.sched, Label.wait 0 0 true]

/-- The state after `stale_ops` under MLFQ with three slots. -/
def exStale : State := run Policy.MLFQ (boot Policy.MLFQ 3) stale_ops

/-- The call `freeproc(&proc[i])`. -/
def freeproc_slot (s : State) (i : Nat) : State :=
  match s.proc[i]? with
  | none => s
  | some p => s.setProc i (freeproc p)

/-- What `setpriority(pid, priority)` does to one slot. -/
def setpriority_slot (pid priority : Int) (p : Proc) : Proc :=
  if p.pid = pid then { p with pstatic := priority, is_new := 1, stime_prev := 0, rtime_prev := 0 }
  else p

/-- The value `prev_priority` after the loop of `setpriority` went over the
slots `tbl`: the `pstatic` of the last slot with that pid, or `-1`. -/
def setpriority_ret (pid : Int) (tbl : List Proc) : Int :=
  tbl.foldl (fun r p => if p.pid = pid then p.pstatic else r) (-1)

/-- The state in which `init` (slot 0, pid 1) runs under PBS and the slots 1
and 2 are `UNUSED`. -/
def exPbsInit : State := run Policy.PBS (boot Policy.PBS 3) [Label.userinit 1 1, Label.sched]

/-- The state in which `init` (slot 0, pid 1) runs under MLFQ and the slots 1
and 2 are `UNUSED`. -/
def exInitRun : State := run Policy.MLFQ (boot Policy.MLFQ 3) [Label.userinit 1 1, Label.sched]

/-- The test of the loop body of `wakeup` for slot `i`: the slot is not the
caller, it is `SLEEPING` and it sleeps on `chan`. -/
def woken (caller : Option Nat) (chan : Chan) (i : Nat) (p : Proc) : Bool :=
  decide (some i ≠ caller ∧ p.state = procstate.SLEEPING ∧ p.chan = chan)

/-- The record of a slot after the transition `SLEEPING -> RUNNABLE`. -/
def wake_slot (pol : Policy) (p : Proc) : Proc :=
  if pol = Policy.MLFQ then { p with state := procstate.RUNNABLE, mlfq_priority := p.cur_queue }
  else { p with state := procstate.RUNNABLE }

/-- The pids of the slots among the first `k` that `wakeup` wakes at level
`l`, in table order. -/
def woken_pids (caller : Option Nat) (chan : Chan) (l : Int) (tbl : List Proc) (k : Nat) :
    List Int :=
  (List.range k).filterMap (fun (j : Nat) =>
    match tbl[j]? with
    | some p => if woken caller chan j p = true ∧ p.cur_queue = l then some p.pid else none
    | none => none)

/-- The run of `exForked` continued: `init` sleeps in `wait`, the child (slot
1, pid 2) is dispatched and sleeps on a channel. -/
def exSleepers : State :=
  run Policy.MLFQ (boot Policy.MLFQ 3)
    [Label.userinit 1 1, Label.sched, Label.fork 0 1 1 true, Label.wait 0 0 true, Label.sched,
     Label.sleep 1 (Chan.addr 7)]

/-- The word that `wait` hands to `copyout` for the user address `addr`: the
`xstate` of the child it reaps; `none` when nothing is copied. -/
def wait_copyout (s : State) (caller : Nat) (addr : Int) : Option Int :=
  match first_idx
      (fun np => decide (np.parent = some caller ∧ np.state = procstate.ZOMBIE)) s.proc with
  | some i =>
    match s.proc[i]? with
    | some np => if addr ≠ 0 then some np.xstate else none
    | none => none
  | none => none

/-- The operations of a run in which `init` forks a child (pid 2) that exits
with status 7 and is not reaped, then forks a second child (pid 3) that exits
with status 42. -/
def two_kids_ops : List Label :=
  [Label.userinit 1 1, Label.sched, Label.fork 0 1 1 true, Label.sched, Label.exit 1 7,
   Label.fork 0 1 1 true, Label.sched, Label.exit 2 42]

/-- The state after `two_kids_ops` under MLFQ with three slots. -/
def exTwoKids : State := run Policy.MLFQ (boot Policy.MLFQ 3) two_kids_ops

/-- The operations of a run in which `init` forks a child (pid 2) and waits,
the child runs and exits with status 42, and `init` runs again. -/
def one_kid_ops : List Label :=
  [Label.userinit 1 1, Label.sched, Label.fork 0 1 1 true, Label.wait 0 100 true, Label.sched,
   Label.exit 1 42, Label.sched]

/-- The state after `one_kid_ops` under MLFQ with three slots. -/
def exOneKid : State := run Policy.MLFQ (boot Policy.MLFQ 3) one_kid_ops

/-! ## The clock and the lifetime counters -/

/-- Modelled from the spec: the timer interrupt of the trap collaborator
(`kernel/trap.c` is not among the sources).  A tick is a single timer
interrupt, the unit of all time accounting: it advances the tick counter by
one and runs one sweep of the timing accountant. -/
def clock_tick (pol : Policy) (s : State) : State :=
  updatetime pol { s with ticks := s.ticks + 1 }

/-- The states reachable from boot when time advances by `clock_tick` only:
the operations other than the bare `tick` and `updatetime`, and the clock. -/
inductive ReachClock (pol : Policy) (nproc : Nat) : State → Prop where
  | boot : ReachClock pol nproc (boot pol nproc)
  | step {s : State} (l : Label) :
      ReachClock pol nproc s → l ≠ Label.tick → l ≠ Label.updatetime →
      enabled pol s l = true → ReachClock pol nproc (apply pol s l)
  | clock {s : State} : ReachClock pol nproc s → ReachClock pol nproc (clock_tick pol s)

/-- The lifetime counters of a slot at tick `T`: `rtime` is not negative, the
slot has not run for more ticks than have passed since `ctime`, and a
`ZOMBIE` has not run for more ticks than its lifetime `etime - ctime`. -/
def TimeOk (T : Int) (p : Proc) : Prop :=
  0 ≤ p.rtime ∧ p.ctime + p.rtime ≤ T ∧
    (p.state = procstate.ZOMBIE → p.ctime + p.rtime ≤ p.etime)

/-- An operation keeps the tick counter and the table length, and keeps
`TimeOk` in every slot. -/
def TimeFrame (s t : State) : Prop :=
  t.ticks = s.ticks ∧ t.proc.length = s.proc.length ∧
  ∀ (j : Nat) (p q : Proc), s.proc[j]? = some p → t.proc[j]? = some q →
    TimeOk s.ticks p → TimeOk s.ticks q

/-- A run with the clock under MLFQ: `init` forks a child (slot 1, pid 2) at
tick 0 and waits; the child runs for two ticks, yields, waits one tick, runs
again and exits at tick 3; then `init` runs again. -/
def exClock : State :=
  run Policy.MLFQ
    (clock_tick Policy.MLFQ
      (run Policy.MLFQ
        (clock_tick Policy.MLFQ (clock_tick Policy.MLFQ
          (run Policy.MLFQ (boot Policy.MLFQ 3)
            [Label.userinit 1 1, Label.sched, Label.fork 0 1 1 true, Label.waitx 0 0 true,
             Label.sched])))
        [Label.yield 1]))
    [Label.sched, Label.exit 1 0, Label.sched]

/-- The ageing test of the accountant on a slot as it is before the tick: the
slot is `RUNNABLE` at a level other than 0 and its `wtime`, once incremented,
exceeds the threshold of its level. -/
def ages (pol : Policy) (threshold : Int → Int) (p : Proc) : Prop :=
  p.state = procstate.RUNNABLE ∧ pol = Policy.MLFQ ∧ p.wtime + 1 > threshold p.cur_queue ∧
    p.cur_queue ≠ 0

instance (pol : Policy) (threshold : Int → Int) (p : Proc) : Decidable (ages pol threshold p) := by
  unfold ages; infer_instance

/-- A single process pinned at level 4: the state `exInit` with `init` moved
by hand from queue 0 to queue 4 (no operation of the kernel moves a process
to a higher level). -/
def exPinned : State :=
  (push_to (pop_given exInit 0 1) 4 1).setProc 0
    { exInit.proc.getD 0 Proc.zero with cur_queue := 4, mlfq_priority := 4 }

/-- The values returned by the calls of `allocpid` that an operation makes in
state `s`: `userinit` and `fork` call `allocproc`, which calls `allocpid` once
when it finds an `UNUSED` slot (also when a later allocation fails); no other
operation calls it. -/
def allocpid_in (s : State) : Label → List Int
  | Label.userinit _ _ =>
    if (first_idx (fun p => decide (p.state = procstate.UNUSED)) s.proc).isSome then
      [(allocpid s).1]
    else []
  | Label.fork caller _ _ _ =>
    if (s.proc[caller]?).isSome ∧
        (first_idx (fun p => decide (p.state = procstate.UNUSED)) s.proc).isSome then
      [(allocpid s).1]
    else []
  | _ => []

/-- The values returned by the calls of `allocpid` during a run, in call
order. -/
def allocpid_trace (pol : Policy) : State → List Label → List Int
  | _, [] => []
  | s, l :: ls => allocpid_in s l ++ allocpid_trace pol (apply pol s l) ls

/-- A PBS system with three slots: `init` is set up, dispatched, and calls
`setpriority(50, 1)` on itself. -/
def exPriorityOk : State :=
  run Policy.PBS (boot Policy.PBS 3)
    [Label.userinit 1 1, Label.sched, Label.setpriority 0 50 1]

/-! # Theorems -/

/-! ## The queue operations on the logical content of a queue -/


theorem store_apply (row : Int → Int) (i v j : Int) :
    store row i v j = if j = i then v else row j := rfl

theorem shift_left_apply (row : Int → Int) (a : Int) (n : Nat) (j : Int) :
    shift_left row a n j = if a ≤ j ∧ j < a + n then row (j + 1) else row j := by
  induction n generalizing j with
  | zero =>
    have h : ¬ (a ≤ j ∧ j < a + ((0 : Nat) : Int)) := by push_cast; omega
    rw [if_neg h]; rfl
  | succ n ih =>
    have hs : shift_left row a (n + 1) =
        store (shift_left row a n) (a + (n : Int)) (shift_left row a n (a + (n : Int) + 1)) := by
      simp [shift_left, List.range_succ, List.foldl_append]
    rw [hs, store_apply]
    by_cases hj : j = a + (n : Int)
    · subst hj
      rw [if_pos rfl, ih]
      have h1 : ¬ (a ≤ a + (n:Int) + 1 ∧ a + (n:Int) + 1 < a + (n:Int)) := by omega
      rw [if_neg h1]
      have h2 : a ≤ a + (n:Int) ∧ a + (n:Int) < a + ((n + 1 : Nat) : Int) := by
        push_cast; omega
      rw [if_pos h2]
    · rw [if_neg hj, ih]
      by_cases h : a ≤ j ∧ j < a + (n:Int)
      · have h2 : a ≤ j ∧ j < a + ((n + 1 : Nat) : Int) := by push_cast; omega
        rw [if_pos h, if_pos h2]
      · have h2 : ¬ (a ≤ j ∧ j < a + ((n + 1 : Nat) : Int)) := by push_cast; omega
        rw [if_neg h, if_neg h2]


theorem qcontent_length (s : State) (q : Int) :
    (qcontent s q).length = (s.queue_tail q + 1).toNat := by
  simp [qcontent]

theorem qcontent_getElem? (s : State) (q : Int) (k : Nat) :
    (qcontent s q)[k]? = if k < (s.queue_tail q + 1).toNat then some (s.queue q (k : Int)) else none := by
  simp only [qcontent, List.getElem?_map, List.getElem?_range]
  by_cases h : k < (s.queue_tail q + 1).toNat
  · simp [h, List.getElem?_range]
  · simp [h, List.getElem?_eq_none]; omega

/-- queue content determined by tail and entries -/
theorem qcontent_congr (s t : State) (q l : Int) (ht : s.queue_tail q = t.queue_tail l)
    (hq : ∀ j : Int, 0 ≤ j → j ≤ s.queue_tail q → s.queue q j = t.queue l j) :
    qcontent s q = qcontent t l := by
  unfold qcontent
  rw [← ht]
  apply List.map_congr_left
  intro k hk
  rw [List.mem_range] at hk
  apply hq <;> omega

theorem push_to_proc (s : State) (q pid : Int) : (push_to s q pid).proc = s.proc := by
  unfold push_to; split <;> rfl

theorem qcontent_push_to_other (s : State) (q pid l : Int) (h : l ≠ q) :
    qcontent (push_to s q pid) l = qcontent s l := by
  unfold push_to
  split
  · rfl
  · apply qcontent_congr
    · simp [State.setRow, State.setTail, h]
    · intro j _ _
      simp [State.setRow, State.setTail, h]

theorem qcontent_push_to (s : State) (q pid : Int) (hp : 0 ≤ pid) (ht : -1 ≤ s.queue_tail q) :
    qcontent (push_to s q pid) q = qcontent s q ++ [pid] := by
  have hnp : ¬ pid < 0 := by omega
  apply List.ext_getElem?
  intro k
  rw [qcontent_getElem?]
  simp only [push_to, if_neg hnp, State.setRow, State.setTail, if_true, store_apply]
  by_cases hk : k < (s.queue_tail q + 1).toNat
  · rw [List.getElem?_append_left (by rw [qcontent_length]; exact hk), qcontent_getElem?, if_pos hk]
    have h1 : k < (s.queue_tail q + 1 + 1).toNat := by omega
    have h2 : ¬ ((k : Int) = s.queue_tail q + 1) := by omega
    rw [if_pos h1, if_neg h2]
  · rw [List.getElem?_append_right (by rw [qcontent_length]; omega), qcontent_length]
    by_cases hk2 : k = (s.queue_tail q + 1).toNat
    · have h1 : k < (s.queue_tail q + 1 + 1).toNat := by omega
      have h2 : (k : Int) = s.queue_tail q + 1 := by omega
      rw [if_pos h1, if_pos h2, hk2]; simp
    · have h1 : ¬ k < (s.queue_tail q + 1 + 1).toNat := by omega
      rw [if_neg h1]
      have : k - (s.queue_tail q + 1).toNat ≥ 1 := by omega
      rw [List.getElem?_eq_none]; simp; omega

theorem erase_eq_eraseIdx_of_first (l : List Int) (a : Int) (idx : Nat)
    (h1 : l[idx]? = some a) (h2 : ∀ j, j < idx → l[j]? ≠ some a) :
    l.erase a = l.eraseIdx idx := by
  induction l generalizing idx with
  | nil => simp at h1
  | cons b t ih =>
    cases idx with
    | zero =>
      simp at h1
      subst h1
      simp
    | succ k =>
      have hb : b ≠ a := by
        intro h
        exact h2 0 (Nat.succ_pos k) (by simp [h])
      rw [List.erase_cons]
      have : (b == a) = false := by simpa using hb
      rw [this]
      simp only [Bool.false_eq_true, if_false, List.eraseIdx_cons_succ]
      congr 1
      apply ih
      · simpa using h1
      · intro j hj
        have := h2 (j + 1) (by omega)
        simpa using this

theorem pop_given_proc (s : State) (q pid : Int) : (pop_given s q pid).proc = s.proc := by
  unfold pop_given; split <;> rfl

theorem pop_given_tail (s : State) (q pid l : Int) :
    (pop_given s q pid).queue_tail l =
      if l = q ∧ 0 ≤ s.queue_tail q then s.queue_tail q - 1 else s.queue_tail l := by
  unfold pop_given
  by_cases h : s.queue_tail q < 0
  · rw [if_pos h]
    have : ¬ (l = q ∧ 0 ≤ s.queue_tail q) := by omega
    rw [if_neg this]
  · rw [if_neg h]
    by_cases hl : l = q
    · subst hl
      have : (l = l ∧ 0 ≤ s.queue_tail l) := ⟨rfl, by omega⟩
      simp [State.setRow, State.setTail, this]
    · simp [State.setRow, State.setTail, hl]

theorem qcontent_pop_given_other (s : State) (q pid l : Int) (h : l ≠ q) :
    qcontent (pop_given s q pid) l = qcontent s l := by
  unfold pop_given
  split
  · rfl
  · apply qcontent_congr
    · simp [State.setRow, State.setTail, h]
    · intro j _ _
      simp [State.setRow, State.setTail, h]

theorem qcontent_pop_given (s : State) (q pid : Int) :
    qcontent (pop_given s q pid) q = (qcontent s q).tail := by
  by_cases h : s.queue_tail q < 0
  · have : qcontent s q = [] := by
      apply List.eq_nil_of_length_eq_zero
      rw [qcontent_length]; omega
    simp [pop_given, h, this]
  · apply List.ext_getElem?
    intro k
    rw [List.getElem?_tail, qcontent_getElem?, qcontent_getElem?, pop_given_tail]
    have hq : (q = q ∧ 0 ≤ s.queue_tail q) := ⟨rfl, by omega⟩
    rw [if_pos hq]
    by_cases hk : k < (s.queue_tail q - 1 + 1).toNat
    · have hk2 : k + 1 < (s.queue_tail q + 1).toNat := by omega
      rw [if_pos hk, if_pos hk2]
      simp only [pop_given, if_neg h, State.setRow, State.setTail, if_true, store_apply,
        shift_left_apply]
      have h1 : ¬ ((k : Int) = s.queue_tail q) := by omega
      have h2 : (0 : Int) ≤ (k : Int) ∧ (k : Int) < 0 + ((s.queue_tail q).toNat : Int) := by omega
      rw [if_neg h1, if_pos h2]
      push_cast; rfl
    · have hk2 : ¬ k + 1 < (s.queue_tail q + 1).toNat := by omega
      rw [if_neg hk, if_neg hk2]

theorem find_idx_some (row : Int → Int) (tail pid : Int) (idx : Nat)
    (h : find_idx row tail pid = some idx) :
    row (idx : Int) = pid ∧ (idx : Int) ≤ tail ∧ ∀ j : Nat, j < idx → row (j : Int) ≠ pid := by
  unfold find_idx at h
  rw [List.find?_range_eq_some] at h
  obtain ⟨h1, h2, h3⟩ := h
  rw [List.mem_range] at h2
  refine ⟨by simpa using h1, by omega, ?_⟩
  intro j hj
  simpa using h3 j hj

theorem find_idx_none (row : Int → Int) (tail pid : Int)
    (h : find_idx row tail pid = none) :
    ∀ j : Nat, (j : Int) ≤ tail → row (j : Int) ≠ pid := by
  unfold find_idx at h
  rw [List.find?_eq_none] at h
  intro j hj
  have := h j (by rw [List.mem_range]; omega)
  simpa using this

theorem mem_qcontent (s : State) (q x : Int) :
    x ∈ qcontent s q ↔ ∃ j : Nat, (j : Int) ≤ s.queue_tail q ∧ s.queue q (j : Int) = x := by
  unfold qcontent
  rw [List.mem_map]
  constructor
  · rintro ⟨j, hj, rfl⟩
    rw [List.mem_range] at hj
    exact ⟨j, by omega, rfl⟩
  · rintro ⟨j, hj, rfl⟩
    exact ⟨j, by rw [List.mem_range]; omega, rfl⟩

theorem pop_specific_absent (s : State) (q pid : Int) (h : pid ∉ qcontent s q) :
    pop_specific s q pid = s := by
  unfold pop_specific
  cases hf : find_idx (s.queue q) (s.queue_tail q) pid with
  | none => rfl
  | some idx =>
    exfalso
    obtain ⟨h1, h2, _⟩ := find_idx_some _ _ _ _ hf
    exact h ((mem_qcontent s q pid).2 ⟨idx, h2, h1⟩)

theorem pop_specific_proc (s : State) (q pid : Int) : (pop_specific s q pid).proc = s.proc := by
  unfold pop_specific; split <;> rfl

theorem qcontent_pop_specific_other (s : State) (q pid l : Int) (h : l ≠ q) :
    qcontent (pop_specific s q pid) l = qcontent s l := by
  unfold pop_specific
  split
  · rfl
  · apply qcontent_congr
    · simp [State.setRow, State.setTail, h]
    · intro j _ _
      simp [State.setRow, State.setTail, h]

theorem pop_specific_tail (s : State) (q pid : Int) (h : pid ∈ qcontent s q) :
    (pop_specific s q pid).queue_tail q = s.queue_tail q - 1 := by
  unfold pop_specific
  cases hf : find_idx (s.queue q) (s.queue_tail q) pid with
  | none =>
    exfalso
    obtain ⟨j, hj, hx⟩ := (mem_qcontent s q pid).1 h
    exact find_idx_none _ _ _ hf j hj hx
  | some idx => simp [State.setRow, State.setTail]

theorem qcontent_pop_specific (s : State) (q pid : Int) :
    qcontent (pop_specific s q pid) q = (qcontent s q).erase pid := by
  by_cases hm : pid ∈ qcontent s q
  swap
  · rw [pop_specific_absent s q pid hm, List.erase_of_not_mem hm]
  · cases hf : find_idx (s.queue q) (s.queue_tail q) pid with
    | none =>
      exfalso
      obtain ⟨j, hj, hx⟩ := (mem_qcontent s q pid).1 hm
      exact find_idx_none _ _ _ hf j hj hx
    | some idx =>
      obtain ⟨h1, h2, h3⟩ := find_idx_some _ _ _ _ hf
      rw [erase_eq_eraseIdx_of_first (qcontent s q) pid idx]
      · apply List.ext_getElem?
        intro k
        rw [List.getElem?_eraseIdx, qcontent_getElem?, qcontent_getElem?, qcontent_getElem?]
        simp only [pop_specific, hf, State.setRow, State.setTail, if_true, shift_left_apply]
        by_cases hk : k < (s.queue_tail q - 1 + 1).toNat
        · rw [if_pos hk]
          by_cases hki : k < idx
          · have a1 : k < (s.queue_tail q + 1).toNat := by omega
            have a2 : ¬ ((idx : Int) ≤ (k : Int) ∧
                (k : Int) < (idx : Int) + ((s.queue_tail q - (idx : Int)).toNat : Int)) := by omega
            rw [if_pos hki, if_pos a1, if_neg a2]
          · have a1 : k + 1 < (s.queue_tail q + 1).toNat := by omega
            have a2 : ((idx : Int) ≤ (k : Int) ∧
                (k : Int) < (idx : Int) + ((s.queue_tail q - (idx : Int)).toNat : Int)) := by omega
            rw [if_neg hki, if_pos a1, if_pos a2]
            push_cast; rfl
        · rw [if_neg hk]
          by_cases hki : k < idx
          · omega
          · have a1 : ¬ k + 1 < (s.queue_tail q + 1).toNat := by omega
            rw [if_neg hki, if_neg a1]
      · rw [qcontent_getElem?, if_pos (by omega), h1]
      · intro j hj
        rw [qcontent_getElem?]
        split
        · intro hc
          exact h3 j hj (Option.some.inj hc)
        · simp

/-! ## Claims C20 and C21: pop_given and pop_specific -/

/-- C21. `pop_specific` (remove_pid): when `pid` occurs in the queue, the
logical content loses exactly its first occurrence (the entries before and
after it keep their order) and the tail index decreases by one; when it does
not occur, the state is unchanged. -/
theorem pop_specific_removes_first_occurrence (s : State) (queue_number pid : Int) :
    (pid ∈ qcontent s queue_number →
      (∃ before after : List Int,
          qcontent s queue_number = before ++ pid :: after ∧ pid ∉ before ∧
          qcontent (pop_specific s queue_number pid) queue_number = before ++ after) ∧
        (pop_specific s queue_number pid).queue_tail queue_number
          = s.queue_tail queue_number - 1) ∧
    (pid ∉ qcontent s queue_number → pop_specific s queue_number pid = s) := by
  refine ⟨fun h => ⟨?_, pop_specific_tail s queue_number pid h⟩,
    pop_specific_absent s queue_number pid⟩
  obtain ⟨l1, l2, h1, h2, h3⟩ := List.exists_erase_eq h
  exact ⟨l1, l2, h2, h1, by rw [qcontent_pop_specific, h3]⟩

theorem pop_specific_removes_first_occurrence_witness :
    qcontent exQueues 1 = [3, 5, 3] ∧
    qcontent (pop_specific exQueues 1 3) 1 = [5, 3] ∧
    (pop_specific exQueues 1 3).queue_tail 1 = 1 ∧
    pop_specific exQueues 1 7 = exQueues := by
  have h3 : (3 : Int) ∈ qcontent exQueues 1 := by decide
  have h7 : (7 : Int) ∉ qcontent exQueues 1 := by decide
  have a := (pop_specific_removes_first_occurrence exQueues 1 3).1 h3
  have b := (pop_specific_removes_first_occurrence exQueues 1 7).2 h7
  exact ⟨by decide, by decide, by rw [a.2]; decide, b⟩

/-- C20. `pop_given` (pop_head): on a non-empty queue with tail index `t`
the entries `1..t` move to the indices `0..t-1` in the same order, index `t`
receives the sentinel `-1` and the tail becomes `t - 1`, whatever pid is
passed; on an empty queue nothing changes. -/
theorem pop_given_shifts_left (s : State) (queue_number pid : Int) :
    (0 ≤ s.queue_tail queue_number →
      (∀ j : Int, 0 ≤ j → j < s.queue_tail queue_number →
          (pop_given s queue_number pid).queue queue_number j = s.queue queue_number (j + 1)) ∧
      (pop_given s queue_number pid).queue queue_number (s.queue_tail queue_number) = -1 ∧
      (pop_given s queue_number pid).queue_tail queue_number = s.queue_tail queue_number - 1 ∧
      qcontent (pop_given s queue_number pid) queue_number = (qcontent s queue_number).tail) ∧
    (s.queue_tail queue_number < 0 → pop_given s queue_number pid = s) := by
  refine ⟨fun h => ⟨?_, ?_, ?_, qcontent_pop_given s queue_number pid⟩, ?_⟩
  · intro j h0 hj
    have hn : ¬ s.queue_tail queue_number < 0 := by omega
    simp only [pop_given, if_neg hn, State.setRow, State.setTail, if_true, store_apply,
      shift_left_apply]
    have h1 : ¬ (j = s.queue_tail queue_number) := by omega
    have h2 : (0 : Int) ≤ j ∧ j < 0 + ((s.queue_tail queue_number).toNat : Int) := by omega
    rw [if_neg h1, if_pos h2]
  · have hn : ¬ s.queue_tail queue_number < 0 := by omega
    simp [pop_given, hn, State.setRow, State.setTail, store_apply]
  · rw [pop_given_tail]
    simp [h]
  · intro h
    simp [pop_given, h]

theorem pop_given_shifts_left_witness :
    qcontent exQueues 1 = [3, 5, 3] ∧
    qcontent (pop_given exQueues 1 99) 1 = [5, 3] ∧
    (pop_given exQueues 1 99).queue 1 2 = -1 ∧
    (pop_given exQueues 1 99).queue_tail 1 = 1 ∧
    pop_given exQueues 2 5 = exQueues := by
  have a := (pop_given_shifts_left exQueues 1 99).1 (by decide)
  have b := (pop_given_shifts_left exQueues 2 5).2 (by decide)
  exact ⟨by decide, by decide, a.2.1, by rw [a.2.2.1]; decide, b⟩

/-! ## Frame lemmas of the state helpers -/

@[simp] theorem setProc_proc (s : State) (i : Nat) (p : Proc) :
    (s.setProc i p).proc = s.proc.set i p := rfl
@[simp] theorem setProc_queue (s : State) (i : Nat) (p : Proc) :
    (s.setProc i p).queue = s.queue := rfl
@[simp] theorem setProc_queue_tail (s : State) (i : Nat) (p : Proc) :
    (s.setProc i p).queue_tail = s.queue_tail := rfl
@[simp] theorem setProc_nextpid (s : State) (i : Nat) (p : Proc) :
    (s.setProc i p).nextpid = s.nextpid := rfl
@[simp] theorem setProc_initproc (s : State) (i : Nat) (p : Proc) :
    (s.setProc i p).initproc = s.initproc := rfl
@[simp] theorem setProc_ticks (s : State) (i : Nat) (p : Proc) :
    (s.setProc i p).ticks = s.ticks := rfl
@[simp] theorem setProc_ageing (s : State) (i : Nat) (p : Proc) :
    (s.setProc i p).ageing_threshold = s.ageing_threshold := rfl
@[simp] theorem qcontent_setProc (s : State) (i : Nat) (p : Proc) (q : Int) :
    qcontent (s.setProc i p) q = qcontent s q := rfl

@[simp] theorem push_to_nextpid (s : State) (q pid : Int) :
    (push_to s q pid).nextpid = s.nextpid := by
  unfold push_to; split <;> rfl
@[simp] theorem push_to_initproc (s : State) (q pid : Int) :
    (push_to s q pid).initproc = s.initproc := by
  unfold push_to; split <;> rfl
@[simp] theorem push_to_ticks (s : State) (q pid : Int) :
    (push_to s q pid).ticks = s.ticks := by
  unfold push_to; split <;> rfl
@[simp] theorem push_to_ageing (s : State) (q pid : Int) :
    (push_to s q pid).ageing_threshold = s.ageing_threshold := by
  unfold push_to; split <;> rfl
theorem push_to_tail (s : State) (q pid l : Int) :
    (push_to s q pid).queue_tail l =
      if l = q ∧ 0 ≤ pid then s.queue_tail q + 1 else s.queue_tail l := by
  unfold push_to
  by_cases h : pid < 0
  · have : ¬ (l = q ∧ 0 ≤ pid) := by omega
    rw [if_pos h, if_neg this]
  · rw [if_neg h]
    by_cases hl : l = q
    · subst hl
      have : l = l ∧ 0 ≤ pid := ⟨rfl, by omega⟩
      simp [State.setRow, State.setTail, this]
    · simp [State.setRow, State.setTail, hl]

@[simp] theorem pop_given_nextpid (s : State) (q pid : Int) :
    (pop_given s q pid).nextpid = s.nextpid := by
  unfold pop_given; split <;> rfl
@[simp] theorem pop_given_initproc (s : State) (q pid : Int) :
    (pop_given s q pid).initproc = s.initproc := by
  unfold pop_given; split <;> rfl
@[simp] theorem pop_given_ticks (s : State) (q pid : Int) :
    (pop_given s q pid).ticks = s.ticks := by
  unfold pop_given; split <;> rfl
@[simp] theorem pop_given_ageing (s : State) (q pid : Int) :
    (pop_given s q pid).ageing_threshold = s.ageing_threshold := by
  unfold pop_given; split <;> rfl

/-! ## Preservation of the invariants by a change of one slot -/

theorem getElem?_set_self_of_some {l : List Proc} {i : Nat} {p q : Proc}
    (h : l[i]? = some p) : (l.set i q)[i]? = some q := by
  have hi : i < l.length := by
    by_contra hc
    rw [List.getElem?_eq_none (by omega)] at h
    exact Option.noConfusion h
  rw [List.getElem?_set_self hi]

theorem PInv_set {n : Nat} {s t : State} {i : Nat} {p q : Proc}
    (h : PInv n s) (hi : s.proc[i]? = some p) (hp : t.proc = s.proc.set i q)
    (hn : s.nextpid ≤ t.nextpid)
    (h1 : q.state = procstate.UNUSED ↔ q.pid = 0)
    (h2 : q.pid = p.pid ∨ q.pid = 0 ∨ (s.nextpid ≤ q.pid ∧ q.pid < t.nextpid)) :
    PInv n t := by
  have hqi : t.proc[i]? = some q := by rw [hp]; exact getElem?_set_self_of_some hi
  have hne : ∀ j, j ≠ i → t.proc[j]? = s.proc[j]? := by
    intro j hj
    rw [hp, List.getElem?_set_ne (Ne.symm hj)]
  have hpr := h.pid_range i p hi
  constructor
  · rw [hp, List.length_set]; exact h.len
  · have := h.nextpid_pos; omega
  · intro j r hj
    by_cases hji : j = i
    · subst hji
      rw [hqi] at hj
      cases hj
      refine ⟨h1, ?_, ?_⟩
      · rcases h2 with h2 | h2 | h2 <;> omega
      · have := h.nextpid_pos
        rcases h2 with h2 | h2 | h2 <;> omega
    · rw [hne j hji] at hj
      have := h.pid_range j r hj
      exact ⟨this.1, this.2.1, by omega⟩
  · intro a b pa pb ha hb hab hnz
    by_cases hai : a = i
    · by_cases hbi : b = i
      · rw [hai, hbi]
      · exfalso
        subst hai
        rw [hqi] at ha
        cases ha
        rw [hne b hbi] at hb
        have hbr := h.pid_range b pb hb
        rcases h2 with h2 | h2 | h2
        · exact hbi (h.pid_inj a b p pb hi hb (by omega) (by omega)).symm
        · exact hnz h2
        · omega
    · by_cases hbi : b = i
      · exfalso
        subst hbi
        rw [hqi] at hb
        cases hb
        rw [hne a hai] at ha
        have har := h.pid_range a pa ha
        rcases h2 with h2 | h2 | h2
        · exact hai (h.pid_inj a b pa p ha hi (by omega) hnz)
        · omega
        · omega
      · rw [hne a hai] at ha
        rw [hne b hbi] at hb
        exact h.pid_inj a b pa pb ha hb hab hnz

theorem QInv_set {n : Nat} {s t : State} {i : Nat} {p q : Proc}
    (hP : PInv n s) (h : QInv s) (hi : s.proc[i]? = some p) (hp : t.proc = s.proc.set i q)
    (ht : ∀ l : Int, 1 ≤ l → l < 5 → t.queue_tail l = s.queue_tail l)
    (ht0 : -1 ≤ t.queue_tail 0)
    (hc : q.cur_queue = 0)
    (hr : q.state = procstate.RUNNING → q.mlfq_priority = -1)
    (hnd : (qcontent t 0).Nodup)
    (hm : ∀ x, x ∈ qcontent t 0 ↔
      (x ∈ qcontent s 0 ∧ ¬ (p.state = procstate.RUNNABLE ∧ p.pid = x)) ∨
      (q.state = procstate.RUNNABLE ∧ q.pid = x)) :
    QInv t := by
  have hqi : t.proc[i]? = some q := by rw [hp]; exact getElem?_set_self_of_some hi
  have hne : ∀ j, j ≠ i → t.proc[j]? = s.proc[j]? := by
    intro j hj
    rw [hp, List.getElem?_set_ne (Ne.symm hj)]
  constructor
  · intro l h1 h2
    rw [ht l h1 h2]; exact h.tails l h1 h2
  · exact ht0
  · intro j r hj
    by_cases hji : j = i
    · subst hji; rw [hqi] at hj; cases hj; exact hc
    · rw [hne j hji] at hj; exact h.curq j r hj
  · exact hnd
  · intro x
    rw [hm x]
    constructor
    · rintro (⟨hx, hnp⟩ | ⟨hq1, hq2⟩)
      · obtain ⟨j, r, hj, hr1, hr2⟩ := (h.mem x).1 hx
        have hji : j ≠ i := by
          intro hji
          subst hji
          rw [hi] at hj
          cases hj
          exact hnp ⟨hr1, hr2⟩
        exact ⟨j, r, by rw [hne j hji]; exact hj, hr1, hr2⟩
      · exact ⟨i, q, hqi, hq1, hq2⟩
    · rintro ⟨j, r, hj, hr1, hr2⟩
      by_cases hji : j = i
      · subst hji
        rw [hqi] at hj
        cases hj
        exact Or.inr ⟨hr1, hr2⟩
      · rw [hne j hji] at hj
        refine Or.inl ⟨(h.mem x).2 ⟨j, r, hj, hr1, hr2⟩, ?_⟩
        rintro ⟨_, hpx⟩
        have hrr := hP.pid_range j r hj
        have hnz : r.pid ≠ 0 := by
          intro h0
          have := hrr.1.2 h0
          rw [hr1] at this
          exact procstate.noConfusion this
        exact hji (hP.pid_inj j i r p hj hi (by omega) hnz)
  · intro j r hj
    by_cases hji : j = i
    · subst hji; rw [hqi] at hj; cases hj; exact hr
    · rw [hne j hji] at hj; exact h.running j r hj

/-- a slot changes without entering or leaving the `RUNNABLE` state -/
theorem QInv_mod {n : Nat} {s t : State} {i : Nat} {p q : Proc}
    (hP : PInv n s) (h : QInv s) (hi : s.proc[i]? = some p) (hp : t.proc = s.proc.set i q)
    (hq : ∀ l : Int, qcontent t l = qcontent s l) (htl : t.queue_tail = s.queue_tail)
    (hc : q.cur_queue = 0)
    (hr : q.state = procstate.RUNNING → q.mlfq_priority = -1)
    (hs : q.state = procstate.RUNNABLE ↔ p.state = procstate.RUNNABLE)
    (hpid : p.state = procstate.RUNNABLE → q.pid = p.pid) :
    QInv t := by
  apply QInv_set hP h hi hp (fun l _ _ => by rw [htl]) (by rw [htl]; exact h.tail0) hc hr
  · rw [hq]; exact h.nodup
  · intro x
    rw [hq]
    constructor
    · intro hx
      by_cases hpx : p.state = procstate.RUNNABLE ∧ p.pid = x
      · exact Or.inr ⟨hs.2 hpx.1, by rw [hpid hpx.1]; exact hpx.2⟩
      · exact Or.inl ⟨hx, hpx⟩
    · rintro (⟨hx, _⟩ | ⟨hq1, hq2⟩)
      · exact hx
      · exact (h.mem x).2 ⟨i, p, hi, hs.1 hq1, by rw [← hpid (hs.1 hq1)]; exact hq2⟩

/-- a slot that is in use and not `RUNNABLE` becomes `RUNNABLE` and its pid is
appended to queue 0 -/
theorem QInv_enq {n : Nat} {s t : State} {i : Nat} {p q : Proc}
    (hP : PInv n s) (h : QInv s) (hi : s.proc[i]? = some p) (hp : t.proc = s.proc.set i q)
    (hq : qcontent t 0 = qcontent s 0 ++ [p.pid])
    (ht : ∀ l : Int, 1 ≤ l → l < 5 → t.queue_tail l = s.queue_tail l)
    (ht0 : -1 ≤ t.queue_tail 0)
    (hc : q.cur_queue = 0)
    (hs : q.state = procstate.RUNNABLE) (hps : p.state ≠ procstate.RUNNABLE)
    (hpid : q.pid = p.pid) :
    QInv t := by
  have hnotin : p.pid ∉ qcontent s 0 := by
    intro hin
    obtain ⟨j, r, hj, hr1, hr2⟩ := (h.mem _).1 hin
    have hnz : r.pid ≠ 0 := by
      intro h0
      have := (hP.pid_range j r hj).1.2 h0
      rw [hr1] at this
      exact procstate.noConfusion this
    have := hP.pid_inj j i r p hj hi hr2 hnz
    subst this
    rw [hi] at hj; cases hj
    exact hps hr1
  apply QInv_set hP h hi hp ht ht0 hc (by rw [hs]; intro hh; exact procstate.noConfusion hh)
  · rw [hq]
    exact List.Nodup.append h.nodup (List.nodup_singleton _)
      (by
        intro a ha hb
        rw [List.mem_singleton] at hb
        subst hb
        exact hnotin ha)
  · intro x
    rw [hq, List.mem_append, List.mem_singleton]
    constructor
    · rintro (hx | hx)
      · exact Or.inl ⟨hx, fun hh => hps hh.1⟩
      · exact Or.inr ⟨hs, by rw [hpid, hx]⟩
    · rintro (⟨hx, _⟩ | ⟨_, hq2⟩)
      · exact Or.inl hx
      · exact Or.inr (by rw [← hq2, hpid])

/-- the `RUNNABLE` slot whose pid heads queue 0 leaves the `RUNNABLE` state and
the head of queue 0 is removed -/
theorem QInv_deq {n : Nat} {s t : State} {i : Nat} {p q : Proc}
    (hP : PInv n s) (h : QInv s) (hi : s.proc[i]? = some p) (hp : t.proc = s.proc.set i q)
    (hhead : (qcontent s 0).head? = some p.pid)
    (hq : qcontent t 0 = (qcontent s 0).tail)
    (ht : ∀ l : Int, 1 ≤ l → l < 5 → t.queue_tail l = s.queue_tail l)
    (ht0 : -1 ≤ t.queue_tail 0)
    (hc : q.cur_queue = 0)
    (hr : q.state = procstate.RUNNING → q.mlfq_priority = -1)
    (hs : q.state ≠ procstate.RUNNABLE) :
    QInv t := by
  obtain ⟨rest, hrest⟩ : ∃ rest, qcontent s 0 = p.pid :: rest := by
    cases hl : qcontent s 0 with
    | nil => rw [hl] at hhead; simp at hhead
    | cons a l =>
      rw [hl] at hhead
      simp at hhead
      exact ⟨l, by rw [hhead]⟩
  have hnd := h.nodup
  rw [hrest] at hnd
  rw [List.nodup_cons] at hnd
  have hps : p.state = procstate.RUNNABLE := by
    obtain ⟨j, r, hj, hr1, hr2⟩ := (h.mem p.pid).1 (by rw [hrest]; exact List.mem_cons_self _ _)
    have hnz : r.pid ≠ 0 := by
      intro h0
      have := (hP.pid_range j r hj).1.2 h0
      rw [hr1] at this
      exact procstate.noConfusion this
    have := hP.pid_inj j i r p hj hi hr2 hnz
    subst this
    rw [hi] at hj; cases hj
    exact hr1
  apply QInv_set hP h hi hp ht ht0 hc hr
  · rw [hq, hrest]; exact hnd.2
  · intro x
    rw [hq, hrest, List.tail_cons, List.mem_cons]
    constructor
    · intro hx
      refine Or.inl ⟨Or.inr hx, ?_⟩
      rintro ⟨_, hpx⟩
      rw [← hpx] at hx
      exact hnd.1 hx
    · rintro (⟨hx, hnp⟩ | ⟨hq1, _⟩)
      · rcases hx with hx | hx
        · exact absurd ⟨hps, hx.symm⟩ hnp
        · exact hx
      · exact absurd hq1 hs

/-! ## Helper lemmas on scans and loops -/

theorem first_idx_some (f : Proc → Bool) (l : List Proc) (i : Nat)
    (h : first_idx f l = some i) :
    ∃ p, l[i]? = some p ∧ f p = true ∧
      ∀ (j : Nat) (q : Proc), j < i → l[j]? = some q → f q = false := by
  induction l generalizing i with
  | nil => simp [first_idx] at h
  | cons a t ih =>
    unfold first_idx at h
    by_cases ha : f a = true
    · rw [if_pos ha] at h
      cases h
      exact ⟨a, by simp, ha, fun j q hj _ => absurd hj (Nat.not_lt_zero j)⟩
    · rw [if_neg ha] at h
      cases hr : first_idx f t with
      | none => rw [hr] at h; simp at h
      | some k =>
        rw [hr] at h
        simp at h
        subst h
        obtain ⟨p, hp1, hp2, hp3⟩ := ih k hr
        refine ⟨p, by simpa using hp1, hp2, ?_⟩
        intro j q hj hq
        cases j with
        | zero =>
          simp at hq
          subst hq
          simpa using ha
        | succ j =>
          exact hp3 j q (by omega) (by simpa using hq)

theorem first_idx_none (f : Proc → Bool) (l : List Proc) (h : first_idx f l = none) :
    ∀ (j : Nat) (q : Proc), l[j]? = some q → f q = false := by
  induction l with
  | nil => intro j q hq; simp at hq
  | cons a t ih =>
    unfold first_idx at h
    by_cases ha : f a = true
    · rw [if_pos ha] at h; cases h
    · rw [if_neg ha] at h
      have hr : first_idx f t = none := by
        cases hr : first_idx f t with
        | none => rfl
        | some k => rw [hr] at h; simp at h
      intro j q hq
      cases j with
      | zero =>
        simp at hq
        subst hq
        simpa using ha
      | succ j => exact ih hr j q (by simpa using hq)

theorem foldl_inv {σ : Type} (P : σ → Prop) (f : σ → Nat → σ) (l : List Nat) (s : σ)
    (hf : ∀ (t : σ) (i : Nat), P t → P (f t i)) (h : P s) : P (l.foldl f s) := by
  induction l generalizing s with
  | nil => exact h
  | cons a t ih => exact ih (f s a) (hf s a h)

theorem running_iff (s : State) (i : Nat) :
    running s i = true ↔ ∃ p, s.proc[i]? = some p ∧ p.state = procstate.RUNNING := by
  unfold running
  cases h : s.proc[i]? with
  | none => simp
  | some p => simp

theorem qcontent_eq_of_queue_eq {s t : State} (hq : t.queue = s.queue)
    (ht : t.queue_tail = s.queue_tail) (l : Int) : qcontent t l = qcontent s l := by
  unfold qcontent; rw [hq, ht]

/-! ## Preservation of the invariant by the elementary transitions -/

theorem Inv_mod {pol : Policy} {n : Nat} {s t : State} {i : Nat} {p q : Proc}
    (h : Inv pol n s) (hi : s.proc[i]? = some p) (hp : t.proc = s.proc.set i q)
    (hq : t.queue = s.queue) (htl : t.queue_tail = s.queue_tail)
    (hn : s.nextpid ≤ t.nextpid)
    (h1 : q.state = procstate.UNUSED ↔ q.pid = 0)
    (h2 : q.pid = p.pid ∨ q.pid = 0 ∨ (s.nextpid ≤ q.pid ∧ q.pid < t.nextpid))
    (hc : pol = Policy.MLFQ → q.cur_queue = p.cur_queue)
    (hr : pol = Policy.MLFQ → q.state = procstate.RUNNING →
      p.state = procstate.RUNNING ∧ q.mlfq_priority = p.mlfq_priority)
    (hs : pol = Policy.MLFQ → (q.state = procstate.RUNNABLE ↔ p.state = procstate.RUNNABLE))
    (hpid : pol = Policy.MLFQ → p.state = procstate.RUNNABLE → q.pid = p.pid) :
    Inv pol n t := by
  refine ⟨PInv_set h.1 hi hp hn h1 h2, fun hm => ?_⟩
  have hQ := h.2 hm
  apply QInv_mod h.1 hQ hi hp (qcontent_eq_of_queue_eq hq htl) htl
  · rw [hc hm]; exact hQ.curq i p hi
  · intro hq1
    obtain ⟨a, b⟩ := hr hm hq1
    rw [b]; exact hQ.running i p hi a
  · exact hs hm
  · exact hpid hm

/-- a pure change of fields other than `state`, `pid`, `cur_queue` and
`mlfq_priority` -/
theorem Inv_fields {pol : Policy} {n : Nat} {s t : State} {i : Nat} {p q : Proc}
    (h : Inv pol n s) (hi : s.proc[i]? = some p) (hp : t.proc = s.proc.set i q)
    (hq : t.queue = s.queue) (htl : t.queue_tail = s.queue_tail)
    (hn : t.nextpid = s.nextpid)
    (h1 : q.state = p.state) (h2 : q.pid = p.pid) (h3 : q.cur_queue = p.cur_queue)
    (h4 : q.mlfq_priority = p.mlfq_priority) : Inv pol n t := by
  have hpr := h.1.pid_range i p hi
  apply Inv_mod h hi hp hq htl (by omega)
  · rw [h1, h2]; exact hpr.1
  · exact Or.inl h2
  · exact fun _ => h3
  · intro _ hr; rw [h1] at hr; exact ⟨hr, h4⟩
  · intro _; rw [h1]
  · exact fun _ _ => h2

theorem Inv_enq {pol : Policy} {n : Nat} {s t : State} {i : Nat} {p q : Proc}
    (h : Inv pol n s) (hi : s.proc[i]? = some p)
    (hps : p.state ≠ procstate.RUNNABLE) (hpu : p.state ≠ procstate.UNUSED)
    (hp : t.proc = s.proc.set i q) (hn : t.nextpid = s.nextpid)
    (hs : q.state = procstate.RUNNABLE) (hpid : q.pid = p.pid)
    (hc : pol = Policy.MLFQ → q.cur_queue = 0)
    (hq : pol = Policy.MLFQ → qcontent t 0 = qcontent s 0 ++ [p.pid] ∧
      (∀ l : Int, 1 ≤ l → l < 5 → t.queue_tail l = s.queue_tail l) ∧ -1 ≤ t.queue_tail 0) :
    Inv pol n t := by
  have hpr := h.1.pid_range i p hi
  refine ⟨PInv_set h.1 hi hp (by omega) ?_ (Or.inl hpid), fun hm => ?_⟩
  · rw [hs, hpid]
    constructor
    · intro hh; exact procstate.noConfusion hh
    · intro hh; exact absurd (hpr.1.2 hh) hpu
  · obtain ⟨a, b, c⟩ := hq hm
    exact QInv_enq h.1 (h.2 hm) hi hp a b c (hc hm) hs hps hpid

theorem push_facts (s : State) (pid : Int) (h0 : 0 ≤ pid) (ht : -1 ≤ s.queue_tail 0) :
    qcontent (push_to s 0 pid) 0 = qcontent s 0 ++ [pid] ∧
    (∀ l : Int, 1 ≤ l → l < 5 → (push_to s 0 pid).queue_tail l = s.queue_tail l) ∧
    -1 ≤ (push_to s 0 pid).queue_tail 0 := by
  refine ⟨qcontent_push_to s 0 pid h0 ht, ?_, ?_⟩
  · intro l h1 _
    rw [push_to_tail]
    have : ¬ (l = 0 ∧ 0 ≤ pid) := by omega
    rw [if_neg this]
  · rw [push_to_tail]
    have : (0 : Int) = 0 ∧ 0 ≤ pid := ⟨rfl, h0⟩
    rw [if_pos this]; omega

/-! ## Preservation of the invariant by the operations -/

theorem Inv_sleep {pol : Policy} {n : Nat} {s : State} (caller : Nat) (chan : Chan)
    (h : Inv pol n s) (hr : running s caller = true) : Inv pol n (sleep s caller chan) := by
  obtain ⟨p, hp, hps⟩ := (running_iff s caller).1 hr
  have hpr := h.1.pid_range caller p hp
  simp only [sleep, hp]
  refine Inv_mod h hp rfl rfl rfl (le_refl _) ?_ ?_ ?_ ?_ ?_ ?_
  · simp only []
    constructor
    · intro hh; exact procstate.noConfusion hh
    · intro hh; have := hpr.1.2 hh; rw [hps] at this; exact procstate.noConfusion this
  · exact Or.inl rfl
  · exact fun _ => rfl
  · intro _ hh; exact procstate.noConfusion hh
  · intro _
    simp only [hps]
    constructor <;> intro hh <;> exact procstate.noConfusion hh
  · exact fun _ _ => rfl

theorem Inv_sleep_return {pol : Policy} {n : Nat} {s : State} (caller : Nat)
    (h : Inv pol n s) : Inv pol n (sleep_return s caller) := by
  unfold sleep_return
  cases hp : s.proc[caller]? with
  | none => exact h
  | some p => exact Inv_fields h hp rfl rfl rfl rfl rfl rfl rfl rfl

theorem Inv_tick {pol : Policy} {n : Nat} {s : State} (h : Inv pol n s) (k : Int) :
    Inv pol n { s with ticks := k } := by
  obtain ⟨hP, hQ⟩ := h
  exact ⟨⟨hP.len, hP.nextpid_pos, hP.pid_range, hP.pid_inj⟩,
    fun hm => ⟨(hQ hm).tails, (hQ hm).tail0, (hQ hm).curq, (hQ hm).nodup, (hQ hm).mem,
      (hQ hm).running⟩⟩

/-- the transition to `RUNNABLE` with the MLFQ enqueue, as `yield`, `wakeup`
and `kill` perform it -/
theorem Inv_enqueue {pol : Policy} {n : Nat} {s : State} {i : Nat} {p : Proc}
    (h : Inv pol n s) (hi : s.proc[i]? = some p)
    (hps : p.state ≠ procstate.RUNNABLE) (hpu : p.state ≠ procstate.UNUSED) :
    Inv pol n (make_runnable pol s i p) := by
  have hpr := h.1.pid_range i p hi
  by_cases hm : pol = Policy.MLFQ
  · subst hm
    have hc := (h.2 rfl).curq i p hi
    have e : make_runnable Policy.MLFQ s i p =
        (push_to (s.setProc i { p with state := procstate.RUNNABLE }) 0 p.pid).setProc i
          { p with state := procstate.RUNNABLE, mlfq_priority := 0 } := by
      simp [make_runnable, hc]
    rw [e]
    have key := push_facts (s.setProc i { p with state := procstate.RUNNABLE }) p.pid hpr.2.1
      (h.2 rfl).tail0
    refine Inv_enq (q := { p with state := procstate.RUNNABLE, mlfq_priority := 0 })
      h hi hps hpu ?_ ?_ rfl rfl (fun _ => hc) (fun _ => key)
    · simp [push_to_proc, List.set_set]
    · simp
  · have e : make_runnable pol s i p = s.setProc i { p with state := procstate.RUNNABLE } := by
      simp [make_runnable, hm]
    rw [e]
    exact Inv_enq (q := { p with state := procstate.RUNNABLE }) h hi hps hpu rfl rfl rfl rfl
      (fun hm2 => absurd hm2 hm) (fun hm2 => absurd hm2 hm)

theorem Inv_yield {pol : Policy} {n : Nat} {s : State} (caller : Nat)
    (h : Inv pol n s) (hr : running s caller = true) : Inv pol n (yield pol s caller) := by
  obtain ⟨p, hp, hps⟩ := (running_iff s caller).1 hr
  have : yield pol s caller = make_runnable pol s caller p := by
    simp only [yield, make_runnable, hp]
  rw [this]
  apply Inv_enqueue h hp <;> rw [hps] <;> intro hh <;> exact procstate.noConfusion hh

theorem Inv_wakeup_body {pol : Policy} {n : Nat} (caller : Option Nat) (chan : Chan)
    (s : State) (i : Nat) (h : Inv pol n s) : Inv pol n (wakeup_body pol caller chan s i) := by
  unfold wakeup_body
  split
  · exact h
  · cases hp : s.proc[i]? with
    | none => exact h
    | some p =>
      simp only []
      split
      · rename_i hc
        apply Inv_enqueue h hp <;> rw [hc.1] <;> intro hh <;> exact procstate.noConfusion hh
      · exact h

theorem Inv_wakeup {pol : Policy} {n : Nat} {s : State} (caller : Option Nat) (chan : Chan)
    (h : Inv pol n s) : Inv pol n (wakeup pol s caller chan) := by
  unfold wakeup
  exact foldl_inv (Inv pol n) _ _ s (fun t i ht => Inv_wakeup_body caller chan t i ht) h

theorem Inv_kill {pol : Policy} {n : Nat} {s : State} (pid : Int)
    (h : Inv pol n s) : Inv pol n (kill pol s pid).1 := by
  unfold kill
  cases hf : first_idx (fun p => decide (p.pid = pid)) s.proc with
  | none => exact h
  | some i =>
    simp only []
    cases hp : s.proc[i]? with
    | none => exact h
    | some p =>
      simp only []
      have h1 : Inv pol n (s.setProc i { p with killed := 1 }) :=
        Inv_fields h hp rfl rfl rfl rfl rfl rfl rfl rfl
      split
      · rename_i hs
        have hs2 : p.state = procstate.SLEEPING := hs
        apply Inv_enqueue h1 (getElem?_set_self_of_some hp)
        · show p.state ≠ procstate.RUNNABLE
          rw [hs2]; intro hh; exact procstate.noConfusion hh
        · show p.state ≠ procstate.UNUSED
          rw [hs2]; intro hh; exact procstate.noConfusion hh
      · exact h1

theorem Inv_freeproc {pol : Policy} {n : Nat} {s : State} {i : Nat} {p : Proc}
    (h : Inv pol n s) (hi : s.proc[i]? = some p)
    (hps : p.state ≠ procstate.RUNNABLE) :
    Inv pol n (s.setProc i (freeproc p)) := by
  refine Inv_mod h hi rfl rfl rfl (le_refl _) ?_ ?_ ?_ ?_ ?_ ?_
  · simp [freeproc]
  · exact Or.inr (Or.inl rfl)
  · exact fun _ => rfl
  · intro _ hh; exact procstate.noConfusion hh
  · intro _
    constructor
    · intro hh; exact procstate.noConfusion hh
    · intro hh; exact absurd hh hps
  · intro _ hh; exact absurd hh hps

/-- what `allocproc` leaves behind: the invariant holds, and a slot it returns
is `USED` with a positive pid, at MLFQ level it had before -/
theorem Inv_allocproc {pol : Policy} {n : Nat} {s : State} (tf pt : Int)
    (h : Inv pol n s) :
    Inv pol n (allocproc s tf pt).1 ∧
    ∀ i, (allocproc s tf pt).2 = some i →
      ∃ p, (allocproc s tf pt).1.proc[i]? = some p ∧ p.state = procstate.USED := by
  unfold allocproc
  cases hf : first_idx (fun p => decide (p.state = procstate.UNUSED)) s.proc with
  | none => exact ⟨h, fun i hi => Option.noConfusion hi⟩
  | some i =>
    simp only []
    cases hp : s.proc[i]? with
    | none => exact ⟨h, fun i hi => Option.noConfusion hi⟩
    | some p0 =>
      simp only []
      obtain ⟨p0', hp0', hu, _⟩ := first_idx_some _ _ _ hf
      rw [hp] at hp0'; cases hp0'
      have hu : p0.state = procstate.UNUSED := by simpa using hu
      have hpos := h.1.nextpid_pos
      -- the slot as allocated
      have halloc : ∀ q : Proc, q.state = procstate.USED → q.pid = s.nextpid →
          q.cur_queue = p0.cur_queue →
          Inv pol n ((allocpid s).2.setProc i q) := by
        intro q hq1 hq2 hq3
        refine Inv_mod h hp rfl rfl rfl (by simp [allocpid]) ?_ ?_ ?_ ?_ ?_ ?_
        · rw [hq1, hq2]
          constructor
          · intro hh; exact procstate.noConfusion hh
          · intro hh; omega
        · exact Or.inr (Or.inr ⟨by omega, by simp [allocpid]; omega⟩)
        · exact fun _ => hq3
        · intro _ hh; rw [hq1] at hh; exact procstate.noConfusion hh
        · intro _
          rw [hq1, hu]
          constructor <;> intro hh <;> exact procstate.noConfusion hh
        · intro _ hh; rw [hu] at hh; exact procstate.noConfusion hh
      have hfree : ∀ q : Proc, q.state = procstate.USED → q.pid = s.nextpid →
          q.cur_queue = p0.cur_queue →
          Inv pol n ((allocpid s).2.setProc i (freeproc q)) := by
        intro q hq1 hq2 hq3
        have h1 := halloc q hq1 hq2 hq3
        have h2 := Inv_freeproc h1 (getElem?_set_self_of_some hp)
          (by rw [hq1]; intro hh; exact procstate.noConfusion hh)
        simpa [State.setProc, List.set_set] using h2
      by_cases htf : tf = 0
      · rw [if_pos htf]
        exact ⟨hfree _ rfl rfl rfl, fun i hi => Option.noConfusion hi⟩
      · rw [if_neg htf]
        by_cases hpt : pt = 0
        · rw [if_pos hpt]
          exact ⟨hfree _ rfl rfl rfl, fun i hi => Option.noConfusion hi⟩
        · rw [if_neg hpt]
          refine ⟨halloc _ rfl rfl rfl, ?_⟩
          intro j hj
          cases hj
          exact ⟨_, getElem?_set_self_of_some hp, rfl⟩

theorem Inv_initproc {pol : Policy} {n : Nat} {s : State} (h : Inv pol n s) (k : Option Nat) :
    Inv pol n { s with initproc := k } := by
  obtain ⟨hP, hQ⟩ := h
  exact ⟨⟨hP.len, hP.nextpid_pos, hP.pid_range, hP.pid_inj⟩,
    fun hm => ⟨(hQ hm).tails, (hQ hm).tail0, (hQ hm).curq, (hQ hm).nodup, (hQ hm).mem,
      (hQ hm).running⟩⟩

/-- a `USED` slot becomes `RUNNABLE` at level 0 and, under MLFQ, its pid is
pushed to queue 0: the last step of `userinit` and `fork` -/
theorem Inv_start {pol : Policy} {n : Nat} {s t : State} {i : Nat} {p q : Proc}
    (h : Inv pol n s) (hi : s.proc[i]? = some p) (hps : p.state = procstate.USED)
    (hq1 : q.state = procstate.RUNNABLE) (hq2 : q.pid = p.pid)
    (hq3 : pol = Policy.MLFQ → q.cur_queue = 0)
    (ht : t = if pol = Policy.MLFQ then push_to (s.setProc i q) 0 q.pid else s.setProc i q) :
    Inv pol n t := by
  have hpr := h.1.pid_range i p hi
  subst ht
  by_cases hm : pol = Policy.MLFQ
  · subst hm
    rw [if_pos rfl]
    have key := push_facts (s.setProc i q) p.pid hpr.2.1 (h.2 rfl).tail0
    rw [hq2]
    refine Inv_enq (q := q) h hi ?_ ?_ ?_ ?_ hq1 hq2 hq3 (fun _ => key)
    · rw [hps]; intro hh; exact procstate.noConfusion hh
    · rw [hps]; intro hh; exact procstate.noConfusion hh
    · simp [push_to_proc]
    · simp
  · rw [if_neg hm]
    refine Inv_enq (q := q) h hi ?_ ?_ rfl rfl hq1 hq2 (fun hm2 => absurd hm2 hm)
      (fun hm2 => absurd hm2 hm)
    · rw [hps]; intro hh; exact procstate.noConfusion hh
    · rw [hps]; intro hh; exact procstate.noConfusion hh

theorem Inv_setProc_fields {pol : Policy} {n : Nat} {s : State} {i : Nat} {p : Proc}
    (q : Proc) (h : Inv pol n s) (hi : s.proc[i]? = some p)
    (h1 : q.state = p.state) (h2 : q.pid = p.pid) (h3 : q.cur_queue = p.cur_queue)
    (h4 : p.state = procstate.RUNNING → q.mlfq_priority = p.mlfq_priority) :
    Inv pol n (s.setProc i q) := by
  have hpr := h.1.pid_range i p hi
  refine Inv_mod h hi rfl rfl rfl (le_refl _) ?_ ?_ ?_ ?_ ?_ ?_
  · rw [h1, h2]; exact hpr.1
  · exact Or.inl h2
  · exact fun _ => h3
  · intro _ hr; rw [h1] at hr; exact ⟨hr, h4 hr⟩
  · intro _; rw [h1]
  · exact fun _ _ => h2

theorem push_setProc_get {s : State} {i : Nat} {p q : Proc} (h : s.proc[i]? = some p)
    (l pid : Int) : (push_to (s.setProc i q) l pid).proc[i]? = some q := by
  rw [push_to_proc]
  exact getElem?_set_self_of_some h

theorem Inv_userinit {pol : Policy} {n : Nat} {s : State} (tf pt : Int)
    (h : Inv pol n s) : Inv pol n (userinit pol s tf pt) := by
  obtain ⟨h1, h2⟩ := Inv_allocproc tf pt h
  cases hr : (allocproc s tf pt).2 with
  | none =>
    simp only [userinit, hr]
    exact h1
  | some i =>
    obtain ⟨p, hp, hps⟩ := h2 i hr
    have h3 := Inv_initproc h1 (some i)
    have hp3 : ({ (allocproc s tf pt).1 with initproc := some i } : State).proc[i]? = some p := hp
    simp only [userinit, hr, hp]
    by_cases hm : pol = Policy.MLFQ
    · subst hm
      simp only [if_true]
      have h4 := Inv_start
        (q := { p with
                sz := 4096
                name := safestrcpy p.name initcode_name 16
                state := procstate.RUNNABLE
                cur_queue := 0 })
        h3 hp3 hps rfl rfl (fun _ => rfl) rfl
      rw [if_pos rfl] at h4
      refine Inv_setProc_fields _ h4 (push_setProc_get hp3 _ _) rfl rfl rfl ?_
      intro hh; exact procstate.noConfusion hh
    · simp only [hm, if_false]
      exact Inv_start
        (q := { p with
                sz := 4096
                name := safestrcpy p.name initcode_name 16
                state := procstate.RUNNABLE })
        h3 hp3 hps rfl rfl (fun hm2 => absurd hm2 hm) (by rw [if_neg hm])

theorem Inv_start_mlfq {n : Nat} {s : State} {i : Nat} {p : Proc} (q : Proc)
    (h : Inv Policy.MLFQ n s) (hi : s.proc[i]? = some p) (hps : p.state = procstate.USED)
    (hq1 : q.state = procstate.RUNNABLE) (hq2 : q.pid = p.pid) (hq3 : q.cur_queue = 0)
    (pid : Int) (hpid : pid = p.pid) :
    Inv Policy.MLFQ n (push_to (s.setProc i q) 0 pid) :=
  Inv_start h hi hps hq1 hq2 (fun _ => hq3) (by rw [if_pos rfl, hpid, hq2])

theorem Inv_start_other {pol : Policy} {n : Nat} {s : State} {i : Nat} {p : Proc} (q : Proc)
    (hm : pol ≠ Policy.MLFQ)
    (h : Inv pol n s) (hi : s.proc[i]? = some p) (hps : p.state = procstate.USED)
    (hq1 : q.state = procstate.RUNNABLE) (hq2 : q.pid = p.pid) :
    Inv pol n (s.setProc i q) :=
  Inv_start h hi hps hq1 hq2 (fun hm2 => absurd hm2 hm) (by rw [if_neg hm])

theorem Inv_fork {pol : Policy} {n : Nat} {s : State} (caller : Nat) (tf pt : Int)
    (copyok : Bool) (h : Inv pol n s) : Inv pol n (fork pol s caller tf pt copyok).1 := by
  obtain ⟨h1, h2⟩ := Inv_allocproc tf pt h
  cases hc : s.proc[caller]? with
  | none => simp only [fork, hc]; exact h
  | some p =>
    cases hr : (allocproc s tf pt).2 with
    | none => simp only [fork, hc, hr]; exact h1
    | some i =>
      obtain ⟨np, hnp, hnps⟩ := h2 i hr
      simp only [fork, hc, hr, hnp]
      by_cases hco : copyok = false
      · rw [if_pos hco]
        exact Inv_freeproc h1 hnp (by rw [hnps]; intro hh; exact procstate.noConfusion hh)
      · rw [if_neg hco]
        by_cases hm : pol = Policy.MLFQ
        · subst hm
          rw [if_pos rfl]
          refine Inv_start_mlfq _ h1 hnp hnps ?_ ?_ ?_ _ ?_ <;> rfl
        · rw [if_neg hm]
          refine Inv_start_other _ hm h1 hnp hnps ?_ ?_ <;> rfl

/-- a `RUNNING` slot changes to `SLEEPING` or `ZOMBIE` -/
theorem Inv_setProc_block {pol : Policy} {n : Nat} {s : State} {i : Nat} {p : Proc}
    (q : Proc) (h : Inv pol n s) (hi : s.proc[i]? = some p)
    (hp1 : p.state = procstate.RUNNING)
    (hq : q.state = procstate.SLEEPING ∨ q.state = procstate.ZOMBIE)
    (h2 : q.pid = p.pid) (h3 : q.cur_queue = p.cur_queue) : Inv pol n (s.setProc i q) := by
  have hpr := h.1.pid_range i p hi
  refine Inv_mod h hi rfl rfl rfl (le_refl _) ?_ ?_ ?_ ?_ ?_ ?_
  · rw [h2]
    constructor
    · intro hh; rcases hq with hq | hq <;> rw [hq] at hh <;> exact procstate.noConfusion hh
    · intro hh; have := hpr.1.2 hh; rw [hp1] at this; exact procstate.noConfusion this
  · exact Or.inl h2
  · exact fun _ => h3
  · intro _ hh; rcases hq with hq | hq <;> rw [hq] at hh <;> exact procstate.noConfusion hh
  · intro _
    rw [hp1]
    constructor
    · intro hh; rcases hq with hq | hq <;> rw [hq] at hh <;> exact procstate.noConfusion hh
    · intro hh; exact procstate.noConfusion hh
  · intro _ hh; rw [hp1] at hh; exact procstate.noConfusion hh

/-! ### `wakeup`, `reparent` and `setpriority` keep the state of a running slot -/

theorem make_runnable_get_ne (pol : Policy) (s : State) (i j : Nat) (p : Proc) (h : j ≠ i) :
    (make_runnable pol s i p).proc[j]? = s.proc[j]? := by
  unfold make_runnable
  split
  · simp [push_to_proc, List.getElem?_set_ne (Ne.symm h)]
  · simp [List.getElem?_set_ne (Ne.symm h)]

theorem running_wakeup_body (pol : Policy) (caller : Option Nat) (chan : Chan) (s : State)
    (i c : Nat) (h : running s c = true) : running (wakeup_body pol caller chan s i) c = true := by
  obtain ⟨p, hp, hps⟩ := (running_iff s c).1 h
  unfold wakeup_body
  split
  · exact h
  · cases hi : s.proc[i]? with
    | none => exact h
    | some q =>
      simp only []
      split
      · rename_i hq
        have hne : c ≠ i := by
          intro hci
          subst hci
          rw [hp] at hi; cases hi
          rw [hps] at hq
          exact procstate.noConfusion hq.1
        rw [running_iff]
        exact ⟨p, by rw [make_runnable_get_ne pol s i c q hne]; exact hp, hps⟩
      · exact h

theorem running_wakeup (pol : Policy) (s : State) (caller : Option Nat) (chan : Chan) (c : Nat)
    (h : running s c = true) : running (wakeup pol s caller chan) c = true := by
  unfold wakeup
  exact foldl_inv (fun t => running t c = true) _ _ s
    (fun t i ht => running_wakeup_body pol caller chan t i c ht) h

theorem running_setProc_state (s : State) (i c : Nat) (p q : Proc) (hi : s.proc[i]? = some p)
    (hq : q.state = p.state) (h : running s c = true) : running (s.setProc i q) c = true := by
  obtain ⟨r, hr, hrs⟩ := (running_iff s c).1 h
  rw [running_iff]
  by_cases hci : c = i
  · subst hci
    rw [hi] at hr; cases hr
    exact ⟨q, getElem?_set_self_of_some hi, by rw [hq]; exact hrs⟩
  · exact ⟨r, by simp [List.getElem?_set_ne (Ne.symm hci), hr], hrs⟩

theorem Inv_reparent_body {pol : Policy} {n : Nat} (caller : Nat) (s : State) (i : Nat)
    (h : Inv pol n s ∧ running s caller = true) :
    Inv pol n (reparent_body pol caller s i) ∧
      running (reparent_body pol caller s i) caller = true := by
  unfold reparent_body
  cases hi : s.proc[i]? with
  | none => exact h
  | some pp =>
    simp only []
    split
    · have h1 : Inv pol n (s.setProc i { pp with parent := s.initproc }) :=
        Inv_setProc_fields _ h.1 hi rfl rfl rfl (fun _ => rfl)
      have h2 : running (s.setProc i { pp with parent := s.initproc }) caller = true :=
        running_setProc_state s i caller pp _ hi rfl h.2
      exact ⟨Inv_wakeup _ _ h1, running_wakeup _ _ _ _ _ h2⟩
    · exact h

theorem Inv_reparent {pol : Policy} {n : Nat} {s : State} (caller : Nat)
    (h : Inv pol n s) (hr : running s caller = true) :
    Inv pol n (reparent pol s caller) ∧ running (reparent pol s caller) caller = true := by
  unfold reparent
  exact foldl_inv (fun t => Inv pol n t ∧ running t caller = true) _ _ s
    (fun t i ht => Inv_reparent_body caller t i ht) ⟨h, hr⟩

theorem Inv_exit {pol : Policy} {n : Nat} {s : State} (caller : Nat) (status : Int)
    (h : Inv pol n s) (hr : running s caller = true) :
    Inv pol n (exit pol s caller status) := by
  obtain ⟨h1, hr1⟩ := Inv_reparent caller h hr
  obtain ⟨p, hp, _⟩ := (running_iff _ caller).1 hr1
  simp only [exit, hp]
  have h2 := Inv_wakeup (some caller) (Chan.ofPtr p.parent) h1
  have hr2 := running_wakeup pol _ (some caller) (Chan.ofPtr p.parent) caller hr1
  obtain ⟨p2, hp2, hps2⟩ := (running_iff _ caller).1 hr2
  simp only [hp2]
  exact Inv_setProc_block _ h2 hp2 hps2 (Or.inr rfl) rfl rfl

theorem Inv_wait {pol : Policy} {n : Nat} {s : State} (caller : Nat) (addr : Int)
    (copyok : Bool) (h : Inv pol n s) (hr : running s caller = true) :
    Inv pol n (wait s caller addr copyok).1 := by
  obtain ⟨p, hp, hps⟩ := (running_iff s caller).1 hr
  simp only [wait, hp]
  cases hf : first_idx
      (fun np => decide (np.parent = some caller ∧ np.state = procstate.ZOMBIE)) s.proc with
  | some i =>
    simp only []
    obtain ⟨np, hnp, hz, _⟩ := first_idx_some _ _ _ hf
    simp only [hnp]
    split
    · exact h
    · apply Inv_freeproc h hnp
      have : np.state = procstate.ZOMBIE := by
        have := of_decide_eq_true hz
        exact this.2
      rw [this]; intro hh; exact procstate.noConfusion hh
  | none =>
    simp only []
    split
    · exact h
    · exact Inv_sleep caller _ h hr

theorem Inv_waitx {pol : Policy} {n : Nat} {s : State} (caller : Nat) (addr : Int)
    (copyok : Bool) (w0 r0 : Int) (h : Inv pol n s) (hr : running s caller = true) :
    Inv pol n (waitx s caller addr copyok w0 r0).1 := by
  obtain ⟨p, hp, hps⟩ := (running_iff s caller).1 hr
  simp only [waitx, hp]
  cases hf : first_idx
      (fun np => decide (np.parent = some caller ∧ np.state = procstate.ZOMBIE)) s.proc with
  | some i =>
    simp only []
    obtain ⟨np, hnp, hz, _⟩ := first_idx_some _ _ _ hf
    simp only [hnp]
    split
    · exact h
    · apply Inv_freeproc h hnp
      have : np.state = procstate.ZOMBIE := by
        have := of_decide_eq_true hz
        exact this.2
      rw [this]; intro hh; exact procstate.noConfusion hh
  | none =>
    simp only []
    split
    · exact h
    · exact Inv_sleep caller _ h hr

/-! ## The tick accountant -/

@[simp] theorem count_queue_state (p : Proc) : (count_queue p).state = p.state := by
  unfold count_queue; split <;> rfl
@[simp] theorem count_queue_pid (p : Proc) : (count_queue p).pid = p.pid := by
  unfold count_queue; split <;> rfl
@[simp] theorem count_queue_cur_queue (p : Proc) : (count_queue p).cur_queue = p.cur_queue := by
  unfold count_queue; split <;> rfl
@[simp] theorem count_queue_mlfq_priority (p : Proc) :
    (count_queue p).mlfq_priority = p.mlfq_priority := by
  unfold count_queue; split <;> rfl
@[simp] theorem count_run_state (p : Proc) : (count_run p).state = p.state := by
  unfold count_run; split <;> rfl
@[simp] theorem count_run_pid (p : Proc) : (count_run p).pid = p.pid := by
  unfold count_run; split <;> rfl
@[simp] theorem count_run_cur_queue (p : Proc) : (count_run p).cur_queue = p.cur_queue := by
  unfold count_run; split <;> rfl
@[simp] theorem count_run_mlfq_priority (p : Proc) :
    (count_run p).mlfq_priority = p.mlfq_priority := by
  unfold count_run; split <;> rfl
@[simp] theorem count_sleep_state (p : Proc) : (count_sleep p).state = p.state := by
  unfold count_sleep; split <;> rfl
@[simp] theorem count_sleep_pid (p : Proc) : (count_sleep p).pid = p.pid := by
  unfold count_sleep; split <;> rfl
@[simp] theorem count_sleep_cur_queue (p : Proc) : (count_sleep p).cur_queue = p.cur_queue := by
  unfold count_sleep; split <;> rfl
@[simp] theorem count_sleep_mlfq_priority (p : Proc) :
    (count_sleep p).mlfq_priority = p.mlfq_priority := by
  unfold count_sleep; split <;> rfl
@[simp] theorem count_wait_state (p : Proc) : (count_wait p).state = p.state := rfl
@[simp] theorem count_wait_pid (p : Proc) : (count_wait p).pid = p.pid := rfl
@[simp] theorem count_wait_cur_queue (p : Proc) : (count_wait p).cur_queue = p.cur_queue := rfl
@[simp] theorem count_wait_mlfq_priority (p : Proc) :
    (count_wait p).mlfq_priority = p.mlfq_priority := rfl
@[simp] theorem tick_counters_state (p : Proc) : (tick_counters p).state = p.state := by
  unfold tick_counters; simp only []; split <;> simp
@[simp] theorem tick_counters_pid (p : Proc) : (tick_counters p).pid = p.pid := by
  unfold tick_counters; simp only []; split <;> simp
@[simp] theorem tick_counters_cur_queue (p : Proc) :
    (tick_counters p).cur_queue = p.cur_queue := by
  unfold tick_counters; simp only []; split <;> simp
@[simp] theorem tick_counters_mlfq_priority (p : Proc) :
    (tick_counters p).mlfq_priority = p.mlfq_priority := by
  unfold tick_counters; simp only []; split <;> simp

/-- the loop body of `updatetime` in terms of `tick_counters` and
`ageing_fires` -/
theorem updatetime_body_eq (pol : Policy) (s : State) (i : Nat) (p0 : Proc)
    (hi : s.proc[i]? = some p0) :
    updatetime_body pol s i =
      if ageing_fires pol s.ageing_threshold (tick_counters p0) then
        (push_to (pop_specific s p0.cur_queue p0.pid) (p0.cur_queue - 1) p0.pid).setProc i
          (age_done (age_down (tick_counters p0)))
      else s.setProc i (tick_counters p0) := by
  simp only [updatetime_body, hi]
  by_cases hs : p0.state = procstate.RUNNABLE
  · have h3 : (count_sleep (count_run (count_queue p0))).state = procstate.RUNNABLE := by
      simpa using hs
    have ht : tick_counters p0 = count_wait (count_sleep (count_run (count_queue p0))) := by
      simp only [tick_counters, h3, if_true]
    rw [if_pos h3, ht]
    by_cases ha : pol = Policy.MLFQ ∧
        (count_wait (count_sleep (count_run (count_queue p0)))).wtime >
          s.ageing_threshold (count_wait (count_sleep (count_run (count_queue p0)))).cur_queue ∧
        (count_wait (count_sleep (count_run (count_queue p0)))).cur_queue ≠ 0
    · have hf : ageing_fires pol s.ageing_threshold
          (count_wait (count_sleep (count_run (count_queue p0)))) :=
        ⟨by simpa using hs, ha⟩
      rw [if_pos ha, if_pos hf]
      simp [age_down]
    · have hf : ¬ ageing_fires pol s.ageing_threshold
          (count_wait (count_sleep (count_run (count_queue p0)))) := fun hf => ha hf.2
      rw [if_neg ha, if_neg hf]
  · have h3 : ¬ (count_sleep (count_run (count_queue p0))).state = procstate.RUNNABLE := by
      simpa using hs
    have ht : tick_counters p0 = count_sleep (count_run (count_queue p0)) := by
      simp only [tick_counters, h3, if_false]
    have hf : ¬ ageing_fires pol s.ageing_threshold (tick_counters p0) := by
      intro hf
      exact hs (by simpa using hf.1)
    rw [if_neg h3, if_neg hf, ht]

theorem Inv_updatetime_body {pol : Policy} {n : Nat} (s : State) (i : Nat)
    (h : Inv pol n s) : Inv pol n (updatetime_body pol s i) := by
  cases hi : s.proc[i]? with
  | none => simp only [updatetime_body, hi]; exact h
  | some p0 =>
    rw [updatetime_body_eq pol s i p0 hi]
    have hf : ¬ ageing_fires pol s.ageing_threshold (tick_counters p0) := by
      rintro ⟨_, hm, _, hc⟩
      apply hc
      rw [tick_counters_cur_queue]
      exact (h.2 hm).curq i p0 hi
    rw [if_neg hf]
    exact Inv_setProc_fields _ h hi (by simp) (by simp) (by simp) (fun _ => by simp)

theorem Inv_updatetime {pol : Policy} {n : Nat} {s : State} (h : Inv pol n s) :
    Inv pol n (updatetime pol s) := by
  unfold updatetime
  exact foldl_inv (Inv pol n) _ _ s (fun t i ht => Inv_updatetime_body t i ht) h

theorem Inv_setpriority_body {pol : Policy} {n : Nat} (pid priority : Int) (c : Nat)
    (acc : State × Int) (i : Nat)
    (h : Inv pol n acc.1 ∧ running acc.1 c = true) :
    Inv pol n (setpriority_body pid priority acc i).1 ∧
      running (setpriority_body pid priority acc i).1 c = true := by
  unfold setpriority_body
  cases hi : acc.1.proc[i]? with
  | none => exact h
  | some p =>
    simp only []
    split
    · exact ⟨Inv_setProc_fields _ h.1 hi rfl rfl rfl (fun _ => rfl),
        running_setProc_state _ i c p _ hi rfl h.2⟩
    · exact h

theorem Inv_setpriority {pol : Policy} {n : Nat} {s : State} (pid priority : Int) (c : Nat)
    (h : Inv pol n s) (hr : running s c = true) :
    Inv pol n (setpriority s pid priority).1 ∧
      running (setpriority s pid priority).1 c = true := by
  unfold setpriority
  exact foldl_inv (fun acc : State × Int => Inv pol n acc.1 ∧ running acc.1 c = true) _ _ (s, -1)
    (fun t i ht => Inv_setpriority_body pid priority c t i ht) ⟨h, hr⟩

theorem Inv_sys_setpriority {pol : Policy} {n : Nat} {s : State} (caller : Nat)
    (priority pid : Int) (h : Inv pol n s) (hr : running s caller = true) :
    Inv pol n (sys_setpriority pol s caller priority pid).1 := by
  obtain ⟨h1, hr1⟩ := Inv_setpriority pid priority caller h hr
  simp only [sys_setpriority, calc_dpriority]
  split
  · exact h1
  · exact Inv_yield caller h1 hr1

theorem Inv_rr_dispatch {n : Nat} {s : State} (i : Nat) (h : Inv Policy.RR n s) :
    Inv Policy.RR n (rr_dispatch s i) := by
  unfold rr_dispatch
  cases hi : s.proc[i]? with
  | none => exact h
  | some p =>
    simp only []
    split
    · rename_i hs
      have hpr := h.1.pid_range i p hi
      refine Inv_mod h hi rfl rfl rfl (le_refl _) ?_ (Or.inl rfl) ?_ ?_ ?_ ?_
      · constructor
        · intro hh; exact procstate.noConfusion hh
        · intro hh; have := hpr.1.2 hh; rw [hs] at this; exact procstate.noConfusion this
      all_goals intro hm; exact Policy.noConfusion hm
    · exact h

/-- the dispatch of FCFS and PBS keeps the pid invariant -/
theorem PInv_dispatch {pol : Policy} {n : Nat} {s : State} (tbl : List Proc)
    (minp : Option Nat) (h : PInv n { s with proc := tbl }) :
    PInv n { s with proc := (dispatch pol tbl minp).1 } := by
  unfold dispatch
  cases minp with
  | none => exact h
  | some m =>
    simp only []
    cases hm : tbl[m]? with
    | none => exact h
    | some p =>
      simp only []
      split
      · rename_i hs
        have hpr := h.pid_range m p hm
        refine PInv_set h hm rfl (le_refl _) ?_ (Or.inl ?_)
        · split
          · constructor
            · intro hh; exact procstate.noConfusion hh
            · intro hh; have := hpr.1.2 hh; rw [hs] at this; exact procstate.noConfusion this
          · constructor
            · intro hh; exact procstate.noConfusion hh
            · intro hh; have := hpr.1.2 hh; rw [hs] at this; exact procstate.noConfusion this
        · split <;> rfl
      · exact h

theorem pbs_scan_fst (l : List Proc) (i : Nat) (minp : Cand) :
    (pbs_scan l i minp).1 = l.map pbs_update := by
  induction l generalizing i minp with
  | nil => rfl
  | cons p rest ih =>
    simp only [pbs_scan, List.map_cons]
    rw [ih]

theorem PInv_map {n : Nat} {s : State} (f : Proc → Proc)
    (hf : ∀ p, (f p).state = p.state ∧ (f p).pid = p.pid) (h : PInv n s) :
    PInv n { s with proc := s.proc.map f } := by
  constructor
  · simp only [List.length_map]; exact h.len
  · exact h.nextpid_pos
  · intro i p hp
    simp only [List.getElem?_map] at hp
    cases hq : s.proc[i]? with
    | none => rw [hq] at hp; simp at hp
    | some q =>
      rw [hq] at hp
      simp at hp
      subst hp
      rw [(hf q).1, (hf q).2]
      exact h.pid_range i q hq
  · intro i j pi pj hi hj hij hnz
    simp only [List.getElem?_map] at hi hj
    cases hqi : s.proc[i]? with
    | none => rw [hqi] at hi; simp at hi
    | some qi =>
      cases hqj : s.proc[j]? with
      | none => rw [hqj] at hj; simp at hj
      | some qj =>
        rw [hqi] at hi; rw [hqj] at hj
        simp at hi hj
        subst hi; subst hj
        rw [(hf qi).2, (hf qj).2] at hij
        rw [(hf qi).2] at hnz
        exact h.pid_inj i j qi qj hqi hqj hij hnz

theorem pbs_update_keeps (p : Proc) :
    (pbs_update p).state = p.state ∧ (pbs_update p).pid = p.pid := ⟨rfl, rfl⟩

/-! ## The MLFQ selector -/

theorem mlfq_chosen_pid_eq (s : State) :
    mlfq_chosen_pid s =
      if s.queue_tail 0 ≥ 0 then s.queue 0 0
      else if s.queue_tail 1 ≥ 0 then s.queue 1 0
      else if s.queue_tail 2 ≥ 0 then s.queue 2 0
      else if s.queue_tail 3 ≥ 0 then s.queue 3 0
      else if s.queue_tail 4 ≥ 0 then s.queue 4 0
      else -1 := by
  unfold mlfq_chosen_pid
  rw [show List.range 5 = [0, 1, 2, 3, 4] from rfl]
  simp only [List.find?]
  by_cases h0 : s.queue_tail 0 ≥ 0
  · simp [h0]
  · by_cases h1 : s.queue_tail 1 ≥ 0
    · simp [h0, h1]
    · by_cases h2 : s.queue_tail 2 ≥ 0
      · simp [h0, h1, h2]
      · by_cases h3 : s.queue_tail 3 ≥ 0
        · simp [h0, h1, h2, h3]
        · by_cases h4 : s.queue_tail 4 ≥ 0
          · simp [h0, h1, h2, h3, h4]
          · simp [h0, h1, h2, h3, h4]

theorem mlfq_find_aux (tbl : List Proc) (x : Int) (k : Nat) :
    (∀ m, (List.range k).foldl
        (fun (minp : Option Nat) (i : Nat) =>
          match tbl[i]? with
          | none => minp
          | some p => if p.pid = x then some i else minp) none = some m →
      m < k ∧ (∃ p, tbl[m]? = some p ∧ p.pid = x) ∧
        ∀ (j : Nat) (q : Proc), m < j → j < k → tbl[j]? = some q → q.pid ≠ x) ∧
    ((List.range k).foldl
        (fun (minp : Option Nat) (i : Nat) =>
          match tbl[i]? with
          | none => minp
          | some p => if p.pid = x then some i else minp) none = none →
      ∀ (j : Nat) (q : Proc), j < k → tbl[j]? = some q → q.pid ≠ x) := by
  induction k with
  | zero =>
    constructor
    · intro m hm; simp at hm
    · intro _ j q hj; omega
  | succ k ih =>
    rw [List.range_succ, List.foldl_append]
    simp only [List.foldl_cons, List.foldl_nil]
    cases hk : tbl[k]? with
    | none =>
      simp only []
      constructor
      · intro m hm
        obtain ⟨a, b, c⟩ := ih.1 m hm
        refine ⟨by omega, b, ?_⟩
        intro j q hj1 hj2 hq
        by_cases hjk : j = k
        · subst hjk; rw [hk] at hq; cases hq
        · exact c j q hj1 (by omega) hq
      · intro hn j q hj hq
        by_cases hjk : j = k
        · subst hjk; rw [hk] at hq; cases hq
        · exact ih.2 hn j q (by omega) hq
    | some p =>
      simp only []
      by_cases hp : p.pid = x
      · rw [if_pos hp]
        constructor
        · intro m hm
          cases hm
          exact ⟨by omega, ⟨p, hk, hp⟩, fun j q hj1 hj2 _ => by omega⟩
        · intro hn; cases hn
      · rw [if_neg hp]
        constructor
        · intro m hm
          obtain ⟨a, b, c⟩ := ih.1 m hm
          refine ⟨by omega, b, ?_⟩
          intro j q hj1 hj2 hq
          by_cases hjk : j = k
          · subst hjk; rw [hk] at hq; cases hq; exact hp
          · exact c j q hj1 (by omega) hq
        · intro hn j q hj hq
          by_cases hjk : j = k
          · subst hjk; rw [hk] at hq; cases hq; exact hp
          · exact ih.2 hn j q (by omega) hq

theorem mlfq_find_some (tbl : List Proc) (x : Int) (m : Nat) (h : mlfq_find tbl x = some m) :
    (∃ p, tbl[m]? = some p ∧ p.pid = x) ∧
      ∀ (j : Nat) (q : Proc), m < j → tbl[j]? = some q → q.pid ≠ x := by
  obtain ⟨_, b, c⟩ := (mlfq_find_aux tbl x tbl.length).1 m h
  refine ⟨b, ?_⟩
  intro j q hj hq
  have hjl : j < tbl.length := by
    by_contra hc
    rw [List.getElem?_eq_none (by omega)] at hq
    cases hq
  exact c j q hj hjl hq

theorem mlfq_find_none (tbl : List Proc) (x : Int) (h : mlfq_find tbl x = none) :
    ∀ (j : Nat) (q : Proc), tbl[j]? = some q → q.pid ≠ x := by
  intro j q hq
  have hjl : j < tbl.length := by
    by_contra hc
    rw [List.getElem?_eq_none (by omega)] at hq
    cases hq
  exact (mlfq_find_aux tbl x tbl.length).2 h j q hjl hq

theorem qcontent_head (s : State) (q : Int) (h : 0 ≤ s.queue_tail q) :
    (qcontent s q).head? = some (s.queue q 0) := by
  rw [List.head?_eq_getElem?, qcontent_getElem?]
  rw [if_pos (by omega)]
  rfl

/-- under the queue invariant the selector peeks the head of queue 0 -/
theorem mlfq_chosen_pid_inv (s : State) (h : QInv s) :
    mlfq_chosen_pid s = if s.queue_tail 0 ≥ 0 then s.queue 0 0 else -1 := by
  rw [mlfq_chosen_pid_eq]
  have h1 := h.tails 1 (by decide) (by decide)
  have h2 := h.tails 2 (by decide) (by decide)
  have h3 := h.tails 3 (by decide) (by decide)
  have h4 := h.tails 4 (by decide) (by decide)
  simp [h1, h2, h3, h4]

theorem Inv_scheduler_mlfq {n : Nat} {s : State} (h : Inv Policy.MLFQ n s) :
    Inv Policy.MLFQ n (scheduler_mlfq s).1 := by
  have hQ := h.2 rfl
  unfold scheduler_mlfq
  simp only []
  split
  · exact h
  · rename_i hch
    cases hf : mlfq_find s.proc (mlfq_chosen_pid s) with
    | none => exact h
    | some m =>
      simp only []
      obtain ⟨⟨p, hp, hpid⟩, _⟩ := mlfq_find_some _ _ _ hf
      simp only [hp]
      split
      · rename_i hc1
        split
        · have ht0 : 0 ≤ s.queue_tail 0 := by
            by_contra hc
            rw [mlfq_chosen_pid_inv s hQ] at hch
            have : ¬ s.queue_tail 0 ≥ 0 := hc
            rw [if_neg this] at hch
            exact hch rfl
          have hhead : (qcontent s 0).head? = some p.pid := by
            rw [qcontent_head s 0 ht0, hpid, mlfq_chosen_pid_inv s hQ, if_pos ht0]
          have hcq := hQ.curq m p hp
          have hpr := h.1.pid_range m p hp
          constructor
          · refine PInv_set
              (q := { p with
                      state := procstate.RUNNING
                      mlfq_priority := -1
                      ns := p.ns + 1 })
              h.1 hp ?_ (by simp) ?_ (Or.inl rfl)
            · simp [pop_given_proc, List.set_set]
            · constructor
              · intro hh; exact procstate.noConfusion hh
              · intro hh
                have : p.pid = 0 := hh
                omega
          · intro _
            refine QInv_deq
              (q := { p with
                      state := procstate.RUNNING
                      mlfq_priority := -1
                      ns := p.ns + 1 })
              h.1 hQ hp ?_ hhead ?_ ?_ ?_ hcq (fun _ => rfl) ?_
            · simp [pop_given_proc, List.set_set]
            · simp only [qcontent_setProc]
              rw [hcq]
              rw [qcontent_pop_given]
              rfl
            · intro l h1 h2
              simp only [setProc_queue_tail, hcq, pop_given_tail]
              split
              · rename_i hh
                exact absurd hh.1 (by omega)
              · rfl
            · simp only [setProc_queue_tail, hcq, pop_given_tail]
              split
              · omega
              · rename_i hh
                simp only [true_and, not_le] at hh
                omega
            · intro hh; exact procstate.noConfusion hh
        · exact h
      · exact h

theorem Inv_scheduler_round {pol : Policy} {n : Nat} {s : State} (h : Inv pol n s) :
    Inv pol n (scheduler_round pol s).1 := by
  cases pol with
  | FCFS =>
    refine ⟨?_, fun hm => Policy.noConfusion hm⟩
    exact PInv_dispatch (s := s) s.proc _ h.1
  | PBS =>
    refine ⟨?_, fun hm => Policy.noConfusion hm⟩
    simp only [scheduler_round, pbs_scan_fst]
    exact PInv_dispatch (s := s) _ _ (PInv_map pbs_update pbs_update_keeps h.1)
  | MLFQ => exact Inv_scheduler_mlfq h
  | RR => exact h

theorem Inv_boot (pol : Policy) (n : Nat) : Inv pol n (boot pol n) := by
  have hget : ∀ (i : Nat) (p : Proc), (boot pol n).proc[i]? = some p → p = Proc.zero := by
    intro i p hp
    have : (boot pol n).proc = List.replicate n Proc.zero := by
      unfold boot queue_init; split <;> rfl
    rw [this, List.getElem?_replicate] at hp
    split at hp
    · cases hp; rfl
    · cases hp
  constructor
  · constructor
    · unfold boot queue_init; split <;> simp
    · have : (boot pol n).nextpid = 1 := by unfold boot queue_init; split <;> rfl
      rw [this]
    · intro i p hp
      rw [hget i p hp]
      have : (boot pol n).nextpid = 1 := by unfold boot queue_init; split <;> rfl
      rw [this]
      decide
    · intro i j pi pj hi _ _ hnz
      rw [hget i pi hi] at hnz
      exact absurd rfl hnz
  · intro hm
    subst hm
    have ht : ∀ l : Int, 0 ≤ l → l < 5 → (boot Policy.MLFQ n).queue_tail l = -1 := by
      intro l h0 h5
      simp [boot, queue_init, h0, h5]
    have hc : qcontent (boot Policy.MLFQ n) 0 = [] := by
      unfold qcontent
      rw [ht 0 (by decide) (by decide)]
      rfl
    constructor
    · intro l h1 h5; exact ht l (by omega) h5
    · rw [ht 0 (by decide) (by decide)]
    · intro i p hp; rw [hget i p hp]; rfl
    · rw [hc]; exact List.nodup_nil
    · intro x
      rw [hc]
      constructor
      · intro hx; cases hx
      · rintro ⟨i, p, hp, hs, _⟩
        rw [hget i p hp] at hs
        exact procstate.noConfusion hs
    · intro i p hp hs
      rw [hget i p hp] at hs
      exact procstate.noConfusion hs

/-- every enabled operation preserves the invariant -/
theorem Inv_apply {pol : Policy} {n : Nat} {s : State} (l : Label)
    (h : Inv pol n s) (he : enabled pol s l = true) : Inv pol n (apply pol s l) := by
  cases l with
  | userinit tf pt => exact Inv_userinit tf pt h
  | fork caller tf pt copyok => exact Inv_fork caller tf pt copyok h
  | exit caller status =>
    simp only [enabled, Bool.and_eq_true] at he
    exact Inv_exit caller status h he.1
  | wait caller addr copyok => exact Inv_wait caller addr copyok h he
  | waitx caller addr copyok => exact Inv_waitx caller addr copyok 0 0 h he
  | yield caller => exact Inv_yield caller h he
  | sleep caller chan => exact Inv_sleep caller chan h he
  | sleep_return caller => exact Inv_sleep_return caller h
  | wakeup caller chan => exact Inv_wakeup caller chan h
  | kill pid => exact Inv_kill pid h
  | setpriority caller priority pid => exact Inv_sys_setpriority caller priority pid h he
  | tick => exact Inv_tick h _
  | updatetime => exact Inv_updatetime h
  | sched => exact Inv_scheduler_round h
  | rr i =>
    simp only [enabled, decide_eq_true_eq] at he
    subst he
    exact Inv_rr_dispatch i h

/-- the invariant holds in every reachable state -/
theorem Inv_of_Reach {pol : Policy} {n : Nat} {ok : Label → Prop} {s : State}
    (h : Reach pol n ok s) : Inv pol n s := by
  induction h with
  | boot => exact Inv_boot pol n
  | step l _ _ he ih => exact Inv_apply l ih he

theorem Reach_mono {pol : Policy} {n : Nat} {ok : Label → Prop} {s : State}
    (h : Reach pol n ok s) : Reachable pol n s := by
  induction h with
  | boot => exact Reach.boot
  | step l _ _ he ih => exact Reach.step l ih trivial he

/-- a run of enabled operations from a reachable state ends in a reachable
state -/
theorem Reach_run {pol : Policy} {n : Nat} {ok : Label → Prop} (ls : List Label) (s : State)
    (h : Reach pol n ok s) (hok : ∀ l ∈ ls, ok l) (he : run_ok pol s ls = true) :
    Reach pol n ok (run pol s ls) := by
  induction ls generalizing s with
  | nil => exact h
  | cons l ls ih =>
    simp only [run_ok, Bool.and_eq_true] at he
    simp only [run, List.foldl_cons]
    exact ih (apply pol s l) (Reach.step l h (hok l (List.mem_cons_self _ _)) he.1)
      (fun l2 hl2 => hok l2 (List.mem_cons_of_mem _ hl2)) he.2

/-! ## The table after one sweep of the tick accountant -/

theorem pop_specific_ageing (s : State) (q pid : Int) :
    (pop_specific s q pid).ageing_threshold = s.ageing_threshold := by
  unfold pop_specific; split <;> rfl

theorem updatetime_body_frame (pol : Policy) (s : State) (i : Nat) :
    (updatetime_body pol s i).ageing_threshold = s.ageing_threshold ∧
    (updatetime_body pol s i).nextpid = s.nextpid ∧
    (updatetime_body pol s i).ticks = s.ticks ∧
    (updatetime_body pol s i).initproc = s.initproc ∧
    ∀ j : Nat, (updatetime_body pol s i).proc[j]? =
      if j = i then (s.proc[j]?).map (tick_slot pol s.ageing_threshold) else s.proc[j]? := by
  cases hi : s.proc[i]? with
  | none =>
    have e : updatetime_body pol s i = s := by simp only [updatetime_body, hi]
    rw [e]
    refine ⟨rfl, rfl, rfl, rfl, ?_⟩
    intro j
    split
    · rename_i hj; subst hj; rw [hi]; rfl
    · rfl
  | some p0 =>
    rw [updatetime_body_eq pol s i p0 hi]
    have key : ∀ (t : State) (q : Proc), t.proc = s.proc → ∀ j : Nat,
        (t.setProc i q).proc[j]? = if j = i then some q else s.proc[j]? := by
      intro t q ht j
      simp only [setProc_proc, ht]
      by_cases hj : j = i
      · subst hj
        rw [if_pos rfl]
        exact getElem?_set_self_of_some hi
      · rw [if_neg hj, List.getElem?_set_ne (Ne.symm hj)]
    by_cases hf : ageing_fires pol s.ageing_threshold (tick_counters p0)
    · rw [if_pos hf]
      refine ⟨?_, ?_, ?_, ?_, ?_⟩
      · simp [pop_specific_ageing]
      · simp [pop_specific]; split <;> rfl
      · simp [pop_specific]; split <;> rfl
      · simp [pop_specific]; split <;> rfl
      · intro j
        rw [key _ _ (by rw [push_to_proc, pop_specific_proc]) j]
        by_cases hj : j = i
        · subst hj
          simp [hi, tick_slot, hf]
        · simp [hj]
    · rw [if_neg hf]
      refine ⟨rfl, rfl, rfl, rfl, ?_⟩
      intro j
      rw [key s _ rfl j]
      by_cases hj : j = i
      · subst hj
        simp [hi, tick_slot, hf]
      · simp [hj]

theorem updatetime_fold (pol : Policy) (s : State) (k : Nat) :
    ((List.range k).foldl (updatetime_body pol) s).ageing_threshold = s.ageing_threshold ∧
    ((List.range k).foldl (updatetime_body pol) s).nextpid = s.nextpid ∧
    ((List.range k).foldl (updatetime_body pol) s).ticks = s.ticks ∧
    ((List.range k).foldl (updatetime_body pol) s).initproc = s.initproc ∧
    ∀ j : Nat, ((List.range k).foldl (updatetime_body pol) s).proc[j]? =
      if j < k then (s.proc[j]?).map (tick_slot pol s.ageing_threshold) else s.proc[j]? := by
  induction k with
  | zero =>
    refine ⟨rfl, rfl, rfl, rfl, ?_⟩
    intro j
    simp
  | succ k ih =>
    rw [List.range_succ, List.foldl_append]
    simp only [List.foldl_cons, List.foldl_nil]
    obtain ⟨a1, a2, a3, a4, a5⟩ := ih
    obtain ⟨b1, b2, b3, b4, b5⟩ :=
      updatetime_body_frame pol ((List.range k).foldl (updatetime_body pol) s) k
    refine ⟨by rw [b1, a1], by rw [b2, a2], by rw [b3, a3], by rw [b4, a4], ?_⟩
    intro j
    rw [b5 j, a5 j, a1]
    by_cases hjk : j = k
    · subst hjk
      simp
    · by_cases hlt : j < k
      · have : j < k + 1 := by omega
        simp [hjk, hlt, this]
      · have : ¬ j < k + 1 := by omega
        simp [hjk, hlt, this]

/-- one sweep of the accountant applies `tick_slot` to every slot -/
theorem updatetime_proc (pol : Policy) (s : State) :
    (updatetime pol s).proc = s.proc.map (tick_slot pol s.ageing_threshold) := by
  apply List.ext_getElem?
  intro j
  unfold updatetime
  rw [(updatetime_fold pol s s.proc.length).2.2.2.2 j, List.getElem?_map]
  split
  · rfl
  · rename_i hj
    rw [List.getElem?_eq_none (by omega)]
    rfl

theorem updatetime_ageing (pol : Policy) (s : State) :
    (updatetime pol s).ageing_threshold = s.ageing_threshold :=
  (updatetime_fold pol s s.proc.length).1

/-! ## Claims about the reachable states -/

theorem exInit_reachable : Reachable Policy.MLFQ 3 exInit :=
  Reach_run _ _ Reach.boot (fun _ _ => trivial) rfl

theorem exForked_reachable : Reachable Policy.MLFQ 3 exForked :=
  Reach_run _ _ Reach.boot (fun _ _ => trivial) rfl

theorem qcontent_length_le {n : Nat} {s : State} (hP : PInv n s) (hQ : QInv s) :
    (qcontent s 0).length ≤ n ∧
    ∀ (i : Nat) (p : Proc), s.proc[i]? = some p → p.state ≠ procstate.RUNNABLE →
      (qcontent s 0).length + 1 ≤ n := by
  have hsub : qcontent s 0 ⊆
      (s.proc.filter (fun p => decide (p.state = procstate.RUNNABLE))).map (fun p => p.pid) := by
    intro x hx
    obtain ⟨i, p, hp, hs, hpid⟩ := (hQ.mem x).1 hx
    rw [List.mem_map]
    refine ⟨p, ?_, hpid⟩
    rw [List.mem_filter]
    exact ⟨List.mem_iff_getElem?.2 ⟨i, hp⟩, by simpa using hs⟩
  have hle := (List.Nodup.subperm hQ.nodup hsub).length_le
  rw [List.length_map] at hle
  constructor
  · have := List.length_filter_le (fun p => decide (p.state = procstate.RUNNABLE)) s.proc
    rw [hP.len] at this
    omega
  · intro i p hp hs
    have hlt : (s.proc.filter (fun p => decide (p.state = procstate.RUNNABLE))).length
        < s.proc.length := by
      rw [List.length_filter_lt_length_iff_exists]
      exact ⟨p, List.mem_iff_getElem?.2 ⟨i, hp⟩, by simpa using hs⟩
    rw [hP.len] at hlt
    omega

/-- C24. Under MLFQ, in every reachable state every `queue_tail[level]`,
level 0..4, lies in `-1..NPROC-1`, and a push of the pid of a slot that is in
use and not `RUNNABLE` (the slots `push_to` is called for) writes at an index
below `NPROC`. -/
theorem mlfq_queue_tail_in_bounds (nproc : Nat) (s : State)
    (h : Reachable Policy.MLFQ nproc s) :
    (∀ l : Int, 0 ≤ l → l < 5 → -1 ≤ s.queue_tail l ∧ s.queue_tail l ≤ (nproc : Int) - 1) ∧
    (∀ (i : Nat) (p : Proc), s.proc[i]? = some p → p.state ≠ procstate.RUNNABLE →
      p.state ≠ procstate.UNUSED →
      (push_to s p.cur_queue p.pid).queue_tail p.cur_queue = s.queue_tail p.cur_queue + 1 ∧
      (push_to s p.cur_queue p.pid).queue_tail p.cur_queue ≤ (nproc : Int) - 1 ∧
      (push_to s p.cur_queue p.pid).queue p.cur_queue (s.queue_tail p.cur_queue + 1) = p.pid) := by
  have hI := Inv_of_Reach h
  have hP := hI.1
  have hQ := hI.2 rfl
  obtain ⟨h1, h2⟩ := qcontent_length_le hP hQ
  rw [qcontent_length] at h1
  have ht0 := hQ.tail0
  constructor
  · intro l hl0 hl5
    by_cases hl : l = 0
    · subst hl
      exact ⟨ht0, by omega⟩
    · rw [hQ.tails l (by omega) hl5]
      constructor
      · omega
      · have := h1
        omega
  · intro i p hp hs _
    have hlen := h2 i p hp hs
    rw [qcontent_length] at hlen
    have hcq := hQ.curq i p hp
    have hpid := (hP.pid_range i p hp).2.1
    rw [hcq, push_to_tail]
    have hc : (0 : Int) = 0 ∧ 0 ≤ p.pid := ⟨rfl, hpid⟩
    rw [if_pos hc]
    refine ⟨rfl, by omega, ?_⟩
    have hnp : ¬ p.pid < 0 := by omega
    simp [push_to, hnp, State.setRow, State.setTail, store]

theorem mlfq_queue_tail_in_bounds_witness :
    (-1 ≤ exForked.queue_tail 0 ∧ exForked.queue_tail 0 ≤ ((3 : Nat) : Int) - 1) ∧
    exForked.queue_tail 0 = 0 ∧ qcontent exForked 0 = [2] :=
  ⟨(mlfq_queue_tail_in_bounds 3 exForked exForked_reachable).1 0 (by decide) (by decide),
    by decide, by decide⟩

theorem tick_slot_cur_queue (pol : Policy) (threshold : Int → Int) (p : Proc) :
    (tick_slot pol threshold p).cur_queue = p.cur_queue ∨
    ((tick_slot pol threshold p).cur_queue = p.cur_queue - 1 ∧ p.cur_queue ≠ 0 ∧
      p.state = procstate.RUNNABLE ∧ pol = Policy.MLFQ) := by
  unfold tick_slot
  split
  · rename_i hf
    right
    obtain ⟨h1, h2, _, h4⟩ := hf
    refine ⟨by simp [age_done, age_down], by simpa using h4, by simpa using h1, h2⟩
  · left; simp

/-- C25. Under MLFQ there is no demotion: in every reachable state every
slot has `cur_queue` in 0..4, no operation increases the `cur_queue` of a
slot, and (in any state) a sweep of the tick accountant leaves `cur_queue`
unchanged or, for a `RUNNABLE` slot with `cur_queue ≠ 0`, decrements it by
one, so that a level in 1..4 never drops below 0. -/
theorem mlfq_no_demotion (nproc : Nat) (s : State) (h : Reachable Policy.MLFQ nproc s) :
    (∀ (i : Nat) (p : Proc), s.proc[i]? = some p → 0 ≤ p.cur_queue ∧ p.cur_queue ≤ 4) ∧
    (∀ (l : Label), enabled Policy.MLFQ s l = true →
      ∀ (i : Nat) (p q : Proc), s.proc[i]? = some p → (apply Policy.MLFQ s l).proc[i]? = some q →
        q.cur_queue ≤ p.cur_queue ∧ 0 ≤ q.cur_queue) ∧
    (∀ (t : State) (i : Nat) (p q : Proc), t.proc[i]? = some p →
      (updatetime Policy.MLFQ t).proc[i]? = some q →
        q.cur_queue = p.cur_queue ∨
        (q.cur_queue = p.cur_queue - 1 ∧ p.cur_queue ≠ 0 ∧ (1 ≤ p.cur_queue → 0 ≤ q.cur_queue))) := by
  have hQ := (Inv_of_Reach h).2 rfl
  refine ⟨?_, ?_, ?_⟩
  · intro i p hp
    rw [hQ.curq i p hp]
    decide
  · intro l he i p q hp hq
    have hQ2 := (Inv_apply l (Inv_of_Reach h) he).2 rfl
    rw [hQ.curq i p hp, hQ2.curq i q hq]
    decide
  · intro t i p q hp hq
    rw [updatetime_proc, List.getElem?_map, hp] at hq
    simp only [Option.map_some'] at hq
    cases hq
    rcases tick_slot_cur_queue Policy.MLFQ t.ageing_threshold p with h1 | ⟨h1, h2, _, _⟩
    · exact Or.inl h1
    · exact Or.inr ⟨h1, h2, fun h3 => by omega⟩

theorem mlfq_no_demotion_witness :
    (∀ (i : Nat) (p : Proc), exForked.proc[i]? = some p → 0 ≤ p.cur_queue ∧ p.cur_queue ≤ 4) ∧
    (exForked.proc.map (fun p => p.cur_queue)) = [0, 0, 0] :=
  ⟨(mlfq_no_demotion 3 exForked exForked_reachable).1, by decide⟩

/-- C27. `kill(0)` reaches an `UNUSED` slot: in the reachable state where
`init` runs and slot 1 is `UNUSED`, `kill(0)` returns 0 and sets `killed = 1`
in slot 1, which stays `UNUSED`; `allocproc` then returns that slot with
`killed = 1`, and the child that `fork` makes `RUNNABLE` in it is already
killed. -/
theorem kill_zero_marks_unused_slot :
    Reachable Policy.MLFQ 3 exKillZero ∧
    (kill Policy.MLFQ (run Policy.MLFQ (boot Policy.MLFQ 3) [Label.userinit 1 1, Label.sched]) 0).2 = 0 ∧
    ((run Policy.MLFQ (boot Policy.MLFQ 3) [Label.userinit 1 1, Label.sched]).proc.map
        (fun p => (p.state, p.pid, p.killed))) =
      [(procstate.RUNNING, 1, 0), (procstate.UNUSED, 0, 0), (procstate.UNUSED, 0, 0)] ∧
    (exKillZero.proc.map (fun p => (p.state, p.pid, p.killed))) =
      [(procstate.RUNNING, 1, 0), (procstate.UNUSED, 0, 1), (procstate.UNUSED, 0, 0)] ∧
    (allocproc exKillZero 1 1).2 = some 1 ∧
    (((allocproc exKillZero 1 1).1.proc.getD 1 Proc.zero).state = procstate.USED ∧
      ((allocproc exKillZero 1 1).1.proc.getD 1 Proc.zero).killed = 1) ∧
    (((fork Policy.MLFQ exKillZero 0 1 1 true).1.proc.getD 1 Proc.zero).state
        = procstate.RUNNABLE ∧
      ((fork Policy.MLFQ exKillZero 0 1 1 true).1.proc.getD 1 Proc.zero).killed = 1) := by
  refine ⟨Reach_run _ _ Reach.boot (fun _ _ => trivial) rfl, ?_, ?_, ?_, ?_, ?_, ?_⟩ <;> decide

/-- C6. After `fork` reuses a slot whose previous occupant was dispatched,
the child is `RUNNABLE` and enqueued at level 0 with `mlfq_priority = -1`:
`fork` does not assign `mlfq_priority` (as `userinit`, `yield`, `wakeup`
and `kill` do).  And at boot every slot has `mlfq_priority = 0` although
nothing is enqueued. -/
theorem fork_leaves_mlfq_priority_stale :
    Reachable Policy.MLFQ 3 exReuse ∧
    (exReuse.proc.map (fun p => (p.state, p.pid, p.cur_queue, p.mlfq_priority))) =
      [(procstate.RUNNING, 1, 0, -1), (procstate.RUNNABLE, 3, 0, -1),
       (procstate.UNUSED, 0, 0, 0)] ∧
    qcontent exReuse 0 = [3] ∧
    ((boot Policy.MLFQ 3).proc.map (fun p => (p.state, p.mlfq_priority))) =
      [(procstate.UNUSED, 0), (procstate.UNUSED, 0), (procstate.UNUSED, 0)] ∧
    qcontent (boot Policy.MLFQ 3) 0 = [] ∧
    ((exInit.proc.getD 0 Proc.zero).state = procstate.RUNNABLE ∧
      (exInit.proc.getD 0 Proc.zero).mlfq_priority = 0 ∧ qcontent exInit 0 = [1]) := by
  refine ⟨Reach_run _ _ Reach.boot (fun _ _ => trivial) rfl, ?_, ?_, ?_, ?_, ?_⟩ <;> decide

/-! ## Claim C26: the divisor of the PBS niceness -/

/-- C26. The PBS pass divides by zero: after `init` was dispatched and
yielded before the next tick, slot 0 is `RUNNABLE` with `is_new = 0` and
`rtime_prev = stime_prev = 0`, so the pass computes its niceness with divisor
0 (the RISC-V quotient `-1` gives `pdynamic = 66`); the `UNUSED` slots have
`is_new = 0` and divisor 0 as well, already in the first pass after boot. -/
theorem pbs_pass_divides_by_zero :
    Reachable Policy.PBS 3 exPbsYield ∧
    (exPbsYield.proc.map
        (fun p => (p.state, p.is_new, p.rtime_prev, p.stime_prev, pbs_divisor p))) =
      [(procstate.RUNNABLE, 0, 0, 0, 0), (procstate.UNUSED, 0, 0, 0, 0),
       (procstate.UNUSED, 0, 0, 0, 0)] ∧
    ((boot Policy.PBS 3).proc.map (fun p => (p.state, p.is_new, pbs_divisor p))) =
      [(procstate.UNUSED, 0, 0), (procstate.UNUSED, 0, 0), (procstate.UNUSED, 0, 0)] ∧
    ((pbs_scan exPbsYield.proc 0 none).1.map (fun p => (p.niceness, p.pdynamic))) =
      [(-1, 66), (-1, 6), (-1, 6)] := by
  refine ⟨Reach_run _ _ Reach.boot (fun _ _ => trivial) rfl, ?_, ?_, ?_⟩ <;> decide

/-! ## Claim C22: what `qcount` counts -/

theorem sum_set_succ (l : List Int) (k : Nat) (h : k < l.length) :
    (l.set k (l.getD k 0 + 1)).sum = l.sum + 1 := by
  induction l generalizing k with
  | nil => simp at h
  | cons a t ih =>
    cases k with
    | zero => simp; omega
    | succ k =>
      have hk : k < t.length := by simpa using h
      simp only [List.set_cons_succ, List.sum_cons, List.getD_cons_succ]
      rw [ih k hk]
      omega

theorem count_queue_sum (p : Proc) (h0 : 0 ≤ p.cur_queue) (h4 : p.cur_queue ≤ 4)
    (hlen : p.qcount.length = 5) :
    (count_queue p).qcount.sum = p.qcount.sum + (if p.mlfq_priority ≠ -1 then 1 else 0) := by
  unfold count_queue
  split
  · simp only []
    rw [sum_set_succ _ _ (by omega)]
  · simp

theorem count_run_qcount (r : Proc) : (count_run r).qcount = r.qcount := by
  unfold count_run; split <;> rfl
theorem count_sleep_qcount (r : Proc) : (count_sleep r).qcount = r.qcount := by
  unfold count_sleep; split <;> rfl
theorem count_wait_qcount (r : Proc) : (count_wait r).qcount = r.qcount := rfl
theorem age_qcount (r : Proc) : (age_done (age_down r)).qcount = r.qcount := rfl

theorem tick_counters_qcount (p : Proc) : (tick_counters p).qcount = (count_queue p).qcount := by
  unfold tick_counters
  simp only []
  split
  · rw [count_wait_qcount, count_sleep_qcount, count_run_qcount]
  · rw [count_sleep_qcount, count_run_qcount]

theorem tick_slot_qcount (pol : Policy) (threshold : Int → Int) (p : Proc) :
    (tick_slot pol threshold p).qcount = (count_queue p).qcount := by
  unfold tick_slot
  split
  · rw [age_qcount, tick_counters_qcount]
  · exact tick_counters_qcount p

/-- C22 (as the code has it). Under MLFQ, in a reachable state one sweep of
the tick accountant adds one to the sum of a slot's `qcount` exactly when its
`mlfq_priority` is not `-1`; a `RUNNING` slot has `mlfq_priority = -1` (set
at dispatch), so a tick spent `RUNNING` leaves its `qcount` unchanged. -/
theorem qcount_counts_marked_ticks (nproc : Nat) (s : State)
    (h : Reachable Policy.MLFQ nproc s) (i : Nat) (p : Proc) (hp : s.proc[i]? = some p)
    (hlen : p.qcount.length = 5) :
    ∃ q, (updatetime Policy.MLFQ s).proc[i]? = some q ∧
      q.qcount.sum = p.qcount.sum + (if p.mlfq_priority ≠ -1 then 1 else 0) ∧
      (p.state = procstate.RUNNING → p.mlfq_priority = -1 ∧ q.qcount = p.qcount) := by
  have hQ := (Inv_of_Reach h).2 rfl
  have hc := hQ.curq i p hp
  refine ⟨tick_slot Policy.MLFQ s.ageing_threshold p, ?_, ?_, ?_⟩
  · rw [updatetime_proc, List.getElem?_map, hp]; rfl
  · rw [tick_slot_qcount, count_queue_sum p (by omega) (by omega) hlen]
  · intro hr
    have hm := hQ.running i p hp hr
    refine ⟨hm, ?_⟩
    rw [tick_slot_qcount]
    unfold count_queue
    rw [if_neg (by simp [hm])]

theorem qcount_counts_marked_ticks_witness :
    ∃ q, (updatetime Policy.MLFQ exForked).proc[0]? = some q ∧
      q.qcount.sum = (exForked.proc.getD 0 Proc.zero).qcount.sum +
        (if (exForked.proc.getD 0 Proc.zero).mlfq_priority ≠ -1 then 1 else 0) ∧
      ((exForked.proc.getD 0 Proc.zero).state = procstate.RUNNING →
        (exForked.proc.getD 0 Proc.zero).mlfq_priority = -1 ∧
          q.qcount = (exForked.proc.getD 0 Proc.zero).qcount) :=
  qcount_counts_marked_ticks 3 exForked exForked_reachable 0 (exForked.proc.getD 0 Proc.zero)
    rfl (by decide)

/-- C22 fails as stated: `init` is allocated by `userinit`, dispatched, and
is `RUNNING` during one sweep of the accountant; that is one tick on a queue
or `RUNNING` since its allocation, but the sum of its `qcount` is still 0. -/
theorem qcount_misses_running_ticks :
    Reachable Policy.MLFQ 3
      (run Policy.MLFQ (boot Policy.MLFQ 3) [Label.userinit 1 1, Label.sched, Label.updatetime]) ∧
    (exInit.proc.getD 0 Proc.zero).qcount = [0, 0, 0, 0, 0] ∧
    active_ticks Policy.MLFQ exInit 0 [Label.sched, Label.updatetime] = 1 ∧
    ((run Policy.MLFQ exInit [Label.sched, Label.updatetime]).proc.getD 0 Proc.zero).state
      = procstate.RUNNING ∧
    ((run Policy.MLFQ exInit [Label.sched, Label.updatetime]).proc.getD 0 Proc.zero).qcount.sum
      = 0 := by
  refine ⟨Reach_run _ _ Reach.boot (fun _ _ => trivial) rfl, ?_, ?_, ?_, ?_⟩ <;> decide

/-! ## Claim C23: the range of the static priority -/

theorem PstaticStep_refl (l : Label) (p : Proc) : PstaticStep l p p := Or.inl rfl

theorem PstaticStep_trans {l : Label} {p q r : Proc} (h1 : PstaticStep l p q)
    (h2 : PstaticStep l q r) : PstaticStep l p r := by
  rcases h2 with h2 | h2 | h2
  · rcases h1 with h1 | h1 | ⟨c, pid, h1⟩
    · exact Or.inl (h2.trans h1)
    · exact Or.inr (Or.inl (h2.trans h1))
    · exact Or.inr (Or.inr ⟨c, pid, by rw [h2]; exact h1⟩)
  · exact Or.inr (Or.inl h2)
  · exact Or.inr (Or.inr h2)

theorem PF_refl (l : Label) (s : State) : PstaticFrame l s s :=
  ⟨rfl, fun j p q hp hq => by rw [hp] at hq; cases hq; exact PstaticStep_refl l p⟩

theorem PF_trans {l : Label} {s t u : State} (h1 : PstaticFrame l s t)
    (h2 : PstaticFrame l t u) : PstaticFrame l s u := by
  refine ⟨h2.1.trans h1.1, ?_⟩
  intro j p r hp hr
  have hj : j < t.proc.length := by
    rw [h1.1]
    by_contra hc
    rw [List.getElem?_eq_none (by omega)] at hp
    cases hp
  have hq : t.proc[j]? = some (t.proc[j]) := List.getElem?_eq_getElem hj
  exact PstaticStep_trans (h1.2 j p _ hp hq) (h2.2 j _ r hq hr)

theorem PF_proc_eq {l : Label} {s t : State} (h : t.proc = s.proc) : PstaticFrame l s t :=
  ⟨by rw [h], fun j p q hp hq => by rw [h, hp] at hq; cases hq; exact PstaticStep_refl l p⟩

theorem PF_setProc {l : Label} {s : State} {i : Nat} {p : Proc} (q : Proc)
    (hi : s.proc[i]? = some p) (h : PstaticStep l p q) : PstaticFrame l s (s.setProc i q) := by
  refine ⟨by simp, ?_⟩
  intro j a b ha hb
  by_cases hj : j = i
  · subst hj
    rw [hi] at ha; cases ha
    rw [setProc_proc, getElem?_set_self_of_some hi] at hb
    cases hb
    exact h
  · rw [setProc_proc, List.getElem?_set_ne (Ne.symm hj), ha] at hb
    cases hb
    exact PstaticStep_refl l a

theorem PF_foldl {l : Label} (f : State → Nat → State) (ls : List Nat) (s : State)
    (hf : ∀ (t : State) (i : Nat), PstaticFrame l t (f t i)) :
    PstaticFrame l s (ls.foldl f s) :=
  foldl_inv (fun t => PstaticFrame l s t) f ls s (fun t i ht => PF_trans ht (hf t i)) (PF_refl l s)

theorem PF_of_set {l : Label} {s t : State} {i : Nat} {p : Proc} (q : Proc)
    (hi : s.proc[i]? = some p) (ht : t.proc = s.proc.set i q) (h : PstaticStep l p q) :
    PstaticFrame l s t :=
  PF_trans (PF_setProc q hi h) (PF_proc_eq (s := s.setProc i q) ht)

/-- a slot is replaced by a record with the same static priority -/
theorem PF_keep {l : Label} {s : State} {i : Nat} {p : Proc} (q : Proc)
    (hi : s.proc[i]? = some p) (h : q.pstatic = p.pstatic) :
    PstaticFrame l s (s.setProc i q) :=
  PF_setProc q hi (Or.inl h)

theorem PF_make_runnable (l : Label) (pol : Policy) (s : State) (i : Nat) (p : Proc)
    (hi : s.proc[i]? = some p) : PstaticFrame l s (make_runnable pol s i p) := by
  unfold make_runnable
  split
  · refine PF_of_set { p with state := procstate.RUNNABLE, mlfq_priority := p.cur_queue }
      hi ?_ (Or.inl rfl)
    simp [push_to_proc, List.set_set]
  · refine PF_keep _ hi ?_
    rfl

theorem PF_wakeup (l : Label) (pol : Policy) (s : State) (caller : Option Nat) (chan : Chan) :
    PstaticFrame l s (wakeup pol s caller chan) := by
  unfold wakeup
  apply PF_foldl
  intro t i
  unfold wakeup_body
  split
  · exact PF_refl l t
  · cases hi : t.proc[i]? with
    | none => exact PF_refl l t
    | some p =>
      simp only []
      split
      · exact PF_make_runnable l pol t i p hi
      · exact PF_refl l t

theorem PF_yield (l : Label) (pol : Policy) (s : State) (caller : Nat) :
    PstaticFrame l s (yield pol s caller) := by
  cases hi : s.proc[caller]? with
  | none => simp only [yield, hi]; exact PF_refl l s
  | some p =>
    have : yield pol s caller = make_runnable pol s caller p := by
      simp only [yield, make_runnable, hi]
    rw [this]
    exact PF_make_runnable l pol s caller p hi

theorem PF_kill (l : Label) (pol : Policy) (s : State) (pid : Int) :
    PstaticFrame l s (kill pol s pid).1 := by
  unfold kill
  cases hf : first_idx (fun p => decide (p.pid = pid)) s.proc with
  | none => exact PF_refl l s
  | some i =>
    simp only []
    cases hp : s.proc[i]? with
    | none => exact PF_refl l s
    | some p =>
      simp only []
      have h1 : PstaticFrame l s (s.setProc i { p with killed := 1 }) := by
        refine PF_keep _ hp ?_
        rfl
      split
      · exact PF_trans h1 (PF_make_runnable l pol _ i _ (getElem?_set_self_of_some hp))
      · exact h1

theorem PF_sleep (l : Label) (s : State) (caller : Nat) (chan : Chan) :
    PstaticFrame l s (sleep s caller chan) := by
  unfold sleep
  cases hi : s.proc[caller]? with
  | none => exact PF_refl l s
  | some p =>
    refine PF_keep _ hi ?_
    rfl

theorem PF_sleep_return (l : Label) (s : State) (caller : Nat) :
    PstaticFrame l s (sleep_return s caller) := by
  unfold sleep_return
  cases hi : s.proc[caller]? with
  | none => exact PF_refl l s
  | some p =>
    refine PF_keep _ hi ?_
    rfl

theorem PF_reparent (l : Label) (pol : Policy) (s : State) (caller : Nat) :
    PstaticFrame l s (reparent pol s caller) := by
  unfold reparent
  apply PF_foldl
  intro t i
  unfold reparent_body
  cases hi : t.proc[i]? with
  | none => exact PF_refl l t
  | some pp =>
    simp only []
    split
    · refine PF_trans (PF_keep _ hi ?_) (PF_wakeup l pol _ _ _)
      rfl
    · exact PF_refl l t

theorem PF_exit (l : Label) (pol : Policy) (s : State) (caller : Nat) (status : Int) :
    PstaticFrame l s (exit pol s caller status) := by
  unfold exit
  simp only []
  cases hi : (reparent pol s caller).proc[caller]? with
  | none => exact PF_reparent l pol s caller
  | some p =>
    simp only []
    cases hi2 : (wakeup pol (reparent pol s caller) (some caller)
        (Chan.ofPtr p.parent)).proc[caller]? with
    | none => exact PF_trans (PF_reparent l pol s caller) (PF_wakeup l pol _ _ _)
    | some p2 =>
      simp only []
      refine PF_trans (PF_reparent l pol s caller)
        (PF_trans (PF_wakeup l pol _ _ _) (PF_keep _ hi2 ?_))
      rfl

theorem PF_freeproc (l : Label) (s : State) (i : Nat) (p : Proc) (hi : s.proc[i]? = some p) :
    PstaticFrame l s (s.setProc i (freeproc p)) := by
  refine PF_keep _ hi ?_
  rfl

theorem PF_allocproc (l : Label) (s : State) (tf pt : Int) :
    PstaticFrame l s (allocproc s tf pt).1 := by
  unfold allocproc
  cases hf : first_idx (fun p => decide (p.state = procstate.UNUSED)) s.proc with
  | none => exact PF_refl l s
  | some i =>
    simp only []
    cases hp : s.proc[i]? with
    | none => exact PF_refl l s
    | some p0 =>
      simp only []
      have hp2 : (allocpid s).2.proc[i]? = some p0 := hp
      have hb : PstaticFrame l s (allocpid s).2 := PF_proc_eq rfl
      split
      · refine PF_trans hb (PF_setProc _ hp2 (Or.inr (Or.inl ?_)))
        rfl
      · split
        · refine PF_trans hb (PF_setProc _ hp2 (Or.inr (Or.inl ?_)))
          rfl
        · refine PF_trans hb (PF_setProc _ hp2 (Or.inr (Or.inl ?_)))
          rfl

theorem PF_userinit (l : Label) (pol : Policy) (s : State) (tf pt : Int) :
    PstaticFrame l s (userinit pol s tf pt) := by
  have h1 := PF_allocproc l s tf pt
  cases hr : (allocproc s tf pt).2 with
  | none => simp only [userinit, hr]; exact h1
  | some i =>
    cases hp : (allocproc s tf pt).1.proc[i]? with
    | none => simp only [userinit, hr, hp]; exact PF_trans h1 (PF_proc_eq rfl)
    | some p =>
      have hp3 : ({ (allocproc s tf pt).1 with initproc := some i } : State).proc[i]? = some p := hp
      have h2 : PstaticFrame l (allocproc s tf pt).1
          ({ (allocproc s tf pt).1 with initproc := some i } : State) := PF_proc_eq rfl
      simp only [userinit, hr, hp]
      split
      · refine PF_trans h1 (PF_trans h2 (PF_of_set
          { p with
            sz := 4096
            name := safestrcpy p.name initcode_name 16
            state := procstate.RUNNABLE
            cur_queue := 0
            mlfq_priority := 0 } hp3 ?_ (Or.inl rfl)))
        simp [push_to_proc, List.set_set]
      · refine PF_trans h1 (PF_trans h2 (PF_keep _ hp3 ?_))
        rfl

theorem PF_fork (l : Label) (pol : Policy) (s : State) (caller : Nat) (tf pt : Int)
    (copyok : Bool) : PstaticFrame l s (fork pol s caller tf pt copyok).1 := by
  have h1 := PF_allocproc l s tf pt
  cases hc : s.proc[caller]? with
  | none => simp only [fork, hc]; exact PF_refl l s
  | some p =>
    cases hr : (allocproc s tf pt).2 with
    | none => simp only [fork, hc, hr]; exact h1
    | some i =>
      cases hnp : (allocproc s tf pt).1.proc[i]? with
      | none => simp only [fork, hc, hr, hnp]; exact h1
      | some np =>
        simp only [fork, hc, hr, hnp]
        split
        · exact PF_trans h1 (PF_freeproc l _ i np hnp)
        · split
          · refine PF_trans h1 (PF_of_set
              { np with
                sz := p.sz
                mask := p.mask
                name := safestrcpy np.name p.name 16
                parent := some caller
                state := procstate.RUNNABLE
                cur_queue := 0 } hnp ?_ (Or.inl rfl))
            simp [push_to_proc]
          · refine PF_trans h1 (PF_keep _ hnp ?_)
            rfl

theorem PF_wait (l : Label) (s : State) (caller : Nat) (addr : Int) (copyok : Bool) :
    PstaticFrame l s (wait s caller addr copyok).1 := by
  cases hc : s.proc[caller]? with
  | none => simp only [wait, hc]; exact PF_refl l s
  | some p =>
    simp only [wait, hc]
    cases hf : first_idx
        (fun np => decide (np.parent = some caller ∧ np.state = procstate.ZOMBIE)) s.proc with
    | some i =>
      simp only []
      cases hnp : s.proc[i]? with
      | none => exact PF_refl l s
      | some np =>
        simp only []
        split
        · exact PF_refl l s
        · exact PF_freeproc l s i np hnp
    | none =>
      simp only []
      split
      · exact PF_refl l s
      · exact PF_sleep l s caller _

theorem PF_waitx (l : Label) (s : State) (caller : Nat) (addr : Int) (copyok : Bool)
    (w0 r0 : Int) : PstaticFrame l s (waitx s caller addr copyok w0 r0).1 := by
  cases hc : s.proc[caller]? with
  | none => simp only [waitx, hc]; exact PF_refl l s
  | some p =>
    simp only [waitx, hc]
    cases hf : first_idx
        (fun np => decide (np.parent = some caller ∧ np.state = procstate.ZOMBIE)) s.proc with
    | some i =>
      simp only []
      cases hnp : s.proc[i]? with
      | none => exact PF_refl l s
      | some np =>
        simp only []
        split
        · exact PF_refl l s
        · exact PF_freeproc l s i np hnp
    | none =>
      simp only []
      split
      · exact PF_refl l s
      · exact PF_sleep l s caller _

theorem tick_slot_pstatic (pol : Policy) (threshold : Int → Int) (p : Proc) :
    (tick_slot pol threshold p).pstatic = p.pstatic := by
  have h0 : (count_queue p).pstatic = p.pstatic := by unfold count_queue; split <;> rfl
  have h1 : ∀ r : Proc, (count_run r).pstatic = r.pstatic := by
    intro r; unfold count_run; split <;> rfl
  have h2 : ∀ r : Proc, (count_sleep r).pstatic = r.pstatic := by
    intro r; unfold count_sleep; split <;> rfl
  have h3 : (tick_counters p).pstatic = p.pstatic := by
    unfold tick_counters
    simp only []
    split
    · rw [show ∀ r : Proc, (count_wait r).pstatic = r.pstatic from fun _ => rfl, h2, h1, h0]
    · rw [h2, h1, h0]
  unfold tick_slot
  split
  · rw [show ∀ r : Proc, (age_done (age_down r)).pstatic = r.pstatic from fun _ => rfl, h3]
  · exact h3

theorem PF_map (l : Label) (s : State) (f : Proc → Proc) (hf : ∀ p, (f p).pstatic = p.pstatic)
    (t : State) (ht : t.proc = s.proc.map f) : PstaticFrame l s t := by
  refine ⟨by rw [ht, List.length_map], ?_⟩
  intro j p q hp hq
  rw [ht, List.getElem?_map, hp] at hq
  cases hq
  exact Or.inl (hf p)

theorem PF_updatetime (l : Label) (pol : Policy) (s : State) :
    PstaticFrame l s (updatetime pol s) :=
  PF_map l s _ (tick_slot_pstatic pol s.ageing_threshold) _ (updatetime_proc pol s)

theorem PF_setpriority (caller : Nat) (priority pid : Int) (s : State) :
    PstaticFrame (Label.setpriority caller priority pid) s (setpriority s pid priority).1 := by
  unfold setpriority
  refine foldl_inv
    (fun acc : State × Int => PstaticFrame (Label.setpriority caller priority pid) s acc.1)
    _ _ (s, -1) ?_ (PF_refl _ s)
  intro acc i hacc
  unfold setpriority_body
  cases hi : acc.1.proc[i]? with
  | none => exact hacc
  | some p =>
    simp only []
    split
    · exact PF_trans hacc (PF_setProc _ hi (Or.inr (Or.inr ⟨caller, pid, rfl⟩)))
    · exact hacc

theorem PF_sys_setpriority (pol : Policy) (caller : Nat) (priority pid : Int) (s : State) :
    PstaticFrame (Label.setpriority caller priority pid) s
      (sys_setpriority pol s caller priority pid).1 := by
  simp only [sys_setpriority, calc_dpriority]
  split
  · exact PF_setpriority caller priority pid s
  · exact PF_trans (PF_setpriority caller priority pid s) (PF_yield _ pol _ caller)

theorem PF_dispatch (l : Label) (pol : Policy) (s : State) (tbl : List Proc) (minp : Option Nat) :
    PstaticFrame l { s with proc := tbl } { s with proc := (dispatch pol tbl minp).1 } := by
  unfold dispatch
  cases minp with
  | none => exact PF_refl l _
  | some m =>
    simp only []
    cases hm : tbl[m]? with
    | none => exact PF_refl l _
    | some p =>
      simp only []
      split
      · have hm2 : ({ s with proc := tbl } : State).proc[m]? = some p := hm
        split
        · exact PF_of_set
            { p with
              state := procstate.RUNNING
              is_new := 0
              rtime_prev := 0
              stime_prev := 0
              ns := p.ns + 1 } hm2 rfl (Or.inl rfl)
        · exact PF_of_set { p with state := procstate.RUNNING } hm2 rfl (Or.inl rfl)
      · exact PF_refl l _

theorem PF_scheduler_mlfq (l : Label) (s : State) : PstaticFrame l s (scheduler_mlfq s).1 := by
  unfold scheduler_mlfq
  simp only []
  split
  · exact PF_refl l s
  · cases hf : mlfq_find s.proc (mlfq_chosen_pid s) with
    | none => exact PF_refl l s
    | some m =>
      simp only []
      cases hp : s.proc[m]? with
      | none => exact PF_refl l s
      | some p =>
        simp only []
        split
        · split
          · refine PF_of_set
              { p with
                state := procstate.RUNNING
                mlfq_priority := -1
                ns := p.ns + 1 } hp ?_ (Or.inl rfl)
            simp [pop_given_proc, List.set_set]
          · exact PF_refl l s
        · exact PF_refl l s

theorem PF_scheduler_round (l : Label) (pol : Policy) (s : State) :
    PstaticFrame l s (scheduler_round pol s).1 := by
  cases pol with
  | FCFS => exact PF_dispatch l Policy.FCFS s s.proc _
  | PBS =>
    simp only [scheduler_round]
    exact PF_trans (PF_map l s pbs_update (fun _ => rfl) { s with proc := s.proc.map pbs_update }
      rfl) (by rw [pbs_scan_fst]; exact PF_dispatch l Policy.PBS s _ _)
  | MLFQ => exact PF_scheduler_mlfq l s
  | RR => exact PF_refl l s

theorem PF_rr_dispatch (l : Label) (s : State) (i : Nat) : PstaticFrame l s (rr_dispatch s i) := by
  unfold rr_dispatch
  cases hi : s.proc[i]? with
  | none => exact PF_refl l s
  | some p =>
    simp only []
    split
    · refine PF_keep _ hi ?_
      rfl
    · exact PF_refl l s

/-- every operation changes the static priority of a slot only to the
default 60 (allocation) or to the priority argument of `setpriority` -/
theorem PF_apply (pol : Policy) (s : State) (l : Label) :
    PstaticFrame l s (apply pol s l) := by
  cases l with
  | userinit tf pt => exact PF_userinit _ pol s tf pt
  | fork caller tf pt copyok => exact PF_fork _ pol s caller tf pt copyok
  | exit caller status => exact PF_exit _ pol s caller status
  | wait caller addr copyok => exact PF_wait _ s caller addr copyok
  | waitx caller addr copyok => exact PF_waitx _ s caller addr copyok 0 0
  | yield caller => exact PF_yield _ pol s caller
  | sleep caller chan => exact PF_sleep _ s caller chan
  | sleep_return caller => exact PF_sleep_return _ s caller
  | wakeup caller chan => exact PF_wakeup _ pol s caller chan
  | kill pid => exact PF_kill _ pol s pid
  | setpriority caller priority pid => exact PF_sys_setpriority pol caller priority pid s
  | tick => exact PF_proc_eq rfl
  | updatetime => exact PF_updatetime _ pol s
  | sched => exact PF_scheduler_round _ pol s
  | rr i => exact PF_rr_dispatch _ s i

theorem boot_proc (pol : Policy) (nproc : Nat) :
    (boot pol nproc).proc = List.replicate nproc Proc.zero := by
  unfold boot queue_init
  split <;> rfl

theorem exPriority_reachable : Reachable Policy.PBS 3 exPriority :=
  Reach_run _ _ Reach.boot (fun _ _ => trivial) rfl

/-- C23 (counterexample). Under PBS with three slots, after `userinit` and a
dispatch, `init` calls `setpriority(500, 1)` through the syscall: the state is
reachable, slot 0 is allocated (pid 1, `RUNNING`) and its `pstatic` is 500,
outside 0..100. -/
theorem pstatic_leaves_range :
    Reachable Policy.PBS 3 exPriority ∧
    ∃ p : Proc, exPriority.proc[0]? = some p ∧ p.state = procstate.RUNNING ∧ p.pid = 1 ∧
      p.pstatic = 500 ∧ ¬ (0 ≤ p.pstatic ∧ p.pstatic ≤ 100) :=
  ⟨Reach_run _ _ Reach.boot (fun _ _ => trivial) rfl, _, rfl, by decide, by decide, by decide,
    by decide⟩

/-- C23 (amended). In every state reached from boot by operations in which
every `setpriority` call passes a priority in 0..100, every slot has `pstatic`
in 0..100; and one operation leaves the `pstatic` of a slot as it was, or sets
it to 60 (allocation), or sets it to the priority argument of that
`setpriority` call, whatever the argument is. -/
theorem pstatic_in_range_of_checked_calls (pol : Policy) (nproc : Nat) (s : State)
    (h : Reach pol nproc priority_in_range s) :
    (∀ (i : Nat) (p : Proc), s.proc[i]? = some p → 0 ≤ p.pstatic ∧ p.pstatic ≤ 100) ∧
    (∀ (l : Label) (i : Nat) (p q : Proc), s.proc[i]? = some p →
      (apply pol s l).proc[i]? = some q →
        q.pstatic = p.pstatic ∨ q.pstatic = 60 ∨
          ∃ caller pid, l = Label.setpriority caller q.pstatic pid) := by
  refine ⟨?_, fun l i p q hp hq => (PF_apply pol s l).2 i p q hp hq⟩
  induction h with
  | boot =>
    intro i p hp
    rw [boot_proc] at hp
    have hm : p ∈ List.replicate nproc Proc.zero := List.mem_iff_getElem?.2 ⟨i, hp⟩
    rw [List.eq_of_mem_replicate hm]
    decide
  | @step s0 l _ hl _ ih =>
    intro i q hq
    obtain ⟨hlen, hstep⟩ := PF_apply pol s0 l
    have hi : i < s0.proc.length := by
      rw [← hlen]
      exact (List.getElem?_eq_some_iff.1 hq).1
    obtain ⟨p, hp⟩ : ∃ p, s0.proc[i]? = some p := ⟨_, List.getElem?_eq_getElem hi⟩
    rcases hstep i p q hp hq with h1 | h1 | ⟨caller, pid, h1⟩
    · rw [h1]; exact ih i p hp
    · rw [h1]; decide
    · rw [h1] at hl
      exact hl

theorem exForked_checked : Reach Policy.MLFQ 3 priority_in_range exForked := by
  refine Reach_run _ _ Reach.boot ?_ rfl
  intro l hl
  simp only [List.mem_cons, List.mem_singleton, List.not_mem_nil, or_false] at hl
  rcases hl with rfl | rfl | rfl <;> trivial

theorem exPriorityOk_checked : Reach Policy.PBS 3 priority_in_range exPriorityOk := by
  refine Reach_run _ _ Reach.boot ?_ rfl
  intro l hl
  simp only [List.mem_cons, List.mem_singleton, List.not_mem_nil, or_false] at hl
  rcases hl with rfl | rfl | rfl
  · trivial
  · trivial
  · exact ⟨by decide, by decide⟩

theorem pstatic_in_range_of_checked_calls_witness :
    (∃ p : Proc, exForked.proc[1]? = some p ∧ p.pstatic = 60 ∧
      0 ≤ p.pstatic ∧ p.pstatic ≤ 100) ∧
    (∃ p : Proc, exPriorityOk.proc[0]? = some p ∧ p.pstatic = 50 ∧
      0 ≤ p.pstatic ∧ p.pstatic ≤ 100) :=
  ⟨⟨_, rfl, by decide,
      (pstatic_in_range_of_checked_calls Policy.MLFQ 3 exForked exForked_checked).1 1 _ rfl⟩,
    ⟨_, rfl, by decide,
      (pstatic_in_range_of_checked_calls Policy.PBS 3 exPriorityOk exPriorityOk_checked).1 0 _
        rfl⟩⟩

/-! ## The selectors of FCFS and PBS -/

theorem allocpid_calls_spec (k : Nat) (s : State) :
    (allocpid_calls k s).1 = (List.range k).map (fun (j : Nat) => s.nextpid + (j : Int)) ∧
    (allocpid_calls k s).2.nextpid = s.nextpid + (k : Int) := by
  induction k generalizing s with
  | zero => simp [allocpid_calls]
  | succ k ih =>
    obtain ⟨h1, h2⟩ := ih (allocpid s).2
    simp only [allocpid_calls, h1, h2, List.range_succ_eq_map, List.map_cons, List.map_map]
    refine ⟨?_, ?_⟩
    · simp only [allocpid, Nat.cast_zero, add_zero, List.cons.injEq, true_and]
      apply List.map_congr_left
      intro j _
      simp only [Function.comp, Nat.succ_eq_add_one, Nat.cast_add, Nat.cast_one]
      ring
    · simp only [allocpid, Nat.cast_add, Nat.cast_one]
      ring

theorem fcfs_scan_eq (l : List Proc) (i : Nat) (c : Cand) :
    fcfs_scan l i c = scan_with fcfs_replaces l i c := by
  induction l generalizing i c with
  | nil => rfl
  | cons p rest ih =>
    simp only [fcfs_scan, scan_with, fcfs_replaces, decide_eq_true_eq]
    exact ih _ _

theorem pbs_scan_snd (l : List Proc) (i : Nat) (c : Cand) :
    (pbs_scan l i c).2 = scan_with pbs_replaces (l.map pbs_update) i c := by
  induction l generalizing i c with
  | nil => rfl
  | cons p rest ih =>
    simp only [pbs_scan, scan_with, List.map_cons]
    exact ih _ _

/-- The candidate after a scan: either the one before the scan, which no
`RUNNABLE` slot of the list replaces, or the first slot of the list that
replaces every earlier candidate and is replaced by no slot. -/
theorem scan_with_spec (R : Proc → Proc → Bool) (hirr : ∀ a, R a a = false)
    (htr : ∀ a b c, R a b = true → R b c = true → R a c = true)
    (hnt : ∀ a b c, R a b = false → R b c = false → R a c = false)
    (l : List Proc) (i : Nat) (c : Cand) :
    (scan_with R l i c = c ∧
      ∀ (k : Nat) (q : Proc), l[k]? = some q → q.state = procstate.RUNNABLE →
        ∃ m mp, c = some (m, mp) ∧ R mp q = false) ∨
    (∃ (k : Nat) (q : Proc), scan_with R l i c = some (i + k, q) ∧ l[k]? = some q ∧
      q.state = procstate.RUNNABLE ∧
      (∀ m mp, c = some (m, mp) → R mp q = true) ∧
      (∀ (j : Nat) (r : Proc), l[j]? = some r → r.state = procstate.RUNNABLE → R q r = false) ∧
      (∀ (j : Nat) (r : Proc), j < k → l[j]? = some r → r.state = procstate.RUNNABLE →
        R r q = true)) := by
  have hasym : ∀ a b, R a b = true → R b a = false := by
    intro a b hab
    cases hba : R b a with
    | false => rfl
    | true => have := htr a b a hab hba; rw [hirr] at this; cases this
  induction l generalizing i c with
  | nil =>
    left
    exact ⟨rfl, fun k q hk => by simp at hk⟩
  | cons p rest ih =>
    by_cases hp : p.state = procstate.RUNNABLE
    · cases c with
      | none =>
        have hs : scan_with R (p :: rest) i none = scan_with R rest (i + 1) (some (i, p)) := by
          simp only [scan_with, hp, if_true]
        rw [hs]
        right
        rcases ih (i + 1) (some (i, p)) with ⟨h1, h2⟩ | ⟨k, q, h1, h2, h3, h4, h5, h6⟩
        · refine ⟨0, p, by rw [h1]; rfl, by simp, hp, (fun m mp h => nomatch h), ?_, ?_⟩
          · intro j r hj hr
            cases j with
            | zero =>
              have e : p = r := by simpa using hj
              subst e
              exact hirr _
            | succ j =>
              obtain ⟨m, mp, hc, hR⟩ := h2 j r (by simpa using hj) hr
              cases hc
              exact hR
          · intro j r hj; omega
        · have hpq := h4 i p rfl
          refine ⟨k + 1, q, by rw [h1]; congr 2; omega, by simpa using h2, h3,
            (fun m mp h => nomatch h), ?_, ?_⟩
          · intro j r hj hr
            cases j with
            | zero =>
              have e : p = r := by simpa using hj
              subst e
              exact hasym _ _ hpq
            | succ j => exact h5 j r (by simpa using hj) hr
          · intro j r hjk hj hr
            cases j with
            | zero =>
              have e : p = r := by simpa using hj
              subst e
              exact hpq
            | succ j => exact h6 j r (by omega) (by simpa using hj) hr
      | some cm =>
        obtain ⟨m, mp⟩ := cm
        cases hrep : R mp p with
        | true =>
          have hs : scan_with R (p :: rest) i (some (m, mp))
              = scan_with R rest (i + 1) (some (i, p)) := by
            simp only [scan_with, hp, if_true, hrep]
          rw [hs]
          right
          rcases ih (i + 1) (some (i, p)) with ⟨h1, h2⟩ | ⟨k, q, h1, h2, h3, h4, h5, h6⟩
          · refine ⟨0, p, by rw [h1]; rfl, by simp, hp, ?_, ?_, ?_⟩
            · intro m2 mp2 h; cases h; exact hrep
            · intro j r hj hr
              cases j with
              | zero =>
                have e : p = r := by simpa using hj
                subst e
                exact hirr _
              | succ j =>
                obtain ⟨m2, mp2, hc, hR⟩ := h2 j r (by simpa using hj) hr
                cases hc
                exact hR
            · intro j r hj; omega
          · have hpq := h4 i p rfl
            refine ⟨k + 1, q, by rw [h1]; congr 2; omega, by simpa using h2, h3, ?_, ?_, ?_⟩
            · intro m2 mp2 h; cases h; exact htr _ _ _ hrep hpq
            · intro j r hj hr
              cases j with
              | zero =>
                have e : p = r := by simpa using hj
                subst e
                exact hasym _ _ hpq
              | succ j => exact h5 j r (by simpa using hj) hr
            · intro j r hjk hj hr
              cases j with
              | zero =>
                have e : p = r := by simpa using hj
                subst e
                exact hpq
              | succ j => exact h6 j r (by omega) (by simpa using hj) hr
        | false =>
          have hs : scan_with R (p :: rest) i (some (m, mp))
              = scan_with R rest (i + 1) (some (m, mp)) := by
            simp only [scan_with, hp, if_true, hrep]
            rfl
          rw [hs]
          rcases ih (i + 1) (some (m, mp)) with ⟨h1, h2⟩ | ⟨k, q, h1, h2, h3, h4, h5, h6⟩
          · left
            refine ⟨h1, ?_⟩
            intro j r hj hr
            cases j with
            | zero =>
              have e : p = r := by simpa using hj
              subst e
              exact ⟨m, mp, rfl, hrep⟩
            | succ j => exact h2 j r (by simpa using hj) hr
          · right
            have hmq := h4 m mp rfl
            refine ⟨k + 1, q, by rw [h1]; congr 2; omega, by simpa using h2, h3, h4, ?_, ?_⟩
            · intro j r hj hr
              cases j with
              | zero =>
                have e : p = r := by simpa using hj
                subst e
                cases hqp : R q p with
                | false => rfl
                | true => have := htr _ _ _ hmq hqp; rw [hrep] at this; cases this
              | succ j => exact h5 j r (by simpa using hj) hr
            · intro j r hjk hj hr
              cases j with
              | zero =>
                have e : p = r := by simpa using hj
                subst e
                cases hpq : R p q with
                | true => rfl
                | false => have := hnt _ _ _ hrep hpq; rw [hmq] at this; cases this
              | succ j => exact h6 j r (by omega) (by simpa using hj) hr
    · have hs : scan_with R (p :: rest) i c = scan_with R rest (i + 1) c := by
        simp only [scan_with, hp, if_false]
      rw [hs]
      rcases ih (i + 1) c with ⟨h1, h2⟩ | ⟨k, q, h1, h2, h3, h4, h5, h6⟩
      · left
        refine ⟨h1, ?_⟩
        intro j r hj hr
        cases j with
        | zero =>
          have e : p = r := by simpa using hj
          subst e
          exact absurd hr hp
        | succ j => exact h2 j r (by simpa using hj) hr
      · right
        refine ⟨k + 1, q, by rw [h1]; congr 2; omega, by simpa using h2, h3, h4, ?_, ?_⟩
        · intro j r hj hr
          cases j with
          | zero =>
            have e : p = r := by simpa using hj
            subst e
            exact absurd hr hp
          | succ j => exact h5 j r (by simpa using hj) hr
        · intro j r hjk hj hr
          cases j with
          | zero =>
            have e : p = r := by simpa using hj
            subst e
            exact absurd hr hp
          | succ j => exact h6 j r (by omega) (by simpa using hj) hr

theorem pbs_replaces_iff (a b : Proc) :
    pbs_replaces a b = true ↔
      (a.pdynamic > b.pdynamic ∨ (a.pdynamic = b.pdynamic ∧ a.ns > b.ns) ∨
        (a.pdynamic = b.pdynamic ∧ a.ns = b.ns ∧ a.ctime < b.ctime)) := by
  unfold pbs_replaces
  split_ifs <;> simp <;> omega

theorem pbs_replaces_false_iff (a b : Proc) :
    pbs_replaces a b = false ↔
      ¬ (a.pdynamic > b.pdynamic ∨ (a.pdynamic = b.pdynamic ∧ a.ns > b.ns) ∨
        (a.pdynamic = b.pdynamic ∧ a.ns = b.ns ∧ a.ctime < b.ctime)) := by
  rw [← pbs_replaces_iff, Bool.not_eq_true]

theorem pbs_replaces_irrefl (a : Proc) : pbs_replaces a a = false := by
  rw [pbs_replaces_false_iff]; omega

theorem pbs_replaces_trans (a b c : Proc) (h1 : pbs_replaces a b = true)
    (h2 : pbs_replaces b c = true) : pbs_replaces a c = true := by
  rw [pbs_replaces_iff] at *; omega

theorem pbs_replaces_negtrans (a b c : Proc) (h1 : pbs_replaces a b = false)
    (h2 : pbs_replaces b c = false) : pbs_replaces a c = false := by
  rw [pbs_replaces_false_iff] at *; omega

theorem fcfs_replaces_irrefl (a : Proc) : fcfs_replaces a a = false := by
  simp [fcfs_replaces]

theorem fcfs_replaces_trans (a b c : Proc) (h1 : fcfs_replaces a b = true)
    (h2 : fcfs_replaces b c = true) : fcfs_replaces a c = true := by
  simp only [fcfs_replaces, decide_eq_true_eq] at *; omega

theorem fcfs_replaces_negtrans (a b c : Proc) (h1 : fcfs_replaces a b = false)
    (h2 : fcfs_replaces b c = false) : fcfs_replaces a c = false := by
  simp only [fcfs_replaces, decide_eq_false_iff_not] at *; omega

/-- The result of a scan that starts without a candidate: none when no slot is
`RUNNABLE`, else the first `RUNNABLE` slot that no `RUNNABLE` slot replaces. -/
theorem scan_with_none (R : Proc → Proc → Bool) (hirr : ∀ a, R a a = false)
    (htr : ∀ a b c, R a b = true → R b c = true → R a c = true)
    (hnt : ∀ a b c, R a b = false → R b c = false → R a c = false) (l : List Proc) :
    (scan_with R l 0 none = none ∧ ∀ p ∈ l, p.state ≠ procstate.RUNNABLE) ∨
    (∃ (k : Nat) (q : Proc), scan_with R l 0 none = some (k, q) ∧ l[k]? = some q ∧
      q.state = procstate.RUNNABLE ∧
      (∀ (j : Nat) (r : Proc), l[j]? = some r → r.state = procstate.RUNNABLE → R q r = false) ∧
      (∀ (j : Nat) (r : Proc), j < k → l[j]? = some r → r.state = procstate.RUNNABLE →
        R r q = true)) := by
  rcases scan_with_spec R hirr htr hnt l 0 none with ⟨h1, h2⟩ | ⟨k, q, h1, h2, h3, _, h5, h6⟩
  · left
    refine ⟨h1, ?_⟩
    intro p hp hr
    obtain ⟨k, hk⟩ := List.mem_iff_getElem?.1 hp
    obtain ⟨m, mp, hc, _⟩ := h2 k p hk hr
    cases hc
  · right
    exact ⟨k, q, by rw [h1, Nat.zero_add], h2, h3, h5, h6⟩

/-- C3. The FCFS selector returns no candidate when no slot is `RUNNABLE`;
otherwise it returns a `RUNNABLE` slot whose `ctime` is minimal among the
`RUNNABLE` slots, and every `RUNNABLE` slot before it in table order has a
strictly larger `ctime` (it is the lowest-indexed one of minimal `ctime`). -/
theorem fcfs_selects_first_min_ctime (tbl : List Proc) :
    ((∀ p ∈ tbl, p.state ≠ procstate.RUNNABLE) → fcfs_scan tbl 0 none = none) ∧
    ((∃ p ∈ tbl, p.state = procstate.RUNNABLE) →
      ∃ (i : Nat) (p : Proc), fcfs_scan tbl 0 none = some (i, p) ∧ tbl[i]? = some p ∧
        p.state = procstate.RUNNABLE ∧
        (∀ (j : Nat) (q : Proc), tbl[j]? = some q → q.state = procstate.RUNNABLE →
          p.ctime ≤ q.ctime) ∧
        (∀ (j : Nat) (q : Proc), j < i → tbl[j]? = some q → q.state = procstate.RUNNABLE →
          p.ctime < q.ctime)) := by
  rw [fcfs_scan_eq]
  rcases scan_with_none fcfs_replaces fcfs_replaces_irrefl fcfs_replaces_trans
    fcfs_replaces_negtrans tbl with ⟨h1, h2⟩ | ⟨k, q, h1, h2, h3, h5, h6⟩
  · refine ⟨fun _ => h1, ?_⟩
    rintro ⟨p, hp, hr⟩
    exact absurd hr (h2 p hp)
  · constructor
    · intro hno
      exact absurd h3 (hno q (List.mem_iff_getElem?.2 ⟨k, h2⟩))
    · intro _
      refine ⟨k, q, h1, h2, h3, ?_, ?_⟩
      · intro j r hj hr
        have := h5 j r hj hr
        simp only [fcfs_replaces, decide_eq_false_iff_not] at this
        omega
      · intro j r hjk hj hr
        have := h6 j r hjk hj hr
        simp only [fcfs_replaces, decide_eq_true_eq] at this
        exact this

theorem fcfs_selects_first_min_ctime_witness :
    (∃ p ∈ exTable, p.state = procstate.RUNNABLE) ∧
    (fcfs_scan exTable 0 none).map (fun c => (c.1, c.2.pid, c.2.ctime)) = some (2, 3, 3) ∧
    ∃ (i : Nat) (p : Proc), fcfs_scan exTable 0 none = some (i, p) ∧ exTable[i]? = some p ∧
      p.state = procstate.RUNNABLE ∧
      (∀ (j : Nat) (q : Proc), exTable[j]? = some q → q.state = procstate.RUNNABLE →
        p.ctime ≤ q.ctime) ∧
      (∀ (j : Nat) (q : Proc), j < i → exTable[j]? = some q → q.state = procstate.RUNNABLE →
        p.ctime < q.ctime) :=
  ⟨⟨_, List.mem_cons_self _ _, rfl⟩, by decide,
    (fcfs_selects_first_min_ctime exTable).2 ⟨_, List.mem_cons_self _ _, rfl⟩⟩

theorem pbs_update_state (p : Proc) : (pbs_update p).state = p.state := rfl

/-- C1 (counterexample). In a reachable PBS state with three `RUNNABLE`
slots, the pass computes the keys (65, 1, 0), (60, 0, 0) and (60, 0, 1) and
chooses slot 2, although slot 1 has the same `pdynamic` and `ns` and a smaller
`ctime`. -/
theorem pbs_tie_prefers_larger_ctime :
    Reachable Policy.PBS 3 exTie ∧
    (pbs_scan exTie.proc 0 none).1.map (fun p => (p.state, p.pdynamic, p.ns, p.ctime)) =
      [(procstate.RUNNABLE, 65, 1, 0), (procstate.RUNNABLE, 60, 0, 0),
       (procstate.RUNNABLE, 60, 0, 1)] ∧
    (scheduler_round Policy.PBS exTie).2 = some 2 ∧
    ∃ p q : Proc, (pbs_scan exTie.proc 0 none).2 = some (2, p) ∧
      (pbs_scan exTie.proc 0 none).1[1]? = some q ∧ q.state = procstate.RUNNABLE ∧
      q.pdynamic = p.pdynamic ∧ q.ns = p.ns ∧ q.ctime < p.ctime :=
  ⟨Reach_run _ _ Reach.boot (fun _ _ => trivial) rfl, by decide, by decide,
    _, _, rfl, rfl, by decide, by decide, by decide, by decide⟩

/-- C1 (amended). Under PBS, for every table with at least one `RUNNABLE`
slot, the slot chosen by one selector pass is `RUNNABLE` and, with `pdynamic`
as recomputed in that pass, no `RUNNABLE` slot has a smaller `pdynamic`, or an
equal `pdynamic` and a smaller `ns`, or an equal `pdynamic` and `ns` and a
larger `ctime`; every `RUNNABLE` slot before it in table order has a
strictly worse key. -/
theorem pbs_selects_best_key (tbl : List Proc)
    (h : ∃ p ∈ tbl, p.state = procstate.RUNNABLE) :
    ∃ (i : Nat) (p : Proc), (pbs_scan tbl 0 none).2 = some (i, p) ∧
      (pbs_scan tbl 0 none).1[i]? = some p ∧ (tbl[i]?).map pbs_update = some p ∧
      p.state = procstate.RUNNABLE ∧
      (∀ (j : Nat) (q : Proc), (pbs_scan tbl 0 none).1[j]? = some q →
        q.state = procstate.RUNNABLE →
          ¬ (q.pdynamic < p.pdynamic) ∧ ¬ (q.pdynamic = p.pdynamic ∧ q.ns < p.ns) ∧
          ¬ (q.pdynamic = p.pdynamic ∧ q.ns = p.ns ∧ q.ctime > p.ctime)) ∧
      (∀ (j : Nat) (q : Proc), j < i → (pbs_scan tbl 0 none).1[j]? = some q →
        q.state = procstate.RUNNABLE →
          q.pdynamic > p.pdynamic ∨ (q.pdynamic = p.pdynamic ∧ q.ns > p.ns) ∨
          (q.pdynamic = p.pdynamic ∧ q.ns = p.ns ∧ q.ctime < p.ctime)) := by
  rw [pbs_scan_snd, pbs_scan_fst]
  rcases scan_with_none pbs_replaces pbs_replaces_irrefl pbs_replaces_trans
    pbs_replaces_negtrans (tbl.map pbs_update) with ⟨_, h2⟩ | ⟨k, q, h1, h2, h3, h5, h6⟩
  · obtain ⟨p, hp, hr⟩ := h
    exact absurd hr (h2 (pbs_update p) (List.mem_map_of_mem _ hp))
  · refine ⟨k, q, h1, h2, ?_, h3, ?_, ?_⟩
    · rw [← h2, List.getElem?_map]
    · intro j r hj hr
      have := (pbs_replaces_false_iff q r).1 (h5 j r hj hr)
      omega
    · intro j r hjk hj hr
      have := (pbs_replaces_iff r q).1 (h6 j r hjk hj hr)
      omega

theorem pbs_selects_best_key_witness :
    (∃ p ∈ exTie.proc, p.state = procstate.RUNNABLE) ∧
    ∃ (i : Nat) (p : Proc), (pbs_scan exTie.proc 0 none).2 = some (i, p) ∧
      (pbs_scan exTie.proc 0 none).1[i]? = some p ∧ (exTie.proc[i]?).map pbs_update = some p ∧
      p.state = procstate.RUNNABLE ∧
      (∀ (j : Nat) (q : Proc), (pbs_scan exTie.proc 0 none).1[j]? = some q →
        q.state = procstate.RUNNABLE →
          ¬ (q.pdynamic < p.pdynamic) ∧ ¬ (q.pdynamic = p.pdynamic ∧ q.ns < p.ns) ∧
          ¬ (q.pdynamic = p.pdynamic ∧ q.ns = p.ns ∧ q.ctime > p.ctime)) ∧
      (∀ (j : Nat) (q : Proc), j < i → (pbs_scan exTie.proc 0 none).1[j]? = some q →
        q.state = procstate.RUNNABLE →
          q.pdynamic > p.pdynamic ∨ (q.pdynamic = p.pdynamic ∧ q.ns > p.ns) ∨
          (q.pdynamic = p.pdynamic ∧ q.ns = p.ns ∧ q.ctime < p.ctime)) :=
  ⟨⟨exTie.proc.getD 1 Proc.zero, by decide, by decide⟩,
    pbs_selects_best_key exTie.proc ⟨exTie.proc.getD 1 Proc.zero, by decide, by decide⟩⟩

theorem pbs_update_new (p : Proc) (hn : p.is_new = 1) (h0 : 0 < p.pstatic)
    (h1 : p.pstatic < 100) : (pbs_update p).pdynamic = p.pstatic := by
  have hw : ∀ x : Int, -2147483648 ≤ x → x < 2147483648 → wrap32 x = x := by
    intro x hx1 hx2
    unfold wrap32
    omega
  simp only [pbs_update, pbs_niceness, hn, if_true]
  rw [hw (p.pstatic - 5) (by omega) (by omega), hw (p.pstatic - 5 + 5) (by omega) (by omega)]
  rw [if_pos (by omega), if_pos (by omega)]
  omega

/-- C2. Under PBS, a `RUNNABLE` slot A is not chosen by the selector pass
when a `RUNNABLE` slot B has a strictly smaller recomputed `pdynamic`.  When A
and B are new and the only `RUNNABLE` slots, with `pstatic` 60 and 40, their
dynamic priorities are 60 and 40, the pass chooses B, and the scheduler round
leaves B `RUNNING` with `is_new = 0`, `rtime_prev = stime_prev = 0` and `ns`
incremented by one. -/
theorem pbs_prefers_smaller_pdynamic (s : State) (a b : Nat) (A B : Proc)
    (hA : s.proc[a]? = some A) (hB : s.proc[b]? = some B)
    (hAr : A.state = procstate.RUNNABLE) (hBr : B.state = procstate.RUNNABLE) :
    ((pbs_update B).pdynamic < (pbs_update A).pdynamic →
      (pbs_scan s.proc 0 none).2.map (fun c => c.1) ≠ some a) ∧
    (A.is_new = 1 ∧ B.is_new = 1 ∧ A.pstatic = 60 ∧ B.pstatic = 40 ∧
      (∀ (j : Nat) (q : Proc), s.proc[j]? = some q → q.state = procstate.RUNNABLE →
        j = a ∨ j = b) →
      (pbs_update A).pdynamic = 60 ∧ (pbs_update B).pdynamic = 40 ∧
      (pbs_scan s.proc 0 none).2.map (fun c => c.1) = some b ∧
      (scheduler_round Policy.PBS s).2 = some b ∧
      ∃ q : Proc, (scheduler_round Policy.PBS s).1.proc[b]? = some q ∧
        q.state = procstate.RUNNING ∧ q.pid = B.pid ∧ q.is_new = 0 ∧ q.rtime_prev = 0 ∧
        q.stime_prev = 0 ∧ q.ns = B.ns + 1) := by
  obtain ⟨i, p, h1, h2, h3, h4, h5, _⟩ :=
    pbs_selects_best_key s.proc ⟨A, List.mem_iff_getElem?.2 ⟨a, hA⟩, hAr⟩
  have hUB : (pbs_scan s.proc 0 none).1[b]? = some (pbs_update B) := by
    rw [pbs_scan_fst, List.getElem?_map, hB]; rfl
  have hnotA : (pbs_update B).pdynamic < (pbs_update A).pdynamic →
      (pbs_scan s.proc 0 none).2.map (fun c => c.1) ≠ some a := by
    intro hlt hsel
    rw [h1] at hsel
    simp only [Option.map_some', Option.some.injEq] at hsel
    subst hsel
    rw [hA] at h3
    simp only [Option.map_some', Option.some.injEq] at h3
    subst h3
    exact (h5 b _ hUB hBr).1 hlt
  refine ⟨hnotA, ?_⟩
  rintro ⟨hAn, hBn, hAp, hBp, honly⟩
  have hdA : (pbs_update A).pdynamic = 60 := by
    rw [pbs_update_new A hAn (by omega) (by omega), hAp]
  have hdB : (pbs_update B).pdynamic = 40 := by
    rw [pbs_update_new B hBn (by omega) (by omega), hBp]
  have hsel : (pbs_scan s.proc 0 none).2.map (fun c => c.1) = some b := by
    have hi : i = a ∨ i = b := by
      cases hti : s.proc[i]? with
      | none => rw [hti] at h3; cases h3
      | some t =>
        rw [hti] at h3
        simp only [Option.map_some', Option.some.injEq] at h3
        subst h3
        exact honly i t hti h4
    rcases hi with hi | hi
    · exfalso
      apply hnotA (by omega)
      rw [h1, hi]; rfl
    · rw [h1, hi]; rfl
  refine ⟨hdA, hdB, hsel, ?_⟩
  have hb2 : (s.proc.map pbs_update)[b]? = some (pbs_update B) := by
    rw [List.getElem?_map, hB]; rfl
  have hlen : b < (s.proc.map pbs_update).length := (List.getElem?_eq_some_iff.1 hb2).1
  simp only [scheduler_round, hsel, dispatch, pbs_scan_fst, hb2, pbs_update_state, hBr, if_true]
  refine ⟨trivial, _, List.getElem?_set_self hlen, rfl, rfl, rfl, rfl, rfl, rfl⟩

theorem exPbsPair_only (j : Nat) (q : Proc) (hj : exPbsPair.proc[j]? = some q)
    (hq : q.state = procstate.RUNNABLE) : j = 0 ∨ j = 1 := by
  have hl : exPbsPair.proc.length = 3 := by decide
  have hj3 : j < 3 := by
    rw [← hl]
    exact (List.getElem?_eq_some_iff.1 hj).1
  have h2 : (exPbsPair.proc.getD 2 Proc.zero).state = procstate.UNUSED := by decide
  rcases Nat.lt_or_ge j 2 with h | h
  · omega
  · have : j = 2 := by omega
    subst this
    rw [List.getD_eq_getElem?_getD, hj] at h2
    simp only [Option.getD_some] at h2
    rw [hq] at h2
    cases h2

theorem pbs_prefers_smaller_pdynamic_witness :
    (exPbsPair.proc.map (fun p => (p.state, p.pid, p.is_new, p.pstatic))) =
      [(procstate.RUNNABLE, 1, 1, 60), (procstate.RUNNABLE, 2, 1, 40),
       (procstate.UNUSED, 0, 0, 0)] ∧
    (pbs_scan exPbsPair.proc 0 none).2.map (fun c => c.1) ≠ some 0 ∧
    (scheduler_round Policy.PBS exPbsPair).2 = some 1 ∧
    ∃ q : Proc, (scheduler_round Policy.PBS exPbsPair).1.proc[1]? = some q ∧
      q.state = procstate.RUNNING ∧ q.pid = 2 ∧ q.is_new = 0 ∧ q.rtime_prev = 0 ∧
      q.stime_prev = 0 ∧ q.ns = 0 + 1 :=
  ⟨by decide,
    (pbs_prefers_smaller_pdynamic exPbsPair 0 1 _ _ rfl rfl rfl rfl).1 (by decide),
    ((pbs_prefers_smaller_pdynamic exPbsPair 0 1 _ _ rfl rfl rfl rfl).2
      ⟨rfl, rfl, rfl, rfl, exPbsPair_only⟩).2.2.2.1,
    ((pbs_prefers_smaller_pdynamic exPbsPair 0 1 _ _ rfl rfl rfl rfl).2
      ⟨rfl, rfl, rfl, rfl, exPbsPair_only⟩).2.2.2.2⟩

/-! ## Claim C19: niceness and dynamic priority -/

theorem wrap32_id (x : Int) (h1 : -2147483648 ≤ x) (h2 : x < 2147483648) : wrap32 x = x := by
  unfold wrap32
  omega

theorem wrap32_range (x : Int) : -2147483648 ≤ wrap32 x ∧ wrap32 x < 2147483648 := by
  unfold wrap32
  omega

theorem pbs_pdynamic_range (p : Proc) :
    0 ≤ (pbs_update p).pdynamic ∧ (pbs_update p).pdynamic ≤ 100 := by
  simp only [pbs_update]
  split_ifs <;> omega

/-- With a positive divisor and counters that do not overflow, the niceness of
a slot that is not new is the quotient `10 * stime_prev / (rtime_prev +
stime_prev)`, which lies in 0..10. -/
theorem pbs_niceness_quotient (p : Proc) (hn : p.is_new ≠ 1) (hr : 0 ≤ p.rtime_prev)
    (hs : 0 ≤ p.stime_prev) (hpos : 0 < p.rtime_prev + p.stime_prev)
    (hsmall : p.rtime_prev + p.stime_prev * 10 < 2147483648) :
    pbs_niceness p = p.stime_prev * 10 / (p.rtime_prev + p.stime_prev) ∧
    0 ≤ pbs_niceness p ∧ pbs_niceness p ≤ 10 := by
  have hq0 : 0 ≤ p.stime_prev * 10 / (p.rtime_prev + p.stime_prev) :=
    Int.ediv_nonneg (by omega) (by omega)
  have hq10 : p.stime_prev * 10 / (p.rtime_prev + p.stime_prev) ≤ 10 := by
    have : p.stime_prev * 10 / (p.rtime_prev + p.stime_prev)
        ≤ ((p.rtime_prev + p.stime_prev) * 10) / (p.rtime_prev + p.stime_prev) :=
      Int.ediv_le_ediv hpos (by nlinarith)
    rwa [Int.mul_ediv_cancel_left _ (by omega)] at this
  have hne : p.rtime_prev + p.stime_prev ≠ 0 := by omega
  have he : pbs_niceness p = p.stime_prev * 10 / (p.rtime_prev + p.stime_prev) := by
    simp only [pbs_niceness, if_neg hn, cdiv, pbs_divisor]
    rw [wrap32_id (p.rtime_prev + p.stime_prev) (by omega) (by omega),
      wrap32_id (p.stime_prev * 10) (by omega) (by omega), if_neg hne,
      Int.tdiv_eq_ediv (by omega) (by omega)]
    exact wrap32_id _ (by omega) (by omega)
  rw [he]
  exact ⟨rfl, hq0, hq10⟩

/-- With a static priority and a niceness that do not overflow, the dynamic
priority is `max(0, min(100, pstatic - niceness + 5))`. -/
theorem pbs_pdynamic_clamp (p : Proc) (h1 : -1000000 ≤ p.pstatic) (h2 : p.pstatic ≤ 1000000)
    (h3 : -1000000 ≤ pbs_niceness p) (h4 : pbs_niceness p ≤ 1000000) :
    (pbs_update p).pdynamic = max 0 (min 100 (p.pstatic - pbs_niceness p + 5)) := by
  simp only [pbs_update]
  rw [wrap32_id (p.pstatic - pbs_niceness p) (by omega) (by omega),
    wrap32_id (p.pstatic - pbs_niceness p + 5) (by omega) (by omega)]
  split_ifs <;> omega

/-- C19. In the reachable state where `init` was dispatched and yielded
before the next tick, slot 0 has `is_new = 0` and `rtime_prev = stime_prev =
0`: the pass computes its niceness by a division by zero and obtains `-1`,
which is not in 0..10 (and `pdynamic = 66`).  For every slot a new process
gets niceness 5 and the `pdynamic` the pass stores lies in 0..100. -/
theorem pbs_niceness_leaves_range :
    Reachable Policy.PBS 3 exPbsYield ∧
    (exPbsYield.proc.map (fun p => (p.state, p.pid, p.is_new, p.rtime_prev, p.stime_prev,
        p.pstatic))) =
      [(procstate.RUNNABLE, 1, 0, 0, 0, 60), (procstate.UNUSED, 0, 0, 0, 0, 0),
       (procstate.UNUSED, 0, 0, 0, 0, 0)] ∧
    (exPbsYield.proc.map pbs_niceness) = [-1, -1, -1] ∧
    ((exPbsYield.proc.map pbs_update).map (fun p => (p.niceness, p.pdynamic))) =
      [(-1, 66), (-1, 6), (-1, 6)] ∧
    (∀ p : Proc, pbs_niceness { p with is_new := 1 } = 5) ∧
    (∀ p : Proc, 0 ≤ (pbs_update p).pdynamic ∧ (pbs_update p).pdynamic ≤ 100) := by
  refine ⟨Reach_run _ _ Reach.boot (fun _ _ => trivial) rfl, by decide, by decide, by decide,
    fun p => rfl, pbs_pdynamic_range⟩

/-! ## Claims C10 and C12: allocation and release of a slot -/

theorem first_idx_lt {f : Proc → Bool} {l : List Proc} {i : Nat}
    (h : first_idx f l = some i) : ∃ p, l[i]? = some p ∧ f p = true ∧
      ∀ (j : Nat) (q : Proc), j < i → l[j]? = some q → f q = false := by
  induction l generalizing i with
  | nil => cases h
  | cons a t ih =>
    simp only [first_idx] at h
    by_cases ha : f a = true
    · rw [if_pos ha] at h
      cases h
      exact ⟨a, by simp, ha, fun j q hj => by omega⟩
    · rw [if_neg ha] at h
      cases hr : first_idx f t with
      | none => rw [hr] at h; cases h
      | some k =>
        rw [hr] at h
        have hi : k + 1 = i := by simpa using h
        subst hi
        obtain ⟨p, hp, hfp, hall⟩ := ih hr
        refine ⟨p, by simpa using hp, hfp, ?_⟩
        intro j q hj hq
        cases j with
        | zero =>
          have e : a = q := by simpa using hq
          subst e
          simpa using ha
        | succ j => exact hall j q (by omega) (by simpa using hq)

/-- The result of a successful `allocproc`: the lowest-indexed `UNUSED` slot
`i` is set up and every other slot and global except `nextpid` is as before. -/
theorem allocproc_success (s : State) (tf pt : Int) (i : Nat)
    (h : (allocproc s tf pt).2 = some i) :
    ∃ p0 : Proc, s.proc[i]? = some p0 ∧ p0.state = procstate.UNUSED ∧
      (∀ (j : Nat) (q : Proc), j < i → s.proc[j]? = some q → q.state ≠ procstate.UNUSED) ∧
      tf ≠ 0 ∧ pt ≠ 0 ∧
      (allocproc s tf pt).1 =
        { s with
          nextpid := s.nextpid + 1
          proc := s.proc.set i
            { p0 with
              pid := s.nextpid
              state := procstate.USED
              ctime := s.ticks
              rtime := 0
              etime := 0
              twtime := 0
              stime_prev := 0
              rtime_prev := 0
              is_new := 1
              ns := 0
              pstatic := 60
              trapframe := tf
              qcount := [0, 0, 0, 0, 0]
              pagetable := pt } } := by
  unfold allocproc at h ⊢
  cases hf : first_idx (fun p => decide (p.state = procstate.UNUSED)) s.proc with
  | none => rw [hf] at h; cases h
  | some k =>
    obtain ⟨p, hp, hfp, hall⟩ := first_idx_lt hf
    simp only [hf, hp] at h ⊢
    by_cases htf : tf = 0
    · rw [if_pos htf] at h; cases h
    · rw [if_neg htf] at h ⊢
      by_cases hpt : pt = 0
      · rw [if_pos hpt] at h; cases h
      · rw [if_neg hpt] at h ⊢
        cases h
        refine ⟨p, hp, by simpa using hfp, ?_, htf, hpt, rfl⟩
        intro j q hj hq
        simpa using hall j q hj hq

theorem freeproc_slot_set (s : State) (i : Nat) (P : Proc) (hi : i < s.proc.length) (n : Int) :
    freeproc_slot { s with nextpid := n, proc := s.proc.set i P } i =
      { s with nextpid := n, proc := s.proc.set i (freeproc P) } := by
  have hg : ({ s with nextpid := n, proc := s.proc.set i P } : State).proc[i]? = some P :=
    List.getElem?_set_self hi
  simp only [freeproc_slot, hg, State.setProc, List.set_set]

/-- C10. `allocproc` does not reset `wtime`: in the reachable state where
slot 1 was released by a child that waited one tick, `allocproc` claims slot 1
(the lowest-indexed `UNUSED` slot) with `state = USED`, the next pid 3,
`ctime` = the current tick 1, `rtime = etime = twtime = rtime_prev =
stime_prev = ns = 0`, `is_new = 1`, `pstatic = 60`, zeroed `qcount`, and the
other slots unchanged, but `wtime` keeps the value 1 of the previous
occupant; the child that `fork` sets up in the slot starts with `wtime = 1`. -/
theorem allocproc_keeps_stale_wtime :
    Reachable Policy.MLFQ 3 exStale ∧
    exStale.ticks = 1 ∧ exStale.nextpid = 3 ∧
    (exStale.proc.map (fun p => (p.state, p.pid, p.wtime))) =
      [(procstate.RUNNING, 1, 0), (procstate.UNUSED, 0, 1), (procstate.UNUSED, 0, 0)] ∧
    (allocproc exStale 1 1).2 = some 1 ∧
    ((allocproc exStale 1 1).1.proc.map (fun p => (p.state, p.pid, p.ctime, p.wtime))) =
      [(procstate.RUNNING, 1, 0, 0), (procstate.USED, 3, 1, 1), (procstate.UNUSED, 0, 0, 0)] ∧
    ((allocproc exStale 1 1).1.proc[1]?.map (fun p => (p.rtime, p.etime, p.twtime,
        p.rtime_prev, p.stime_prev, p.ns, p.is_new, p.pstatic, p.qcount))) =
      some (0, 0, 0, 0, 0, 0, 1, 60, [0, 0, 0, 0, 0]) ∧
    (allocproc exStale 1 1).1.proc[0]? = exStale.proc[0]? ∧
    (allocproc exStale 1 1).1.proc[2]? = exStale.proc[2]? ∧
    ((fork Policy.MLFQ exStale 0 1 1 true).1.proc[1]?.map (fun p => (p.state, p.pid, p.wtime))) =
      some (procstate.RUNNABLE, 3, 1) := by
  refine ⟨Reach_run _ _ Reach.boot (fun _ _ => trivial) rfl, ?_, ?_, ?_, ?_, ?_, ?_, ?_, ?_, ?_⟩
    <;> first | decide | rfl

/-- C12 (counterexample). In the reachable state `exForked`, `allocproc`
claims the `UNUSED` slot 2 and `freeproc` releases it again: the slot is
`UNUSED` with pid 0 as before, but it keeps `is_new = 1` and `pstatic = 60`
where it had 0 and 0, and `nextpid` is 4 instead of 3; the table is not the
one before. -/
theorem alloc_then_free_changes_slot :
    Reachable Policy.MLFQ 3 exForked ∧
    (allocproc exForked 1 1).2 = some 2 ∧
    (exForked.proc[2]?.map (fun p => (p.state, p.pid, p.is_new, p.pstatic))) =
      some (procstate.UNUSED, 0, 0, 0) ∧
    ((freeproc_slot (allocproc exForked 1 1).1 2).proc[2]?.map
        (fun p => (p.state, p.pid, p.is_new, p.pstatic))) =
      some (procstate.UNUSED, 0, 1, 60) ∧
    (freeproc_slot (allocproc exForked 1 1).1 2).proc ≠ exForked.proc ∧
    exForked.nextpid = 3 ∧ (freeproc_slot (allocproc exForked 1 1).1 2).nextpid = 4 := by
  refine ⟨Reach_run _ _ Reach.boot (fun _ _ => trivial) rfl, ?_, ?_, ?_, ?_, ?_, ?_⟩ <;> decide

/-- C12 (amended). In every reachable state in which `allocproc` succeeds
with slot `i`, releasing that slot with `freeproc` leaves it `UNUSED` with pid
0, its state and pid as before the allocation, and leaves every other slot,
the queues, `initproc` and `ticks` as before; the slot keeps the values the
allocation gave to `ctime`, the counters, `is_new`, `ns`, `pstatic` and
`qcount`, its identity fields are cleared, and `nextpid` stays incremented. -/
theorem alloc_then_free_restores_identity (pol : Policy) (nproc : Nat) (s : State)
    (tf pt : Int) (i : Nat) (hr : Reachable pol nproc s)
    (h : (allocproc s tf pt).2 = some i) :
    ∃ p0 q : Proc, s.proc[i]? = some p0 ∧
      (freeproc_slot (allocproc s tf pt).1 i).proc[i]? = some q ∧
      q.state = procstate.UNUSED ∧ q.pid = 0 ∧ q.state = p0.state ∧ q.pid = p0.pid ∧
      q = { p0 with
            ctime := s.ticks
            rtime := 0
            etime := 0
            twtime := 0
            stime_prev := 0
            rtime_prev := 0
            is_new := 1
            ns := 0
            pstatic := 60
            qcount := [0, 0, 0, 0, 0]
            trapframe := 0
            pagetable := 0
            sz := 0
            parent := none
            name := p0.name.set 0 0
            chan := Chan.null
            killed := 0
            xstate := 0 } ∧
      (∀ j : Nat, j ≠ i → (freeproc_slot (allocproc s tf pt).1 i).proc[j]? = s.proc[j]?) ∧
      (freeproc_slot (allocproc s tf pt).1 i).nextpid = s.nextpid + 1 ∧
      (freeproc_slot (allocproc s tf pt).1 i).queue = s.queue ∧
      (freeproc_slot (allocproc s tf pt).1 i).queue_tail = s.queue_tail ∧
      (freeproc_slot (allocproc s tf pt).1 i).initproc = s.initproc ∧
      (freeproc_slot (allocproc s tf pt).1 i).ticks = s.ticks := by
  obtain ⟨p0, hp0, hu, _, _, _, he⟩ := allocproc_success s tf pt i h
  have hpid : p0.pid = 0 := ((Inv_of_Reach hr).1.pid_range i p0 hp0).1.1 hu
  have hi : i < s.proc.length := (List.getElem?_eq_some_iff.1 hp0).1
  rw [he, freeproc_slot_set s i _ hi]
  refine ⟨p0, _, hp0, List.getElem?_set_self hi, rfl, rfl, hu.symm, hpid.symm, ?_, ?_, rfl, rfl,
    rfl, rfl, rfl⟩
  · cases p0
    simp only [freeproc] at *
    subst hu
    subst hpid
    rfl
  · intro j hj
    exact List.getElem?_set_ne (Ne.symm hj)

theorem alloc_then_free_restores_identity_witness :
    (allocproc exForked 1 1).2 = some 2 ∧
    ∃ p0 q : Proc, exForked.proc[2]? = some p0 ∧
      (freeproc_slot (allocproc exForked 1 1).1 2).proc[2]? = some q ∧
      q.state = procstate.UNUSED ∧ q.pid = 0 ∧ q.state = p0.state ∧ q.pid = p0.pid :=
  ⟨by decide,
    match alloc_then_free_restores_identity Policy.MLFQ 3 exForked 1 1 2 exForked_reachable
      (by decide) with
    | ⟨p0, q, h1, h2, h3, h4, h5, h6, _⟩ => ⟨p0, q, h1, h2, h3, h4, h5, h6⟩⟩

/-! ## Claims C15 and C16: lookup of a slot by pid -/

theorem setpriority_fold (s : State) (pid priority : Int) (k : Nat) :
    ((List.range k).foldl (setpriority_body pid priority) (s, -1)).1.queue = s.queue ∧
    ((List.range k).foldl (setpriority_body pid priority) (s, -1)).1.queue_tail = s.queue_tail ∧
    ((List.range k).foldl (setpriority_body pid priority) (s, -1)).1.nextpid = s.nextpid ∧
    ((List.range k).foldl (setpriority_body pid priority) (s, -1)).1.ticks = s.ticks ∧
    ((List.range k).foldl (setpriority_body pid priority) (s, -1)).1.initproc = s.initproc ∧
    ((List.range k).foldl (setpriority_body pid priority) (s, -1)).1.ageing_threshold
      = s.ageing_threshold ∧
    ((List.range k).foldl (setpriority_body pid priority) (s, -1)).2
      = setpriority_ret pid (s.proc.take k) ∧
    ∀ j : Nat, ((List.range k).foldl (setpriority_body pid priority) (s, -1)).1.proc[j]? =
      if j < k then (s.proc[j]?).map (setpriority_slot pid priority) else s.proc[j]? := by
  induction k with
  | zero =>
    refine ⟨rfl, rfl, rfl, rfl, rfl, rfl, rfl, ?_⟩
    intro j
    simp
  | succ k ih =>
    rw [List.range_succ, List.foldl_append]
    simp only [List.foldl_cons, List.foldl_nil]
    obtain ⟨a1, a2, a3, a4, a5, a6, a7, a8⟩ := ih
    generalize (List.range k).foldl (setpriority_body pid priority) (s, -1) = acc at *
    have hk : acc.1.proc[k]? = s.proc[k]? := by rw [a8 k]; simp
    have hret : setpriority_ret pid (s.proc.take (k + 1)) =
        match s.proc[k]? with
        | none => acc.2
        | some p => if p.pid = pid then p.pstatic else acc.2 := by
      rw [a7, List.take_succ]
      unfold setpriority_ret
      rw [List.foldl_append]
      cases s.proc[k]? <;> rfl
    unfold setpriority_body
    rw [hk, hret]
    cases hp : s.proc[k]? with
    | none =>
      simp only []
      refine ⟨a1, a2, a3, a4, a5, a6, trivial, ?_⟩
      intro j
      rw [a8 j]
      by_cases hjk : j = k
      · subst hjk; simp [hp]
      · by_cases hlt : j < k
        · have : j < k + 1 := by omega
          simp [hlt, this]
        · have : ¬ j < k + 1 := by omega
          simp [hlt, this]
    | some p =>
      simp only []
      by_cases hpid : p.pid = pid
      · simp only [hpid, if_true]
        refine ⟨a1, a2, a3, a4, a5, a6, trivial, ?_⟩
        intro j
        by_cases hjk : j = k
        · subst hjk
          have hlen : j < acc.1.proc.length := by
            have := hk
            rw [hp] at this
            exact (List.getElem?_eq_some_iff.1 this).1
          simp [State.setProc, List.getElem?_set_self hlen, hp, setpriority_slot, hpid]
        · simp only [State.setProc, List.getElem?_set_ne (Ne.symm hjk)]
          rw [a8 j]
          by_cases hlt : j < k
          · have : j < k + 1 := by omega
            simp [hlt, this]
          · have : ¬ j < k + 1 := by omega
            simp [hlt, this]
      · simp only [hpid, if_false]
        refine ⟨a1, a2, a3, a4, a5, a6, trivial, ?_⟩
        intro j
        rw [a8 j]
        by_cases hjk : j = k
        · subst hjk; simp [hp, setpriority_slot, hpid]
        · by_cases hlt : j < k
          · have : j < k + 1 := by omega
            simp [hlt, this]
          · have : ¬ j < k + 1 := by omega
            simp [hlt, this]

/-- `setpriority` updates every slot that holds the pid and returns the
`pstatic` of the last of them, or `-1` when there is none. -/
theorem setpriority_table (s : State) (pid priority : Int) :
    (setpriority s pid priority).1.proc = s.proc.map (setpriority_slot pid priority) ∧
    (setpriority s pid priority).2 = setpriority_ret pid s.proc ∧
    (setpriority s pid priority).1.queue = s.queue ∧
    (setpriority s pid priority).1.queue_tail = s.queue_tail ∧
    (setpriority s pid priority).1.nextpid = s.nextpid := by
  obtain ⟨a1, a2, a3, _, _, _, a7, a8⟩ := setpriority_fold s pid priority s.proc.length
  unfold setpriority
  refine ⟨?_, by rw [a7, List.take_length], a1, a2, a3⟩
  apply List.ext_getElem?
  intro j
  rw [a8 j, List.getElem?_map]
  split
  · rfl
  · rename_i hj
    rw [List.getElem?_eq_none (by omega)]
    rfl

theorem setpriority_ret_none (pid : Int) (tbl : List Proc) (h : ∀ p ∈ tbl, p.pid ≠ pid)
    (r : Int) : tbl.foldl (fun r p => if p.pid = pid then p.pstatic else r) r = r := by
  induction tbl generalizing r with
  | nil => rfl
  | cons a t ih =>
    simp only [List.foldl_cons, if_neg (h a (List.mem_cons_self _ _))]
    exact ih (fun p hp => h p (List.mem_cons_of_mem _ hp)) r

theorem setpriority_ret_unique (pid : Int) (tbl : List Proc) (i : Nat) (p : Proc)
    (hi : tbl[i]? = some p) (hp : p.pid = pid)
    (hu : ∀ (j : Nat) (q : Proc), tbl[j]? = some q → q.pid = pid → j = i) (r : Int) :
    tbl.foldl (fun r p => if p.pid = pid then p.pstatic else r) r = p.pstatic := by
  induction tbl generalizing i r with
  | nil => simp at hi
  | cons a t ih =>
    simp only [List.foldl_cons]
    cases i with
    | zero =>
      have e : a = p := by simpa using hi
      subst e
      rw [if_pos hp]
      apply setpriority_ret_none
      intro q hq hqp
      obtain ⟨j, hj⟩ := List.mem_iff_getElem?.1 hq
      have := hu (j + 1) q (by simpa using hj) hqp
      omega
    | succ i =>
      have ha : a.pid ≠ pid := by
        intro hap
        have := hu 0 a (by simp) hap
        omega
      rw [if_neg ha]
      refine ih i (by simpa using hi) ?_ r
      intro j q hj hq
      have := hu (j + 1) q (by simpa using hj) hq
      omega

/-- The contract of `setpriority` for a pid that exactly one slot holds, and
for a pid that no slot holds. -/
theorem setpriority_spec (s : State) (pid priority : Int) :
    (∀ (i : Nat) (p : Proc), s.proc[i]? = some p → p.pid = pid →
      (∀ (j : Nat) (q : Proc), s.proc[j]? = some q → q.pid = pid → j = i) →
      (setpriority s pid priority).2 = p.pstatic ∧
      (setpriority s pid priority).1.proc[i]? =
        some { p with pstatic := priority, is_new := 1, stime_prev := 0, rtime_prev := 0 } ∧
      ∀ j : Nat, j ≠ i → (setpriority s pid priority).1.proc[j]? = s.proc[j]?) ∧
    ((∀ p ∈ s.proc, p.pid ≠ pid) →
      (setpriority s pid priority).2 = -1 ∧ (setpriority s pid priority).1.proc = s.proc) := by
  obtain ⟨h1, h2, _⟩ := setpriority_table s pid priority
  constructor
  · intro i p hi hp hu
    refine ⟨?_, ?_, ?_⟩
    · rw [h2]
      exact setpriority_ret_unique pid s.proc i p hi hp hu (-1)
    · rw [h1, List.getElem?_map, hi]
      simp [setpriority_slot, hp]
    · intro j hj
      rw [h1, List.getElem?_map]
      cases hq : s.proc[j]? with
      | none => rfl
      | some q =>
        have : q.pid ≠ pid := fun hqp => hj (hu j q hq hqp)
        simp [setpriority_slot, this]
  · intro hno
    refine ⟨?_, ?_⟩
    · rw [h2]
      exact setpriority_ret_none pid s.proc hno (-1)
    · rw [h1]
      conv_rhs => rw [← List.map_id s.proc]
      apply List.map_congr_left
      intro p hp
      simp [setpriority_slot, hno p hp]

theorem first_idx_eq_none (f : Proc → Bool) (l : List Proc) (h : ∀ p ∈ l, f p = false) :
    first_idx f l = none := by
  induction l with
  | nil => rfl
  | cons a t ih =>
    have ha : ¬ (f a = true) := by simp [h a (List.mem_cons_self _ _)]
    simp only [first_idx, if_neg ha, ih (fun p hp => h p (List.mem_cons_of_mem _ hp))]
    rfl

/-- The contract of `kill`: when no slot holds the pid it returns `-1` and
changes nothing; otherwise it returns 0 and, at the first slot that holds the
pid, sets `killed` and wakes the slot if it sleeps. -/
theorem kill_spec (pol : Policy) (s : State) (pid : Int) :
    ((∀ p ∈ s.proc, p.pid ≠ pid) → kill pol s pid = (s, -1)) ∧
    (∀ (i : Nat) (p : Proc), s.proc[i]? = some p → p.pid = pid →
      (∀ (j : Nat) (q : Proc), j < i → s.proc[j]? = some q → q.pid ≠ pid) →
      (kill pol s pid).2 = 0 ∧
      (p.state ≠ procstate.SLEEPING →
        (kill pol s pid).1 = s.setProc i { p with killed := 1 }) ∧
      (p.state = procstate.SLEEPING →
        (kill pol s pid).1 =
          make_runnable pol (s.setProc i { p with killed := 1 }) i { p with killed := 1 })) := by
  constructor
  · intro hno
    have : first_idx (fun p => decide (p.pid = pid)) s.proc = none :=
      first_idx_eq_none _ _ (fun p hp => by simp [hno p hp])
    simp only [kill, this]
  · intro i p hi hp hfirst
    have hf : first_idx (fun p => decide (p.pid = pid)) s.proc = some i := by
      cases hc : first_idx (fun p => decide (p.pid = pid)) s.proc with
      | none =>
        have := first_idx_none _ _ hc i p hi
        simp [hp] at this
      | some k =>
        obtain ⟨q, hq, hfq, hall⟩ := first_idx_some _ _ _ hc
        have hqp : q.pid = pid := by simpa using hfq
        rcases Nat.lt_trichotomy k i with hlt | heq | hgt
        · exact absurd hqp (hfirst k q hlt hq)
        · rw [heq]
        · have := hall i p hgt hi
          simp [hp] at this
    simp only [kill, hf, hi]
    by_cases hs : p.state = procstate.SLEEPING
    · simp [hs]
    · simp [hs]

/-- C16. `kill(0)` finds a slot although no process has pid 0: in the
reachable state where `init` runs and the slots 1 and 2 are `UNUSED`,
`kill(0)` returns 0 and sets `killed = 1` in the `UNUSED` slot 1, where the
contract is to return `-1` and to change no slot.  For a pid that a process
holds, `kill(1)` returns 0 and sets `killed` in slot 0 only; for a pid that no
slot holds, `kill(5)` returns `-1` and leaves the table as it was. -/
theorem kill_zero_returns_success :
    Reachable Policy.MLFQ 3 exInitRun ∧
    (exInitRun.proc.map (fun p => (p.state, p.pid, p.killed))) =
      [(procstate.RUNNING, 1, 0), (procstate.UNUSED, 0, 0), (procstate.UNUSED, 0, 0)] ∧
    (kill Policy.MLFQ exInitRun 0).2 = 0 ∧
    ((kill Policy.MLFQ exInitRun 0).1.proc.map (fun p => (p.state, p.pid, p.killed))) =
      [(procstate.RUNNING, 1, 0), (procstate.UNUSED, 0, 1), (procstate.UNUSED, 0, 0)] ∧
    (kill Policy.MLFQ exInitRun 1).2 = 0 ∧
    ((kill Policy.MLFQ exInitRun 1).1.proc.map (fun p => (p.state, p.pid, p.killed))) =
      [(procstate.RUNNING, 1, 1), (procstate.UNUSED, 0, 0), (procstate.UNUSED, 0, 0)] ∧
    (kill Policy.MLFQ exInitRun 5).2 = -1 ∧
    (kill Policy.MLFQ exInitRun 5).1.proc = exInitRun.proc := by
  refine ⟨Reach_run _ _ Reach.boot (fun _ _ => trivial) rfl, ?_, ?_, ?_, ?_, ?_, ?_, ?_⟩
    <;> decide

/-- C15. `setpriority(0, 7)` finds slots although no process has pid 0: in
the reachable state where `init` runs and the slots 1 and 2 are `UNUSED`, the
call through `sys_setpriority` returns 0, the previous `pstatic` of the last
`UNUSED` slot, and stores `pstatic = 7`, `is_new = 1` in both `UNUSED` slots,
where the contract is to return `-1` and to change no slot.  For the pid of
`init` the call returns the previous `pstatic` 60 and updates slot 0 only; for
a pid that no slot holds it returns `-1` and leaves the table as it was. -/
theorem setpriority_zero_matches_unused :
    Reachable Policy.PBS 3 exPbsInit ∧
    (exPbsInit.proc.map (fun p => (p.state, p.pid, p.pstatic, p.is_new))) =
      [(procstate.RUNNING, 1, 60, 0), (procstate.UNUSED, 0, 0, 0),
       (procstate.UNUSED, 0, 0, 0)] ∧
    (sys_setpriority Policy.PBS exPbsInit 0 7 0).2 = 0 ∧
    (setpriority exPbsInit 0 7).2 = 0 ∧
    ((setpriority exPbsInit 0 7).1.proc.map (fun p => (p.state, p.pid, p.pstatic, p.is_new))) =
      [(procstate.RUNNING, 1, 60, 0), (procstate.UNUSED, 0, 7, 1),
       (procstate.UNUSED, 0, 7, 1)] ∧
    (setpriority exPbsInit 1 7).2 = 60 ∧
    ((setpriority exPbsInit 1 7).1.proc.map
        (fun p => (p.state, p.pid, p.pstatic, p.is_new, p.rtime_prev, p.stime_prev))) =
      [(procstate.RUNNING, 1, 7, 1, 0, 0), (procstate.UNUSED, 0, 0, 0, 0, 0),
       (procstate.UNUSED, 0, 0, 0, 0, 0)] ∧
    (setpriority exPbsInit 5 7).2 = -1 ∧
    (setpriority exPbsInit 5 7).1.proc = exPbsInit.proc := by
  refine ⟨Reach_run _ _ Reach.boot (fun _ _ => trivial) rfl, ?_, ?_, ?_, ?_, ?_, ?_, ?_, ?_⟩
    <;> decide

/-! ## Claims C17 and C18: wakeup and yield -/

theorem make_runnable_spec (pol : Policy) (s : State) (i : Nat) (p : Proc) :
    (make_runnable pol s i p).proc = s.proc.set i (wake_slot pol p) ∧
    (pol ≠ Policy.MLFQ → (make_runnable pol s i p).queue = s.queue ∧
      (make_runnable pol s i p).queue_tail = s.queue_tail) ∧
    (pol = Policy.MLFQ → ∀ l : Int,
      (make_runnable pol s i p).queue_tail l =
        (if l = p.cur_queue ∧ 0 ≤ p.pid then s.queue_tail l + 1 else s.queue_tail l) ∧
      (l ≠ p.cur_queue → qcontent (make_runnable pol s i p) l = qcontent s l) ∧
      (l = p.cur_queue → 0 ≤ p.pid → -1 ≤ s.queue_tail l →
        qcontent (make_runnable pol s i p) l = qcontent s l ++ [p.pid])) := by
  unfold make_runnable wake_slot
  by_cases hm : pol = Policy.MLFQ
  · simp only [hm, if_true]
    refine ⟨?_, fun h => absurd rfl h, ?_⟩
    · simp [push_to_proc, List.set_set]
    · intro _ l
      refine ⟨?_, ?_, ?_⟩
      · simp only [setProc_queue_tail, push_to_tail]
        by_cases hl : l = p.cur_queue
        · subst hl; rfl
        · have h1 : ¬ (l = p.cur_queue ∧ 0 ≤ p.pid) := fun h => hl h.1
          rw [if_neg h1, if_neg h1]
      · intro hl
        rw [qcontent_setProc, qcontent_push_to_other _ _ _ _ hl, qcontent_setProc]
      · intro hl hpid ht
        subst hl
        rw [qcontent_setProc, qcontent_push_to _ _ _ hpid (by simpa using ht), qcontent_setProc]
  · simp only [hm, if_false]
    exact ⟨rfl, fun _ => ⟨rfl, rfl⟩, fun h => h.elim⟩

/-- C18. Under MLFQ, when a `RUNNING` process in slot `caller` of a reachable
state yields, its slot becomes `RUNNABLE` with `cur_queue` unchanged and
`mlfq_priority = cur_queue`, no other slot changes, its pid is appended at the
tail of `queue[cur_queue]` behind the pids already there (whose head stays the
head), and the other queues keep their content. -/
theorem yield_requeues_at_tail (nproc : Nat) (s : State) (caller : Nat) (p : Proc)
    (h : Reachable Policy.MLFQ nproc s) (hp : s.proc[caller]? = some p)
    (hs : p.state = procstate.RUNNING) :
    (yield Policy.MLFQ s caller).proc[caller]? =
      some { p with state := procstate.RUNNABLE, mlfq_priority := p.cur_queue } ∧
    (∀ j : Nat, j ≠ caller → (yield Policy.MLFQ s caller).proc[j]? = s.proc[j]?) ∧
    qcontent (yield Policy.MLFQ s caller) p.cur_queue = qcontent s p.cur_queue ++ [p.pid] ∧
    (∀ l : Int, l ≠ p.cur_queue → qcontent (yield Policy.MLFQ s caller) l = qcontent s l) ∧
    (∀ x : Int, (qcontent s p.cur_queue).head? = some x →
      (qcontent (yield Policy.MLFQ s caller) p.cur_queue).head? = some x) := by
  have hI := Inv_of_Reach h
  have hpid : 0 ≤ p.pid := (hI.1.pid_range caller p hp).2.1
  have hQ := hI.2 rfl
  have hcq : p.cur_queue = 0 := hQ.curq caller p hp
  have ht : -1 ≤ s.queue_tail p.cur_queue := by rw [hcq]; exact hQ.tail0
  have hq : qcontent (yield Policy.MLFQ s caller) p.cur_queue
      = qcontent s p.cur_queue ++ [p.pid] := by
    simp only [yield, hp, if_true]
    rw [qcontent_setProc, qcontent_push_to _ _ _ hpid (by simpa using ht), qcontent_setProc]
  refine ⟨?_, ?_, hq, ?_, ?_⟩
  · simp only [yield, hp, if_true, setProc_proc, push_to_proc, List.set_set]
    exact getElem?_set_self_of_some hp
  · intro j hj
    simp only [yield, hp, if_true, setProc_proc, push_to_proc, List.set_set]
    exact List.getElem?_set_ne (Ne.symm hj)
  · intro l hl
    simp only [yield, hp, if_true]
    rw [qcontent_setProc, qcontent_push_to_other _ _ _ _ hl, qcontent_setProc]
  · intro x hx
    rw [hq]
    cases hc : qcontent s p.cur_queue with
    | nil => rw [hc] at hx; cases hx
    | cons a t => rw [hc] at hx; simpa using hx

theorem yield_requeues_at_tail_witness :
    (exForked.proc.map (fun p => (p.state, p.pid))) =
      [(procstate.RUNNING, 1), (procstate.RUNNABLE, 2), (procstate.UNUSED, 0)] ∧
    qcontent exForked 0 = [2] ∧
    qcontent (yield Policy.MLFQ exForked 0) 0 = qcontent exForked 0 ++ [1] ∧
    (qcontent (yield Policy.MLFQ exForked 0) 0).head? = some 2 :=
  ⟨by decide, by decide,
    (yield_requeues_at_tail 3 exForked 0 _ exForked_reachable rfl rfl).2.2.1,
    (yield_requeues_at_tail 3 exForked 0 _ exForked_reachable rfl rfl).2.2.2.2 2 (by decide)⟩

theorem woken_pids_succ (caller : Option Nat) (chan : Chan) (l : Int) (tbl : List Proc)
    (k : Nat) :
    woken_pids caller chan l tbl (k + 1) = woken_pids caller chan l tbl k ++
      (match tbl[k]? with
        | some p => if woken caller chan k p = true ∧ p.cur_queue = l then [p.pid] else []
        | none => []) := by
  unfold woken_pids
  rw [List.range_succ, List.filterMap_append]
  congr 1
  cases hp : tbl[k]? with
  | none => simp [hp]
  | some p =>
    simp only [List.filterMap_cons, List.filterMap_nil, hp]
    split_ifs <;> rfl

theorem wakeup_fold (pol : Policy) (s : State) (caller : Option Nat) (chan : Chan)
    (hpid : ∀ (j : Nat) (p : Proc), s.proc[j]? = some p → 0 ≤ p.pid) (k : Nat) :
    (∀ j : Nat, ((List.range k).foldl (wakeup_body pol caller chan) s).proc[j]? =
      if j < k then (s.proc[j]?).map
        (fun p => if woken caller chan j p = true then wake_slot pol p else p)
      else s.proc[j]?) ∧
    (pol ≠ Policy.MLFQ →
      ((List.range k).foldl (wakeup_body pol caller chan) s).queue = s.queue ∧
      ((List.range k).foldl (wakeup_body pol caller chan) s).queue_tail = s.queue_tail) ∧
    (pol = Policy.MLFQ → ∀ l : Int, -1 ≤ s.queue_tail l →
      -1 ≤ ((List.range k).foldl (wakeup_body pol caller chan) s).queue_tail l ∧
      qcontent ((List.range k).foldl (wakeup_body pol caller chan) s) l =
        qcontent s l ++ woken_pids caller chan l s.proc k) := by
  induction k with
  | zero =>
    refine ⟨fun j => by simp, fun _ => ⟨rfl, rfl⟩, fun _ l hl => ⟨hl, ?_⟩⟩
    simp [woken_pids]
  | succ k ih =>
    rw [List.range_succ, List.foldl_append]
    simp only [List.foldl_cons, List.foldl_nil]
    obtain ⟨a1, a2, a3⟩ := ih
    generalize (List.range k).foldl (wakeup_body pol caller chan) s = t at *
    have hk : t.proc[k]? = s.proc[k]? := by rw [a1 k]; simp
    have hrest : ∀ (u : State), (∀ j : Nat, j ≠ k → u.proc[j]? = t.proc[j]?) →
        (u.proc[k]? = (s.proc[k]?).map
          (fun p => if woken caller chan k p = true then wake_slot pol p else p)) →
        ∀ j : Nat, u.proc[j]? = if j < k + 1 then (s.proc[j]?).map
          (fun p => if woken caller chan j p = true then wake_slot pol p else p)
          else s.proc[j]? := by
      intro u hu1 hu2 j
      by_cases hjk : j = k
      · subst hjk
        rw [hu2]; simp
      · rw [hu1 j hjk, a1 j]
        by_cases hlt : j < k
        · have : j < k + 1 := by omega
          simp [hlt, this]
        · have : ¬ j < k + 1 := by omega
          simp [hlt, this]
    have hsame : ∀ (hw : ∀ p, s.proc[k]? = some p → woken caller chan k p = false),
        (∀ j : Nat, t.proc[j]? = if j < k + 1 then (s.proc[j]?).map
          (fun p => if woken caller chan j p = true then wake_slot pol p else p)
          else s.proc[j]?) ∧
        (pol ≠ Policy.MLFQ → t.queue = s.queue ∧ t.queue_tail = s.queue_tail) ∧
        (pol = Policy.MLFQ → ∀ l : Int, -1 ≤ s.queue_tail l →
          -1 ≤ t.queue_tail l ∧
          qcontent t l = qcontent s l ++ woken_pids caller chan l s.proc (k + 1)) := by
      intro hw
      refine ⟨hrest t (fun _ _ => rfl) ?_, a2, ?_⟩
      · rw [hk]
        cases hp : s.proc[k]? with
        | none => rfl
        | some p => simp [hw p hp]
      · intro hm l hl
        refine ⟨(a3 hm l hl).1, ?_⟩
        rw [(a3 hm l hl).2, woken_pids_succ]
        cases hp : s.proc[k]? with
        | none => simp
        | some p => simp [hw p hp]
    unfold wakeup_body
    by_cases hc : some k = caller
    · rw [if_pos hc]
      exact hsame (fun p _ => by simp [woken, hc])
    · rw [if_neg hc, hk]
      cases hp : s.proc[k]? with
      | none => exact hsame (fun p h => by rw [hp] at h; cases h)
      | some p =>
        simp only []
        by_cases hsl : p.state = procstate.SLEEPING ∧ p.chan = chan
        · rw [if_pos hsl]
          have hwk : woken caller chan k p = true := by simp [woken, hc, hsl.1, hsl.2]
          obtain ⟨m1, m2, m3⟩ := make_runnable_spec pol t k p
          have hkt : t.proc[k]? = some p := by rw [hk, hp]
          refine ⟨hrest _ ?_ ?_, ?_, ?_⟩
          · intro j hj
            rw [m1]
            exact List.getElem?_set_ne (Ne.symm hj)
          · rw [m1, getElem?_set_self_of_some hkt, hp]
            simp [hwk]
          · intro hm
            exact ⟨by rw [(m2 hm).1, (a2 hm).1], by rw [(m2 hm).2, (a2 hm).2]⟩
          · intro hm l hl
            obtain ⟨b1, b2⟩ := a3 hm l hl
            obtain ⟨c1, c2, c3⟩ := m3 hm l
            have hpp : 0 ≤ p.pid := hpid k p hp
            rw [woken_pids_succ, hp]
            by_cases hlq : l = p.cur_queue
            · refine ⟨by rw [c1, if_pos ⟨hlq, hpp⟩]; omega, ?_⟩
              rw [c3 hlq hpp b1, b2]
              simp [hwk, hlq]
            · refine ⟨by rw [c1, if_neg (fun h => hlq h.1)]; exact b1, ?_⟩
              rw [c2 hlq, b2]
              have : ¬ (p.cur_queue = l) := fun h => hlq h.symm
              simp [this]
        · rw [if_neg hsl]
          refine hsame (fun q hq => ?_)
          rw [hp] at hq
          cases hq
          simp only [woken, decide_eq_false_iff_not]
          exact fun h => hsl h.2

/-- C17. After `wakeup(chan)`, every slot other than the caller that was
`SLEEPING` on `chan` is `RUNNABLE` (under MLFQ with `mlfq_priority =
cur_queue`, its level unchanged), every other slot is exactly as before, and
under MLFQ every queue holds its former content followed by the pids of the
slots woken at its level, in table order; under the other policies the
queues do not change. -/
theorem wakeup_wakes_sleepers (pol : Policy) (s : State) (caller : Option Nat) (chan : Chan)
    (hpid : ∀ (j : Nat) (p : Proc), s.proc[j]? = some p → 0 ≤ p.pid) :
    (∀ (j : Nat) (p : Proc), s.proc[j]? = some p → some j ≠ caller →
      p.state = procstate.SLEEPING → p.chan = chan →
      ∃ q : Proc, (wakeup pol s caller chan).proc[j]? = some q ∧
        q.state = procstate.RUNNABLE ∧ q = wake_slot pol p ∧ q.cur_queue = p.cur_queue ∧
        (pol = Policy.MLFQ → q.mlfq_priority = q.cur_queue) ∧
        p.pid ∈ woken_pids caller chan p.cur_queue s.proc s.proc.length) ∧
    (∀ (j : Nat) (p : Proc), s.proc[j]? = some p →
      (some j = caller ∨ p.state ≠ procstate.SLEEPING ∨ p.chan ≠ chan) →
      (wakeup pol s caller chan).proc[j]? = some p) ∧
    (pol = Policy.MLFQ → ∀ l : Int, -1 ≤ s.queue_tail l →
      qcontent (wakeup pol s caller chan) l =
        qcontent s l ++ woken_pids caller chan l s.proc s.proc.length) ∧
    (pol ≠ Policy.MLFQ → (wakeup pol s caller chan).queue = s.queue ∧
      (wakeup pol s caller chan).queue_tail = s.queue_tail) := by
  obtain ⟨a1, a2, a3⟩ := wakeup_fold pol s caller chan hpid s.proc.length
  unfold wakeup
  refine ⟨?_, ?_, fun hm l hl => (a3 hm l hl).2, a2⟩
  · intro j p hj hc hs hch
    have hlt : j < s.proc.length := (List.getElem?_eq_some_iff.1 hj).1
    have hw : woken caller chan j p = true := by simp [woken, hc, hs, hch]
    refine ⟨wake_slot pol p, ?_, ?_, rfl, ?_, ?_, ?_⟩
    · rw [a1 j, if_pos hlt, hj]
      simp [hw]
    · unfold wake_slot; split <;> rfl
    · unfold wake_slot; split <;> rfl
    · intro hm
      simp [wake_slot, hm]
    · unfold woken_pids
      rw [List.mem_filterMap]
      exact ⟨j, List.mem_range.2 hlt, by simp [hj, hw]⟩
  · intro j p hj hn
    have hlt : j < s.proc.length := (List.getElem?_eq_some_iff.1 hj).1
    have hw : woken caller chan j p = false := by
      simp only [woken, decide_eq_false_iff_not]
      rintro ⟨h1, h2, h3⟩
      rcases hn with h | h | h
      · exact h1 h
      · exact h h2
      · exact h h3
    rw [a1 j, if_pos hlt, hj]
    simp [hw]

theorem exSleepers_reachable : Reachable Policy.MLFQ 3 exSleepers :=
  Reach_run _ _ Reach.boot (fun _ _ => trivial) rfl

theorem exSleepers_pids (j : Nat) (p : Proc) (h : exSleepers.proc[j]? = some p) : 0 ≤ p.pid :=
  ((Inv_of_Reach exSleepers_reachable).1.pid_range j p h).2.1

theorem wakeup_wakes_sleepers_witness :
    (exSleepers.proc.map (fun p => (p.state, p.pid, p.chan))) =
      [(procstate.SLEEPING, 1, Chan.slot 0), (procstate.SLEEPING, 2, Chan.addr 7),
       (procstate.UNUSED, 0, Chan.null)] ∧
    qcontent exSleepers 0 = [] ∧
    ((wakeup Policy.MLFQ exSleepers none (Chan.addr 7)).proc.map
        (fun p => (p.state, p.pid, p.mlfq_priority))) =
      [(procstate.SLEEPING, 1, -1), (procstate.RUNNABLE, 2, 0), (procstate.UNUSED, 0, 0)] ∧
    (wakeup Policy.MLFQ exSleepers none (Chan.addr 7)).proc[0]? = exSleepers.proc[0]? ∧
    qcontent (wakeup Policy.MLFQ exSleepers none (Chan.addr 7)) 0 =
      qcontent exSleepers 0 ++ woken_pids none (Chan.addr 7) 0 exSleepers.proc 3 ∧
    qcontent (wakeup Policy.MLFQ exSleepers none (Chan.addr 7)) 0 = [2] :=
  ⟨by decide, by decide, by decide,
    (wakeup_wakes_sleepers Policy.MLFQ exSleepers none (Chan.addr 7) exSleepers_pids).2.1 0 _
      rfl (Or.inr (Or.inr (by decide))),
    (wakeup_wakes_sleepers Policy.MLFQ exSleepers none (Chan.addr 7) exSleepers_pids).2.2.1 rfl 0
      (by decide), by decide⟩

/-! ## Claim C13: fork, exit and wait -/

theorem wakeup_keeps_caller (pol : Policy) (s : State) (c : Nat) (chan : Chan) :
    (wakeup pol s (some c) chan).proc[c]? = s.proc[c]? ∧
    (wakeup pol s (some c) chan).ticks = s.ticks ∧
    (wakeup pol s (some c) chan).initproc = s.initproc := by
  unfold wakeup
  refine foldl_inv
    (fun t : State => t.proc[c]? = s.proc[c]? ∧ t.ticks = s.ticks ∧ t.initproc = s.initproc)
    _ _ s ?_ ⟨rfl, rfl, rfl⟩
  intro t i ⟨h1, h2, h3⟩
  unfold wakeup_body
  split
  · exact ⟨h1, h2, h3⟩
  · rename_i hi
    cases hp : t.proc[i]? with
    | none => exact ⟨h1, h2, h3⟩
    | some p =>
      simp only []
      split
      · have hne : c ≠ i := fun h => hi (by rw [h])
        refine ⟨by rw [make_runnable_get_ne pol t i c p hne, h1], ?_, ?_⟩
        · rw [← h2]; unfold make_runnable; split <;> simp
        · rw [← h3]; unfold make_runnable; split <;> simp
      · exact ⟨h1, h2, h3⟩

theorem reparent_keeps_caller (pol : Policy) (s : State) (c : Nat) (C : Proc)
    (hC : s.proc[c]? = some C) (hpar : C.parent ≠ some c) :
    (reparent pol s c).proc[c]? = some C ∧ (reparent pol s c).ticks = s.ticks := by
  unfold reparent
  refine foldl_inv (fun t : State => t.proc[c]? = some C ∧ t.ticks = s.ticks) _ _ s ?_ ⟨hC, rfl⟩
  intro t i ⟨h1, h2⟩
  unfold reparent_body
  cases hp : t.proc[i]? with
  | none => exact ⟨h1, h2⟩
  | some pp =>
    simp only []
    split
    · rename_i hpp
      have hne : c ≠ i := by
        intro h
        subst h
        rw [h1] at hp
        cases hp
        exact hpar hpp
      obtain ⟨w1, w2, _⟩ := wakeup_keeps_caller pol
        (t.setProc i { pp with parent := t.initproc }) c (Chan.ofPtr t.initproc)
      refine ⟨?_, ?_⟩
      · rw [w1, setProc_proc, List.getElem?_set_ne (Ne.symm hne), h1]
      · rw [w2, setProc_ticks, h2]
    · exact ⟨h1, h2⟩

/-- `exit(status)` leaves the caller a `ZOMBIE` with `xstate = status` and
`etime = ticks`, its other fields as they were. -/
theorem exit_makes_zombie (pol : Policy) (s : State) (c : Nat) (C : Proc) (status : Int)
    (hC : s.proc[c]? = some C) (hpar : C.parent ≠ some c) :
    (exit pol s c status).proc[c]? =
      some { C with xstate := status, state := procstate.ZOMBIE, etime := s.ticks } := by
  obtain ⟨r1, r2⟩ := reparent_keeps_caller pol s c C hC hpar
  obtain ⟨w1, w2, _⟩ := wakeup_keeps_caller pol (reparent pol s c) c (Chan.ofPtr C.parent)
  have hw : (wakeup pol (reparent pol s c) (some c) (Chan.ofPtr C.parent)).proc[c]? = some C := by
    rw [w1, r1]
  simp only [exit, r1, hw, setProc_proc, w2, r2]
  exact getElem?_set_self_of_some hw

/-- A successful `fork` returns the pid of the new slot, which is `RUNNABLE`
and has the caller as parent. -/
theorem fork_child (pol : Policy) (s : State) (a : Nat) (tf pt : Int)
    (h : (fork pol s a tf pt true).2 ≠ -1) :
    ∃ (b : Nat) (C : Proc), (fork pol s a tf pt true).1.proc[b]? = some C ∧
      C.pid = (fork pol s a tf pt true).2 ∧ C.pid = s.nextpid ∧ C.parent = some a ∧
      C.state = procstate.RUNNABLE ∧
      ∃ p0 : Proc, s.proc[b]? = some p0 ∧ p0.state = procstate.UNUSED := by
  cases hP : s.proc[a]? with
  | none => simp [fork, hP] at h
  | some P =>
    cases hr : (allocproc s tf pt).2 with
    | none => simp [fork, hP, hr] at h
    | some b =>
      obtain ⟨p0, hp0, hu, _, _, _, he⟩ := allocproc_success s tf pt b hr
      have hb : b < s.proc.length := (List.getElem?_eq_some_iff.1 hp0).1
      have hnp : (allocproc s tf pt).1.proc[b]? = some
          { p0 with
            pid := s.nextpid
            state := procstate.USED
            ctime := s.ticks
            rtime := 0
            etime := 0
            twtime := 0
            stime_prev := 0
            rtime_prev := 0
            is_new := 1
            ns := 0
            pstatic := 60
            trapframe := tf
            qcount := [0, 0, 0, 0, 0]
            pagetable := pt } := by
        rw [he]
        exact List.getElem?_set_self hb
      refine ⟨b, ?_⟩
      simp only [fork, hP, hr, hnp]
      by_cases hm : pol = Policy.MLFQ
      · simp only [hm, if_true, Bool.true_eq_false, if_false, push_to_proc, setProc_proc]
        exact ⟨_, getElem?_set_self_of_some hnp, rfl, rfl, rfl, rfl, p0, hp0, hu⟩
      · simp only [hm, if_false, Bool.true_eq_false, setProc_proc]
        exact ⟨_, getElem?_set_self_of_some hnp, rfl, rfl, rfl, rfl, p0, hp0, hu⟩

theorem first_idx_eq_some (f : Proc → Bool) (l : List Proc) (i : Nat) (p : Proc)
    (hi : l[i]? = some p) (hp : f p = true)
    (hfirst : ∀ (j : Nat) (q : Proc), j < i → l[j]? = some q → f q = false) :
    first_idx f l = some i := by
  cases hc : first_idx f l with
  | none =>
    have := first_idx_none _ _ hc i p hi
    rw [hp] at this
    cases this
  | some k =>
    obtain ⟨q, hq, hfq, hall⟩ := first_idx_some _ _ _ hc
    rcases Nat.lt_trichotomy k i with hlt | heq | hgt
    · have := hfirst k q hlt hq
      rw [hfq] at this
      cases this
    · rw [heq]
    · have := hall i p hgt hi
      rw [hp] at this
      cases this

/-- C13 (counterexample). `init` forks a child (pid 2) that exits with status
7, then forks successfully and obtains child pid 3; that child exits with
status 42; `init` then calls `wait` with a valid address: `wait` returns 2,
copies out the status 7 and frees slot 1, and the child with pid 3 stays a
`ZOMBIE`. -/
theorem wait_reaps_first_zombie :
    Reachable Policy.MLFQ 3 exTwoKids ∧
    (fork Policy.MLFQ (run Policy.MLFQ (boot Policy.MLFQ 3) (two_kids_ops.take 5)) 0 1 1 true).2
      = 3 ∧
    (exTwoKids.proc.map (fun p => (p.state, p.pid, p.parent, p.xstate))) =
      [(procstate.RUNNING, 1, none, 0), (procstate.ZOMBIE, 2, some 0, 7),
       (procstate.ZOMBIE, 3, some 0, 42)] ∧
    (wait exTwoKids 0 100 true).2 = some 2 ∧
    wait_copyout exTwoKids 0 100 = some 7 ∧
    ((wait exTwoKids 0 100 true).1.proc.map (fun p => (p.state, p.pid))) =
      [(procstate.RUNNING, 1), (procstate.UNUSED, 0), (procstate.ZOMBIE, 3)] := by
  refine ⟨Reach_run _ _ Reach.boot (fun _ _ => trivial) rfl, ?_, ?_, ?_, ?_, ?_⟩ <;> decide

/-- C13 (amended). A successful `fork` by the process in slot `a` returns the
pid of a new `RUNNABLE` slot whose parent is `a`; `exit(status)` leaves the
exiting slot a `ZOMBIE` with `xstate = status` and its pid and parent as they
were; and when the `RUNNING` process in slot `a` calls `wait` with a valid
address while its child in slot `b` is a `ZOMBIE` and no lower-indexed slot
holds a `ZOMBIE` child of `a`, `wait` returns the pid of that child, copies
out its `xstate`, leaves slot `b` `UNUSED` with pid 0 and changes no other
slot.  When the caller has no children, or has been killed and no child is a
`ZOMBIE`, `wait` returns `-1` and changes nothing. -/
theorem wait_reaps_exited_child (pol : Policy) :
    (∀ (s : State) (a : Nat) (tf pt : Int), (fork pol s a tf pt true).2 ≠ -1 →
      ∃ (b : Nat) (C : Proc), (fork pol s a tf pt true).1.proc[b]? = some C ∧
        C.pid = (fork pol s a tf pt true).2 ∧ C.parent = some a ∧
        C.state = procstate.RUNNABLE) ∧
    (∀ (t : State) (b : Nat) (C : Proc) (status : Int), t.proc[b]? = some C →
      C.parent ≠ some b →
      (exit pol t b status).proc[b]? =
        some { C with xstate := status, state := procstate.ZOMBIE, etime := t.ticks }) ∧
    (∀ (u : State) (a b : Nat) (P Z : Proc) (addr : Int), u.proc[a]? = some P →
      P.state = procstate.RUNNING → u.proc[b]? = some Z → Z.parent = some a →
      Z.state = procstate.ZOMBIE →
      (∀ (j : Nat) (q : Proc), j < b → u.proc[j]? = some q →
        ¬ (q.parent = some a ∧ q.state = procstate.ZOMBIE)) →
      addr ≠ 0 →
      (wait u a addr true).2 = some Z.pid ∧ wait_copyout u a addr = some Z.xstate ∧
      (∃ q : Proc, (wait u a addr true).1.proc[b]? = some q ∧ q.state = procstate.UNUSED ∧
        q.pid = 0) ∧
      (wait u a addr true).1.proc[a]? = some P ∧
      (∀ j : Nat, j ≠ b → (wait u a addr true).1.proc[j]? = u.proc[j]?)) ∧
    (∀ (u : State) (a : Nat) (P : Proc) (addr : Int) (copyok : Bool), u.proc[a]? = some P →
      (havekids u.proc a = false ∨
        (P.killed ≠ 0 ∧ ∀ q ∈ u.proc, ¬ (q.parent = some a ∧ q.state = procstate.ZOMBIE))) →
      wait u a addr copyok = (u, some (-1))) := by
  refine ⟨?_, ?_, ?_, ?_⟩
  · intro s a tf pt h
    obtain ⟨b, C, h1, h2, _, h4, h5, _⟩ := fork_child pol s a tf pt h
    exact ⟨b, C, h1, h2, h4, h5⟩
  · intro t b C status hC hpar
    exact exit_makes_zombie pol t b C status hC hpar
  · intro u a b P Z addr hP hPr hZ hpar hz hfirst haddr
    have hf : first_idx
        (fun np => decide (np.parent = some a ∧ np.state = procstate.ZOMBIE)) u.proc = some b :=
      first_idx_eq_some _ _ b Z hZ (by simp [hpar, hz])
        (fun j q hj hq => by simpa using hfirst j q hj hq)
    have hab : a ≠ b := by
      intro h
      subst h
      rw [hP] at hZ
      cases hZ
      rw [hPr] at hz
      cases hz
    have hc : ¬ (addr ≠ 0 ∧ true = false) := by simp
    refine ⟨?_, ?_, ?_, ?_, ?_⟩
    · simp only [wait, hP, hf, hZ, if_neg hc]
    · simp only [wait_copyout, hf, hZ, if_pos haddr]
    · simp only [wait, hP, hf, hZ, if_neg hc, setProc_proc]
      exact ⟨freeproc Z, getElem?_set_self_of_some hZ, rfl, rfl⟩
    · simp only [wait, hP, hf, hZ, if_neg hc, setProc_proc]
      rw [List.getElem?_set_ne (Ne.symm hab), hP]
    · intro j hj
      simp only [wait, hP, hf, hZ, if_neg hc, setProc_proc]
      exact List.getElem?_set_ne (Ne.symm hj)
  · intro u a P addr copyok hP hcase
    have hnone : first_idx
        (fun np => decide (np.parent = some a ∧ np.state = procstate.ZOMBIE)) u.proc = none := by
      apply first_idx_eq_none
      intro q hq
      rcases hcase with hk | ⟨_, hz⟩
      · have : ¬ (q.parent = some a) := by
          intro hqa
          have : havekids u.proc a = true := by
            unfold havekids
            rw [List.any_eq_true]
            exact ⟨q, hq, by simp [hqa]⟩
          rw [hk] at this
          cases this
        simp [this]
      · simpa using hz q hq
    have hcond : havekids u.proc a = false ∨ P.killed ≠ 0 := by
      rcases hcase with hk | ⟨hk, _⟩
      · exact Or.inl hk
      · exact Or.inr hk
    simp only [wait, hP, hnone, if_pos hcond]

theorem wait_reaps_exited_child_witness :
    (exOneKid.proc.map (fun p => (p.state, p.pid, p.parent, p.xstate))) =
      [(procstate.RUNNING, 1, none, 0), (procstate.ZOMBIE, 2, some 0, 42),
       (procstate.UNUSED, 0, none, 0)] ∧
    (wait exOneKid 0 100 true).2 = some 2 ∧ wait_copyout exOneKid 0 100 = some 42 ∧
    (∃ q : Proc, (wait exOneKid 0 100 true).1.proc[1]? = some q ∧
      q.state = procstate.UNUSED ∧ q.pid = 0) ∧
    (wait exOneKid 0 100 true).1.proc[0]? = exOneKid.proc[0]? :=
  ⟨by decide,
    ((wait_reaps_exited_child Policy.MLFQ).2.2.1 exOneKid 0 1 _ _ 100 rfl rfl rfl rfl rfl
      (fun j q hj hq => by
        have h0 : j = 0 := by omega
        subst h0
        have e : exOneKid.proc[0]? = some (exOneKid.proc.getD 0 Proc.zero) := rfl
        rw [e] at hq
        cases hq
        decide)
      (by decide)).1,
    ((wait_reaps_exited_child Policy.MLFQ).2.2.1 exOneKid 0 1 _ _ 100 rfl rfl rfl rfl rfl
      (fun j q hj hq => by
        have h0 : j = 0 := by omega
        subst h0
        have e : exOneKid.proc[0]? = some (exOneKid.proc.getD 0 Proc.zero) := rfl
        rw [e] at hq
        cases hq
        decide)
      (by decide)).2.1,
    by decide, rfl⟩

/-! ## Claim C14: the lifetime reported by `waitx` -/

theorem TF_refl (s : State) : TimeFrame s s :=
  ⟨rfl, rfl, fun j p q hp hq h => by rw [hp] at hq; cases hq; exact h⟩

theorem TF_trans {s t u : State} (h1 : TimeFrame s t) (h2 : TimeFrame t u) : TimeFrame s u := by
  refine ⟨h2.1.trans h1.1, h2.2.1.trans h1.2.1, ?_⟩
  intro j p r hp hr hok
  have hj : j < t.proc.length := by
    rw [h1.2.1]
    by_contra hc
    rw [List.getElem?_eq_none (by omega)] at hp
    cases hp
  have hq : t.proc[j]? = some (t.proc[j]) := List.getElem?_eq_getElem hj
  have := h2.2.2 j _ r hq hr (by rw [h1.1]; exact h1.2.2 j p _ hp hq hok)
  rwa [h1.1] at this

theorem TF_proc_eq {s t : State} (h : t.proc = s.proc) (ht : t.ticks = s.ticks) :
    TimeFrame s t :=
  ⟨ht, by rw [h], fun j p q hp hq hok => by rw [h, hp] at hq; cases hq; exact hok⟩

theorem TF_setProc {s : State} {i : Nat} {p : Proc} (q : Proc) (hi : s.proc[i]? = some p)
    (h : TimeOk s.ticks p → TimeOk s.ticks q) : TimeFrame s (s.setProc i q) := by
  refine ⟨rfl, by simp, ?_⟩
  intro j a b ha hb hok
  by_cases hj : j = i
  · subst hj
    rw [hi] at ha; cases ha
    rw [setProc_proc, getElem?_set_self_of_some hi] at hb
    cases hb
    exact h hok
  · rw [setProc_proc, List.getElem?_set_ne (Ne.symm hj), ha] at hb
    cases hb
    exact hok

theorem TF_foldl (f : State → Nat → State) (ls : List Nat) (s : State)
    (hf : ∀ (t : State) (i : Nat), TimeFrame t (f t i)) : TimeFrame s (ls.foldl f s) :=
  foldl_inv (fun t => TimeFrame s t) f ls s (fun t i ht => TF_trans ht (hf t i)) (TF_refl s)

theorem TF_of_set {s t : State} {i : Nat} {p : Proc} (q : Proc) (hi : s.proc[i]? = some p)
    (ht : t.proc = s.proc.set i q) (htk : t.ticks = s.ticks)
    (h : TimeOk s.ticks p → TimeOk s.ticks q) : TimeFrame s t :=
  TF_trans (TF_setProc q hi h) (TF_proc_eq (s := s.setProc i q) ht htk)

/-- a record with the same `ctime` and `rtime` that is not a new `ZOMBIE` -/
theorem TimeOk_keep {T : Int} {p q : Proc} (h1 : q.ctime = p.ctime) (h2 : q.rtime = p.rtime)
    (h3 : q.state = procstate.ZOMBIE → p.state = procstate.ZOMBIE ∧ q.etime = p.etime)
    (h : TimeOk T p) : TimeOk T q := by
  obtain ⟨a, b, c⟩ := h
  refine ⟨by rw [h2]; exact a, by rw [h1, h2]; exact b, ?_⟩
  intro hz
  obtain ⟨hz1, hz2⟩ := h3 hz
  rw [h1, h2, hz2]
  exact c hz1

theorem TF_keep {s : State} {i : Nat} {p : Proc} (q : Proc) (hi : s.proc[i]? = some p)
    (h1 : q.ctime = p.ctime) (h2 : q.rtime = p.rtime)
    (h3 : q.state = procstate.ZOMBIE → p.state = procstate.ZOMBIE ∧ q.etime = p.etime) :
    TimeFrame s (s.setProc i q) :=
  TF_setProc q hi (TimeOk_keep h1 h2 h3)

theorem push_to_ticks_eq (s : State) (q pid : Int) : (push_to s q pid).ticks = s.ticks := by
  unfold push_to; split <;> rfl

theorem TF_make_runnable (pol : Policy) (s : State) (i : Nat) (p : Proc)
    (hi : s.proc[i]? = some p) : TimeFrame s (make_runnable pol s i p) := by
  unfold make_runnable
  split
  · refine TF_of_set { p with state := procstate.RUNNABLE, mlfq_priority := p.cur_queue }
      hi ?_ ?_ (TimeOk_keep rfl rfl (fun h => by cases h))
    · simp [push_to_proc, List.set_set]
    · simp [push_to_ticks_eq]
  · refine TF_keep _ hi ?_ ?_ ?_
    · rfl
    · rfl
    · intro h; cases h

theorem TF_wakeup (pol : Policy) (s : State) (caller : Option Nat) (chan : Chan) :
    TimeFrame s (wakeup pol s caller chan) := by
  unfold wakeup
  apply TF_foldl
  intro t i
  unfold wakeup_body
  split
  · exact TF_refl t
  · cases hi : t.proc[i]? with
    | none => exact TF_refl t
    | some p =>
      simp only []
      split
      · exact TF_make_runnable pol t i p hi
      · exact TF_refl t

theorem TF_yield (pol : Policy) (s : State) (caller : Nat) :
    TimeFrame s (yield pol s caller) := by
  cases hi : s.proc[caller]? with
  | none => simp only [yield, hi]; exact TF_refl s
  | some p =>
    have : yield pol s caller = make_runnable pol s caller p := by
      simp only [yield, make_runnable, hi]
    rw [this]
    exact TF_make_runnable pol s caller p hi

theorem TF_kill (pol : Policy) (s : State) (pid : Int) : TimeFrame s (kill pol s pid).1 := by
  unfold kill
  cases hf : first_idx (fun p => decide (p.pid = pid)) s.proc with
  | none => exact TF_refl s
  | some i =>
    simp only []
    cases hp : s.proc[i]? with
    | none => exact TF_refl s
    | some p =>
      simp only []
      have h1 : TimeFrame s (s.setProc i { p with killed := 1 }) := by
        refine TF_keep _ hp ?_ ?_ ?_
        · rfl
        · rfl
        · intro h; exact ⟨h, rfl⟩
      split
      · exact TF_trans h1 (TF_make_runnable pol _ i _ (getElem?_set_self_of_some hp))
      · exact h1

theorem TF_sleep (s : State) (caller : Nat) (chan : Chan) :
    TimeFrame s (sleep s caller chan) := by
  unfold sleep
  cases hi : s.proc[caller]? with
  | none => exact TF_refl s
  | some p =>
    refine TF_keep _ hi ?_ ?_ ?_
    · rfl
    · rfl
    · intro h; cases h

theorem TF_sleep_return (s : State) (caller : Nat) : TimeFrame s (sleep_return s caller) := by
  unfold sleep_return
  cases hi : s.proc[caller]? with
  | none => exact TF_refl s
  | some p =>
    refine TF_keep _ hi ?_ ?_ ?_
    · rfl
    · rfl
    · intro h; exact ⟨h, rfl⟩

theorem TF_reparent (pol : Policy) (s : State) (caller : Nat) :
    TimeFrame s (reparent pol s caller) := by
  unfold reparent
  apply TF_foldl
  intro t i
  unfold reparent_body
  cases hi : t.proc[i]? with
  | none => exact TF_refl t
  | some pp =>
    simp only []
    split
    · refine TF_trans (TF_keep _ hi ?_ ?_ ?_) (TF_wakeup pol _ _ _)
      · rfl
      · rfl
      · intro h; exact ⟨h, rfl⟩
    · exact TF_refl t

theorem TF_exit (pol : Policy) (s : State) (caller : Nat) (status : Int) :
    TimeFrame s (exit pol s caller status) := by
  unfold exit
  simp only []
  cases hi : (reparent pol s caller).proc[caller]? with
  | none => exact TF_reparent pol s caller
  | some p =>
    simp only []
    have h12 : TimeFrame s (wakeup pol (reparent pol s caller) (some caller)
        (Chan.ofPtr p.parent)) := TF_trans (TF_reparent pol s caller) (TF_wakeup pol _ _ _)
    cases hi2 : (wakeup pol (reparent pol s caller) (some caller)
        (Chan.ofPtr p.parent)).proc[caller]? with
    | none => exact h12
    | some p2 =>
      simp only []
      refine TF_trans h12 (TF_setProc _ hi2 ?_)
      intro hok
      obtain ⟨a, b, _⟩ := hok
      exact ⟨a, b, fun _ => b⟩

theorem TF_freeproc (s : State) (i : Nat) (p : Proc) (hi : s.proc[i]? = some p) :
    TimeFrame s (s.setProc i (freeproc p)) := by
  refine TF_keep _ hi ?_ ?_ ?_
  · rfl
  · rfl
  · intro h; cases h

theorem TF_allocproc (s : State) (tf pt : Int) : TimeFrame s (allocproc s tf pt).1 := by
  unfold allocproc
  cases hf : first_idx (fun p => decide (p.state = procstate.UNUSED)) s.proc with
  | none => exact TF_refl s
  | some i =>
    simp only []
    cases hp : s.proc[i]? with
    | none => exact TF_refl s
    | some p0 =>
      simp only []
      have hp2 : (allocpid s).2.proc[i]? = some p0 := hp
      have hb : TimeFrame s (allocpid s).2 := TF_proc_eq rfl rfl
      have hT : (allocpid s).2.ticks = s.ticks := rfl
      split
      · refine TF_trans hb (TF_setProc _ hp2 (fun _ => ?_))
        rw [hT]
        exact ⟨le_refl _, by simp [freeproc], fun h => by cases h⟩
      · split
        · refine TF_trans hb (TF_setProc _ hp2 (fun _ => ?_))
          rw [hT]
          exact ⟨le_refl _, by simp [freeproc], fun h => by cases h⟩
        · refine TF_trans hb (TF_setProc _ hp2 (fun _ => ?_))
          rw [hT]
          exact ⟨le_refl _, by simp, fun h => by cases h⟩

theorem TF_userinit (pol : Policy) (s : State) (tf pt : Int) :
    TimeFrame s (userinit pol s tf pt) := by
  have h1 := TF_allocproc s tf pt
  cases hr : (allocproc s tf pt).2 with
  | none => simp only [userinit, hr]; exact h1
  | some i =>
    cases hp : (allocproc s tf pt).1.proc[i]? with
    | none => simp only [userinit, hr, hp]; exact TF_trans h1 (TF_proc_eq rfl rfl)
    | some p =>
      have hp3 : ({ (allocproc s tf pt).1 with initproc := some i } : State).proc[i]? = some p := hp
      have h2 : TimeFrame (allocproc s tf pt).1
          ({ (allocproc s tf pt).1 with initproc := some i } : State) := TF_proc_eq rfl rfl
      simp only [userinit, hr, hp]
      split
      · refine TF_trans h1 (TF_trans h2 (TF_of_set
          { p with
            sz := 4096
            name := safestrcpy p.name initcode_name 16
            state := procstate.RUNNABLE
            cur_queue := 0
            mlfq_priority := 0 } hp3 ?_ ?_ (TimeOk_keep rfl rfl (fun h => by cases h))))
        · simp [push_to_proc, List.set_set]
        · simp [push_to_ticks_eq]
      · refine TF_trans h1 (TF_trans h2 (TF_keep _ hp3 ?_ ?_ ?_))
        · rfl
        · rfl
        · intro h; cases h

theorem TF_fork (pol : Policy) (s : State) (caller : Nat) (tf pt : Int) (copyok : Bool) :
    TimeFrame s (fork pol s caller tf pt copyok).1 := by
  have h1 := TF_allocproc s tf pt
  cases hc : s.proc[caller]? with
  | none => simp only [fork, hc]; exact TF_refl s
  | some p =>
    cases hr : (allocproc s tf pt).2 with
    | none => simp only [fork, hc, hr]; exact h1
    | some i =>
      cases hnp : (allocproc s tf pt).1.proc[i]? with
      | none => simp only [fork, hc, hr, hnp]; exact h1
      | some np =>
        simp only [fork, hc, hr, hnp]
        split
        · exact TF_trans h1 (TF_freeproc _ i np hnp)
        · split
          · refine TF_trans h1 (TF_of_set
              { np with
                sz := p.sz
                mask := p.mask
                name := safestrcpy np.name p.name 16
                parent := some caller
                state := procstate.RUNNABLE
                cur_queue := 0 } hnp ?_ ?_ (TimeOk_keep rfl rfl (fun h => by cases h)))
            · simp [push_to_proc]
            · simp [push_to_ticks_eq]
          · refine TF_trans h1 (TF_keep _ hnp ?_ ?_ ?_)
            · rfl
            · rfl
            · intro h; cases h

theorem TF_wait (s : State) (caller : Nat) (addr : Int) (copyok : Bool) :
    TimeFrame s (wait s caller addr copyok).1 := by
  cases hc : s.proc[caller]? with
  | none => simp only [wait, hc]; exact TF_refl s
  | some p =>
    simp only [wait, hc]
    cases hf : first_idx
        (fun np => decide (np.parent = some caller ∧ np.state = procstate.ZOMBIE)) s.proc with
    | some i =>
      simp only []
      cases hnp : s.proc[i]? with
      | none => exact TF_refl s
      | some np =>
        simp only []
        split
        · exact TF_refl s
        · exact TF_freeproc s i np hnp
    | none =>
      simp only []
      split
      · exact TF_refl s
      · exact TF_sleep s caller _

theorem TF_waitx (s : State) (caller : Nat) (addr : Int) (copyok : Bool) (w0 r0 : Int) :
    TimeFrame s (waitx s caller addr copyok w0 r0).1 := by
  cases hc : s.proc[caller]? with
  | none => simp only [waitx, hc]; exact TF_refl s
  | some p =>
    simp only [waitx, hc]
    cases hf : first_idx
        (fun np => decide (np.parent = some caller ∧ np.state = procstate.ZOMBIE)) s.proc with
    | some i =>
      simp only []
      cases hnp : s.proc[i]? with
      | none => exact TF_refl s
      | some np =>
        simp only []
        split
        · exact TF_refl s
        · exact TF_freeproc s i np hnp
    | none =>
      simp only []
      split
      · exact TF_refl s
      · exact TF_sleep s caller _

theorem TF_map (s : State) (f : Proc → Proc)
    (hf : ∀ (T : Int) (p : Proc), TimeOk T p → TimeOk T (f p)) (t : State)
    (ht : t.proc = s.proc.map f) (htk : t.ticks = s.ticks) : TimeFrame s t := by
  refine ⟨htk, by rw [ht, List.length_map], ?_⟩
  intro j p q hp hq hok
  rw [ht, List.getElem?_map, hp] at hq
  cases hq
  exact hf _ p hok

theorem TF_setpriority (s : State) (pid priority : Int) :
    TimeFrame s (setpriority s pid priority).1 := by
  obtain ⟨h1, _⟩ := setpriority_table s pid priority
  have htk : (setpriority s pid priority).1.ticks = s.ticks :=
    (setpriority_fold s pid priority s.proc.length).2.2.2.1
  refine TF_map s (setpriority_slot pid priority) ?_ _ h1 htk
  intro T p hok
  unfold setpriority_slot
  split
  · exact TimeOk_keep rfl rfl (fun h => ⟨h, rfl⟩) hok
  · exact hok

theorem TF_sys_setpriority (pol : Policy) (s : State) (caller : Nat) (priority pid : Int) :
    TimeFrame s (sys_setpriority pol s caller priority pid).1 := by
  simp only [sys_setpriority, calc_dpriority]
  split
  · exact TF_setpriority s pid priority
  · exact TF_trans (TF_setpriority s pid priority) (TF_yield pol _ caller)

theorem TF_dispatch (pol : Policy) (s : State) (tbl : List Proc) (minp : Option Nat) :
    TimeFrame { s with proc := tbl } { s with proc := (dispatch pol tbl minp).1 } := by
  unfold dispatch
  cases minp with
  | none => exact TF_refl _
  | some m =>
    simp only []
    cases hm : tbl[m]? with
    | none => exact TF_refl _
    | some p =>
      simp only []
      split
      · have hm2 : ({ s with proc := tbl } : State).proc[m]? = some p := hm
        split
        · exact TF_of_set
            { p with
              state := procstate.RUNNING
              is_new := 0
              rtime_prev := 0
              stime_prev := 0
              ns := p.ns + 1 } hm2 rfl rfl (TimeOk_keep rfl rfl (fun h => by cases h))
        · exact TF_of_set { p with state := procstate.RUNNING } hm2 rfl rfl
            (TimeOk_keep rfl rfl (fun h => by cases h))
      · exact TF_refl _

theorem pop_given_ticks_eq (s : State) (q pid : Int) : (pop_given s q pid).ticks = s.ticks := by
  unfold pop_given; split <;> rfl

theorem TF_scheduler_mlfq (s : State) : TimeFrame s (scheduler_mlfq s).1 := by
  unfold scheduler_mlfq
  simp only []
  split
  · exact TF_refl s
  · cases hf : mlfq_find s.proc (mlfq_chosen_pid s) with
    | none => exact TF_refl s
    | some m =>
      simp only []
      cases hp : s.proc[m]? with
      | none => exact TF_refl s
      | some p =>
        simp only []
        split
        · split
          · refine TF_of_set
              { p with
                state := procstate.RUNNING
                mlfq_priority := -1
                ns := p.ns + 1 } hp ?_ ?_ (TimeOk_keep rfl rfl (fun h => by cases h))
            · simp [pop_given_proc, List.set_set]
            · simp [pop_given_ticks_eq]
          · exact TF_refl s
        · exact TF_refl s

theorem TF_scheduler_round (pol : Policy) (s : State) :
    TimeFrame s (scheduler_round pol s).1 := by
  cases pol with
  | FCFS => exact TF_dispatch Policy.FCFS s s.proc _
  | PBS =>
    simp only [scheduler_round]
    refine TF_trans (TF_map s pbs_update ?_ { s with proc := s.proc.map pbs_update } rfl rfl)
      (by rw [pbs_scan_fst]; exact TF_dispatch Policy.PBS s _ _)
    intro T p hok
    exact TimeOk_keep rfl rfl (fun h => ⟨h, rfl⟩) hok
  | MLFQ => exact TF_scheduler_mlfq s
  | RR => exact TF_refl s

theorem TF_rr_dispatch (s : State) (i : Nat) : TimeFrame s (rr_dispatch s i) := by
  unfold rr_dispatch
  cases hi : s.proc[i]? with
  | none => exact TF_refl s
  | some p =>
    simp only []
    split
    · refine TF_keep _ hi ?_ ?_ ?_
      · rfl
      · rfl
      · intro h; cases h
    · exact TF_refl s

/-- every operation other than the bare tick and sweep keeps the tick counter
and the lifetime counters in order -/
theorem TF_apply (pol : Policy) (s : State) (l : Label) (h1 : l ≠ Label.tick)
    (h2 : l ≠ Label.updatetime) : TimeFrame s (apply pol s l) := by
  cases l with
  | userinit tf pt => exact TF_userinit pol s tf pt
  | fork caller tf pt copyok => exact TF_fork pol s caller tf pt copyok
  | exit caller status => exact TF_exit pol s caller status
  | wait caller addr copyok => exact TF_wait s caller addr copyok
  | waitx caller addr copyok => exact TF_waitx s caller addr copyok 0 0
  | yield caller => exact TF_yield pol s caller
  | sleep caller chan => exact TF_sleep s caller chan
  | sleep_return caller => exact TF_sleep_return s caller
  | wakeup caller chan => exact TF_wakeup pol s caller chan
  | kill pid => exact TF_kill pol s pid
  | setpriority caller priority pid => exact TF_sys_setpriority pol s caller priority pid
  | tick => exact absurd rfl h1
  | updatetime => exact absurd rfl h2
  | sched => exact TF_scheduler_round pol s
  | rr i => exact TF_rr_dispatch s i

theorem tick_slot_times (pol : Policy) (threshold : Int → Int) (p : Proc) :
    (tick_slot pol threshold p).state = p.state ∧ (tick_slot pol threshold p).ctime = p.ctime ∧
    (tick_slot pol threshold p).etime = p.etime ∧ (tick_slot pol threshold p).pid = p.pid ∧
    (tick_slot pol threshold p).rtime =
      p.rtime + (if p.state = procstate.RUNNING then 1 else 0) := by
  have h0 : (count_queue p).state = p.state ∧ (count_queue p).ctime = p.ctime ∧
      (count_queue p).etime = p.etime ∧ (count_queue p).pid = p.pid ∧
      (count_queue p).rtime = p.rtime := by
    unfold count_queue; split <;> exact ⟨rfl, rfl, rfl, rfl, rfl⟩
  have h1 : ∀ r : Proc, (count_run r).state = r.state ∧ (count_run r).ctime = r.ctime ∧
      (count_run r).etime = r.etime ∧ (count_run r).pid = r.pid ∧
      (count_run r).rtime = r.rtime + (if r.state = procstate.RUNNING then 1 else 0) := by
    intro r; unfold count_run
    split
    · rename_i hr
      exact ⟨rfl, rfl, rfl, rfl, by simp⟩
    · exact ⟨rfl, rfl, rfl, rfl, by simp⟩
  have h2 : ∀ r : Proc, (count_sleep r).state = r.state ∧ (count_sleep r).ctime = r.ctime ∧
      (count_sleep r).etime = r.etime ∧ (count_sleep r).pid = r.pid ∧
      (count_sleep r).rtime = r.rtime := by
    intro r; unfold count_sleep; split <;> exact ⟨rfl, rfl, rfl, rfl, rfl⟩
  have h3 : (tick_counters p).state = p.state ∧ (tick_counters p).ctime = p.ctime ∧
      (tick_counters p).etime = p.etime ∧ (tick_counters p).pid = p.pid ∧
      (tick_counters p).rtime = p.rtime + (if p.state = procstate.RUNNING then 1 else 0) := by
    obtain ⟨a1, a2, a3, a4, a5⟩ := h0
    obtain ⟨b1, b2, b3, b4, b5⟩ := h1 (count_queue p)
    obtain ⟨c1, c2, c3, c4, c5⟩ := h2 (count_run (count_queue p))
    have e : ∀ r : Proc, (count_wait r).state = r.state ∧ (count_wait r).ctime = r.ctime ∧
        (count_wait r).etime = r.etime ∧ (count_wait r).pid = r.pid ∧
        (count_wait r).rtime = r.rtime := fun _ => ⟨rfl, rfl, rfl, rfl, rfl⟩
    unfold tick_counters
    simp only []
    split
    · obtain ⟨d1, d2, d3, d4, d5⟩ := e (count_sleep (count_run (count_queue p)))
      exact ⟨by rw [d1, c1, b1, a1], by rw [d2, c2, b2, a2], by rw [d3, c3, b3, a3],
        by rw [d4, c4, b4, a4], by rw [d5, c5, b5, a5, a1]⟩
    · exact ⟨by rw [c1, b1, a1], by rw [c2, b2, a2], by rw [c3, b3, a3],
        by rw [c4, b4, a4], by rw [c5, b5, a5, a1]⟩
  unfold tick_slot
  split
  · have e : ∀ r : Proc, (age_done (age_down r)).state = r.state ∧
        (age_done (age_down r)).ctime = r.ctime ∧ (age_done (age_down r)).etime = r.etime ∧
        (age_done (age_down r)).pid = r.pid ∧ (age_done (age_down r)).rtime = r.rtime :=
      fun _ => ⟨rfl, rfl, rfl, rfl, rfl⟩
    obtain ⟨d1, d2, d3, d4, d5⟩ := e (tick_counters p)
    obtain ⟨a1, a2, a3, a4, a5⟩ := h3
    exact ⟨by rw [d1, a1], by rw [d2, a2], by rw [d3, a3], by rw [d4, a4], by rw [d5, a5]⟩
  · exact h3

theorem clock_tick_spec (pol : Policy) (s : State) :
    (clock_tick pol s).ticks = s.ticks + 1 ∧
    (clock_tick pol s).proc = s.proc.map (tick_slot pol s.ageing_threshold) := by
  unfold clock_tick
  refine ⟨?_, ?_⟩
  · unfold updatetime
    exact (updatetime_fold pol _ _).2.2.1
  · exact updatetime_proc pol _

theorem boot_ticks (pol : Policy) (nproc : Nat) : (boot pol nproc).ticks = 0 := by
  unfold boot queue_init
  split <;> rfl

/-- With the clock as the only source of time, in every reachable state every
slot has `0 ≤ rtime`, `ctime + rtime ≤ ticks`, and as a `ZOMBIE`
`ctime + rtime ≤ etime`. -/
theorem TimeOk_of_ReachClock {pol : Policy} {nproc : Nat} {s : State}
    (h : ReachClock pol nproc s) :
    ∀ (i : Nat) (p : Proc), s.proc[i]? = some p → TimeOk s.ticks p := by
  induction h with
  | boot =>
    intro i p hp
    rw [boot_proc] at hp
    have hm : p ∈ List.replicate nproc Proc.zero := List.mem_iff_getElem?.2 ⟨i, hp⟩
    rw [List.eq_of_mem_replicate hm, boot_ticks]
    exact ⟨le_refl _, le_refl _, fun h => by cases h⟩
  | @step s0 l _ h1 h2 _ ih =>
    intro i q hq
    obtain ⟨htk, hlen, hstep⟩ := TF_apply pol s0 l h1 h2
    have hi : i < s0.proc.length := by
      rw [← hlen]
      exact (List.getElem?_eq_some_iff.1 hq).1
    have hp : s0.proc[i]? = some (s0.proc[i]) := List.getElem?_eq_getElem hi
    rw [htk]
    exact hstep i _ q hp hq (ih i _ hp)
  | @clock s0 _ ih =>
    intro i q hq
    obtain ⟨htk, hproc⟩ := clock_tick_spec pol s0
    rw [hproc, List.getElem?_map] at hq
    cases hp : s0.proc[i]? with
    | none => rw [hp] at hq; cases hq
    | some p =>
      rw [hp] at hq
      simp only [Option.map_some', Option.some.injEq] at hq
      subst hq
      obtain ⟨a, b, c⟩ := ih i p hp
      obtain ⟨t1, t2, t3, _, t5⟩ := tick_slot_times pol s0.ageing_threshold p
      rw [htk]
      refine ⟨by rw [t5]; split <;> omega, by rw [t2, t5]; split <;> omega, ?_⟩
      intro hz
      rw [t1] at hz
      have hnr : ¬ (p.state = procstate.RUNNING) := by rw [hz]; intro h; cases h
      rw [t2, t3, t5, if_neg hnr]
      have := c hz
      omega

theorem ReachClock_run {pol : Policy} {nproc : Nat} (ls : List Label) (s : State)
    (h : ReachClock pol nproc s) (hok : ∀ l ∈ ls, l ≠ Label.tick ∧ l ≠ Label.updatetime)
    (he : run_ok pol s ls = true) : ReachClock pol nproc (run pol s ls) := by
  induction ls generalizing s with
  | nil => exact h
  | cons l ls ih =>
    simp only [run_ok, Bool.and_eq_true] at he
    simp only [run, List.foldl_cons]
    have hl := hok l (List.mem_cons_self _ _)
    exact ih (apply pol s l) (ReachClock.step l h hl.1 hl.2 he.1)
      (fun l2 hl2 => hok l2 (List.mem_cons_of_mem _ hl2)) he.2

theorem exClock_reachable : ReachClock Policy.MLFQ 3 exClock :=
  ReachClock_run _ _
    (ReachClock.clock
      (ReachClock_run _ _
        (ReachClock.clock (ReachClock.clock
          (ReachClock_run _ _ ReachClock.boot (by decide) rfl)))
        (by decide) rfl))
    (by decide) rfl

/-- C14. With the clock as the only source of time, when `waitx` reaps the
`ZOMBIE` child `Z` (the first `ZOMBIE` child of the caller in table order), it
returns the child's pid, `rtime = Z.rtime` and `wtime = Z.etime - Z.ctime -
Z.rtime`, this difference is not negative, and `rtime + wtime` is the lifetime
`Z.etime - Z.ctime` (for a lifetime below 2^32 ticks, the range of the `uint`
results); a clock tick adds one to the tick counter and adds one to `rtime`
exactly for the slots that are `RUNNING`, leaving `ctime` and `etime` alone. -/
theorem waitx_reports_lifetime (pol : Policy) (nproc : Nat) (s : State)
    (h : ReachClock pol nproc s) (caller i : Nat) (P Z : Proc) (addr : Int) (copyok : Bool)
    (w0 r0 : Int) (hP : s.proc[caller]? = some P) (hZ : s.proc[i]? = some Z)
    (hpar : Z.parent = some caller) (hz : Z.state = procstate.ZOMBIE)
    (hfirst : ∀ (j : Nat) (q : Proc), j < i → s.proc[j]? = some q →
      ¬ (q.parent = some caller ∧ q.state = procstate.ZOMBIE))
    (hcopy : addr = 0 ∨ copyok = true) (hL : Z.etime - Z.ctime < 4294967296) :
    (∃ out : WaitxOut, (waitx s caller addr copyok w0 r0).2 = some out ∧ out.ret = Z.pid ∧
      out.rtime = Z.rtime ∧ out.wtime = Z.etime - Z.ctime - Z.rtime ∧ 0 ≤ out.wtime ∧
      out.rtime + out.wtime = Z.etime - Z.ctime) ∧
    0 ≤ Z.rtime ∧ Z.rtime ≤ Z.etime - Z.ctime ∧
    (clock_tick pol s).ticks = s.ticks + 1 ∧
    (∀ (j : Nat) (p : Proc), s.proc[j]? = some p →
      ∃ q : Proc, (clock_tick pol s).proc[j]? = some q ∧ q.ctime = p.ctime ∧
        q.etime = p.etime ∧
        q.rtime = p.rtime + (if p.state = procstate.RUNNING then 1 else 0)) := by
  obtain ⟨a, _, c⟩ := TimeOk_of_ReachClock h i Z hZ
  have hc := c hz
  have hf : first_idx
      (fun np => decide (np.parent = some caller ∧ np.state = procstate.ZOMBIE)) s.proc
        = some i :=
    first_idx_eq_some _ _ i Z hZ (by simp [hpar, hz])
      (fun j q hj hq => by simpa using hfirst j q hj hq)
  have hcp : ¬ (addr ≠ 0 ∧ copyok = false) := by
    rintro ⟨h1, h2⟩
    rcases hcopy with h | h
    · exact h1 h
    · rw [h] at h2; cases h2
  have hr : Z.rtime % 4294967296 = Z.rtime := Int.emod_eq_of_lt a (by omega)
  have hw : (Z.etime - Z.ctime - Z.rtime) % 4294967296 = Z.etime - Z.ctime - Z.rtime :=
    Int.emod_eq_of_lt (by omega) (by omega)
  obtain ⟨k1, k2⟩ := clock_tick_spec pol s
  refine ⟨?_, a, by omega, k1, ?_⟩
  · simp only [waitx, hP, hf, hZ, if_neg hcp, hr, hw]
    exact ⟨_, rfl, rfl, rfl, rfl, by show 0 ≤ Z.etime - Z.ctime - Z.rtime; omega,
      by show Z.rtime + (Z.etime - Z.ctime - Z.rtime) = Z.etime - Z.ctime; omega⟩
  · intro j p hp
    obtain ⟨_, t2, t3, _, t5⟩ := tick_slot_times pol s.ageing_threshold p
    exact ⟨_, by rw [k2, List.getElem?_map, hp]; rfl, t2, t3, t5⟩

theorem waitx_reports_lifetime_witness :
    (exClock.proc.map (fun p => (p.state, p.pid, p.parent, p.ctime, p.rtime, p.etime))) =
      [(procstate.RUNNING, 1, none, 0, 0, 0), (procstate.ZOMBIE, 2, some 0, 0, 2, 3),
       (procstate.UNUSED, 0, none, 0, 0, 0)] ∧
    (waitx exClock 0 0 true 0 0).2 = some ⟨2, 1, 2⟩ ∧
    ∃ out : WaitxOut, (waitx exClock 0 0 true 0 0).2 = some out ∧ out.ret = 2 ∧
      out.rtime = 2 ∧ out.wtime = 3 - 0 - 2 ∧ 0 ≤ out.wtime ∧ out.rtime + out.wtime = 3 - 0 :=
  ⟨by decide, by decide,
    (waitx_reports_lifetime Policy.MLFQ 3 exClock exClock_reachable 0 1 _ _ 0 true 0 0 rfl rfl
      rfl rfl
      (fun j q hj hq => by
        have h0 : j = 0 := by omega
        subst h0
        have e : exClock.proc[0]? = some (exClock.proc.getD 0 Proc.zero) := rfl
        rw [e] at hq
        cases hq
        decide)
      (Or.inl rfl) (by decide)).1⟩

/-! ## Claim C4: one round of the MLFQ scheduler -/

theorem tick_slot_record (pol : Policy) (threshold : Int → Int) (p : Proc) :
    tick_slot pol threshold p =
      { p with
        qcount :=
          if p.mlfq_priority ≠ -1 then
            p.qcount.set p.cur_queue.toNat (p.qcount.getD p.cur_queue.toNat 0 + 1)
          else p.qcount
        rtime := if p.state = procstate.RUNNING then p.rtime + 1 else p.rtime
        rtime_prev := if p.state = procstate.RUNNING then p.rtime_prev + 1 else p.rtime_prev
        stime_prev := if p.state = procstate.SLEEPING then p.stime_prev + 1 else p.stime_prev
        twtime := if p.state = procstate.RUNNABLE then p.twtime + 1 else p.twtime
        wtime :=
          if p.state = procstate.RUNNABLE then
            (if ages pol threshold p then 0 else p.wtime + 1)
          else p.wtime
        cur_queue := if ages pol threshold p then p.cur_queue - 1 else p.cur_queue
        mlfq_priority :=
          if ages pol threshold p then p.cur_queue - 1 else p.mlfq_priority } := by
  obtain ⟨state, chan, killed, xstate, pid, parent, sz, pagetable, trapframe, name, mask, ctime,
    rtime, etime, wtime, twtime, rtime_prev, stime_prev, is_new, pstatic, pdynamic, niceness, ns,
    cur_queue, mlfq_priority, qcount⟩ := p
  by_cases hm : mlfq_priority = -1
  · cases state <;>
      simp [tick_slot, tick_counters, count_queue, count_run, count_sleep, count_wait,
        age_down, age_done, ageing_fires, ages, hm] <;>
      split_ifs <;> simp_all
  · cases state <;>
      simp [tick_slot, tick_counters, count_queue, count_run, count_sleep, count_wait,
        age_down, age_done, ageing_fires, ages, hm] <;>
      split_ifs <;> simp_all

/-- C8. One sweep of the tick accountant keeps the length of the table and
replaces the record of every slot by the same record with: `qcount[cur_queue]`
incremented when `mlfq_priority ≠ -1`; `rtime` and `rtime_prev` incremented
when `RUNNING`; `stime_prev` incremented when `SLEEPING`; `twtime` incremented
when `RUNNABLE`, and `wtime` incremented, or reset to 0 when ageing fires
(which also decrements `cur_queue` and sets `mlfq_priority` to the new
level).  No other field changes: state, pid, `ctime`, `etime`, `ns` and
`pstatic` are as before, and a slot that is `UNUSED`, `USED` or `ZOMBIE` keeps
`rtime`, `rtime_prev`, `stime_prev`, `wtime` and `twtime`. -/
theorem updatetime_changes_counters (pol : Policy) (s : State) (i : Nat) (p : Proc)
    (hp : s.proc[i]? = some p) :
    (updatetime pol s).proc.length = s.proc.length ∧
    ∃ q : Proc, (updatetime pol s).proc[i]? = some q ∧
      q = { p with
            qcount :=
              if p.mlfq_priority ≠ -1 then
                p.qcount.set p.cur_queue.toNat (p.qcount.getD p.cur_queue.toNat 0 + 1)
              else p.qcount
            rtime := if p.state = procstate.RUNNING then p.rtime + 1 else p.rtime
            rtime_prev :=
              if p.state = procstate.RUNNING then p.rtime_prev + 1 else p.rtime_prev
            stime_prev :=
              if p.state = procstate.SLEEPING then p.stime_prev + 1 else p.stime_prev
            twtime := if p.state = procstate.RUNNABLE then p.twtime + 1 else p.twtime
            wtime :=
              if p.state = procstate.RUNNABLE then
                (if ages pol s.ageing_threshold p then 0 else p.wtime + 1)
              else p.wtime
            cur_queue := if ages pol s.ageing_threshold p then p.cur_queue - 1 else p.cur_queue
            mlfq_priority :=
              if ages pol s.ageing_threshold p then p.cur_queue - 1 else p.mlfq_priority } ∧
      (q.state = p.state ∧ q.pid = p.pid ∧ q.ctime = p.ctime ∧ q.etime = p.etime ∧
        q.ns = p.ns ∧ q.pstatic = p.pstatic) ∧
      ((p.state = procstate.UNUSED ∨ p.state = procstate.USED ∨ p.state = procstate.ZOMBIE) →
        q.rtime = p.rtime ∧ q.rtime_prev = p.rtime_prev ∧ q.stime_prev = p.stime_prev ∧
        q.wtime = p.wtime ∧ q.twtime = p.twtime ∧ q.cur_queue = p.cur_queue) ∧
      (p.mlfq_priority ≠ -1 → 0 ≤ p.cur_queue → p.cur_queue.toNat < p.qcount.length →
        q.qcount.getD p.cur_queue.toNat 0 = p.qcount.getD p.cur_queue.toNat 0 + 1 ∧
        ∀ k : Nat, k ≠ p.cur_queue.toNat → q.qcount[k]? = p.qcount[k]?) ∧
      (p.mlfq_priority = -1 → q.qcount = p.qcount) := by
  have hproc := updatetime_proc pol s
  refine ⟨by rw [hproc, List.length_map], tick_slot pol s.ageing_threshold p, ?_,
    tick_slot_record pol s.ageing_threshold p, ?_, ?_, ?_, ?_⟩
  · rw [hproc, List.getElem?_map, hp]; rfl
  · rw [tick_slot_record]
    exact ⟨rfl, rfl, rfl, rfl, rfl, rfl⟩
  · intro hs
    have hna : ¬ ages pol s.ageing_threshold p := by
      intro ha
      rcases hs with h | h | h <;> rw [ha.1] at h <;> cases h
    rw [tick_slot_record]
    rcases hs with h | h | h <;> simp [h, hna]
  · intro hm h0 hlt
    rw [tick_slot_record]
    simp only [hm, ne_eq, not_false_eq_true, if_true]
    refine ⟨?_, ?_⟩
    · rw [List.getD_eq_getElem?_getD, List.getElem?_set_self hlt]
      rfl
    · intro k hk
      exact List.getElem?_set_ne (Ne.symm hk)
  · intro hm
    rw [tick_slot_record]
    simp [hm]

theorem updatetime_changes_counters_witness :
    (exForked.proc.map (fun p => (p.state, p.mlfq_priority, p.rtime, p.wtime, p.twtime,
        p.qcount))) =
      [(procstate.RUNNING, -1, 0, 0, 0, [0, 0, 0, 0, 0]),
       (procstate.RUNNABLE, 0, 0, 0, 0, [0, 0, 0, 0, 0]),
       (procstate.UNUSED, 0, 0, 0, 0, [0, 0, 0, 0, 0])] ∧
    ((updatetime Policy.MLFQ exForked).proc.map
        (fun p => (p.state, p.mlfq_priority, p.rtime, p.wtime, p.twtime, p.qcount))) =
      [(procstate.RUNNING, -1, 1, 0, 0, [0, 0, 0, 0, 0]),
       (procstate.RUNNABLE, 0, 0, 1, 1, [1, 0, 0, 0, 0]),
       (procstate.UNUSED, 0, 0, 0, 0, [1, 0, 0, 0, 0])] ∧
    (updatetime Policy.MLFQ exForked).proc.length = exForked.proc.length :=
  ⟨rfl, rfl, (updatetime_changes_counters Policy.MLFQ exForked 1 _ rfl).1⟩

theorem updatetime_n_proc (pol : Policy) (n : Nat) (s : State) :
    (updatetime_n pol n s).proc = s.proc.map ((tick_slot pol s.ageing_threshold)^[n]) ∧
    (updatetime_n pol n s).ageing_threshold = s.ageing_threshold := by
  induction n generalizing s with
  | zero => simp [updatetime_n]
  | succ n ih =>
    obtain ⟨h1, h2⟩ := ih (updatetime pol s)
    simp only [updatetime_n, h1, h2, updatetime_proc, updatetime_ageing, List.map_map,
      Function.iterate_succ, and_self]

theorem tick_slot_waits (pol : Policy) (threshold : Int → Int) (k : Nat) (p : Proc)
    (hs : p.state = procstate.RUNNABLE) (hw : p.wtime + (k : Int) ≤ threshold p.cur_queue) :
    ((tick_slot pol threshold)^[k] p).state = procstate.RUNNABLE ∧
    ((tick_slot pol threshold)^[k] p).cur_queue = p.cur_queue ∧
    ((tick_slot pol threshold)^[k] p).wtime = p.wtime + (k : Int) ∧
    ((tick_slot pol threshold)^[k] p).pid = p.pid := by
  induction k generalizing p with
  | zero => simp [hs]
  | succ k ih =>
    have hna : ¬ ages pol threshold p := by
      intro ha
      have := ha.2.2.1
      push_cast at hw
      omega
    have h1 : (tick_slot pol threshold p).state = procstate.RUNNABLE := by
      rw [tick_slot_record]; exact hs
    have h2 : (tick_slot pol threshold p).cur_queue = p.cur_queue := by
      rw [tick_slot_record]; simp [hna]
    have h3 : (tick_slot pol threshold p).wtime = p.wtime + 1 := by
      rw [tick_slot_record]; simp [hna, hs]
    have h4 : (tick_slot pol threshold p).pid = p.pid := by
      rw [tick_slot_record]
    obtain ⟨a, b, c, d⟩ := ih (tick_slot pol threshold p) h1
      (by rw [h2, h3]; push_cast at hw; omega)
    rw [Function.iterate_succ, Function.comp]
    refine ⟨a, by rw [b, h2], by rw [c, h3]; push_cast; omega, by rw [d, h4]⟩

theorem tick_slot_ages (threshold : Int → Int) (p : Proc)
    (hs : p.state = procstate.RUNNABLE) (hw : p.wtime = threshold p.cur_queue)
    (hq : p.cur_queue ≠ 0) :
    (tick_slot Policy.MLFQ threshold p).state = procstate.RUNNABLE ∧
    (tick_slot Policy.MLFQ threshold p).cur_queue = p.cur_queue - 1 ∧
    (tick_slot Policy.MLFQ threshold p).wtime = 0 ∧
    (tick_slot Policy.MLFQ threshold p).mlfq_priority = p.cur_queue - 1 ∧
    (tick_slot Policy.MLFQ threshold p).pid = p.pid := by
  have ha : ages Policy.MLFQ threshold p := ⟨hs, rfl, by omega, hq⟩
  rw [tick_slot_record]
  simp [ha, hs]

theorem tick_slot_level0 (pol : Policy) (threshold : Int → Int) (n : Nat) (p : Proc)
    (hq : p.cur_queue = 0) : ((tick_slot pol threshold)^[n] p).cur_queue = 0 := by
  induction n generalizing p with
  | zero => simpa using hq
  | succ n ih =>
    rw [Function.iterate_succ, Function.comp]
    apply ih
    rcases tick_slot_cur_queue pol threshold p with h | ⟨_, h, _⟩
    · rw [h, hq]
    · exact absurd hq h

theorem ageing_fires_iff (pol : Policy) (threshold : Int → Int) (p : Proc) :
    ageing_fires pol threshold (tick_counters p) ↔ ages pol threshold p := by
  obtain ⟨state, chan, killed, xstate, pid, parent, sz, pagetable, trapframe, name, mask, ctime,
    rtime, etime, wtime, twtime, rtime_prev, stime_prev, is_new, pstatic, pdynamic, niceness, ns,
    cur_queue, mlfq_priority, qcount⟩ := p
  by_cases hm : mlfq_priority = -1 <;> cases state <;>
    simp [tick_counters, count_queue, count_run, count_sleep, count_wait, ageing_fires, ages, hm]

theorem boot_thresholds (nproc : Nat) :
    (boot Policy.MLFQ nproc).ageing_threshold 0 = -1 ∧
    (boot Policy.MLFQ nproc).ageing_threshold 1 = 10 ∧
    (boot Policy.MLFQ nproc).ageing_threshold 2 = 20 ∧
    (boot Policy.MLFQ nproc).ageing_threshold 3 = 30 ∧
    (boot Policy.MLFQ nproc).ageing_threshold 4 = 40 := by
  simp [boot, queue_init]

/-- The loop body of the accountant on a slot that ages: the pid leaves the
queue of its level and is appended to the queue of the level below. -/
theorem updatetime_body_ages (u : State) (i : Nat) (r : Proc) (hr : u.proc[i]? = some r)
    (ha : ages Policy.MLFQ u.ageing_threshold r) (hpid : 0 ≤ r.pid)
    (ht : -1 ≤ u.queue_tail (r.cur_queue - 1)) :
    qcontent (updatetime_body Policy.MLFQ u i) r.cur_queue = (qcontent u r.cur_queue).erase r.pid ∧
    qcontent (updatetime_body Policy.MLFQ u i) (r.cur_queue - 1)
      = qcontent u (r.cur_queue - 1) ++ [r.pid] ∧
    (∀ l : Int, l ≠ r.cur_queue → l ≠ r.cur_queue - 1 →
      qcontent (updatetime_body Policy.MLFQ u i) l = qcontent u l) := by
  have hf : ageing_fires Policy.MLFQ u.ageing_threshold (tick_counters r) :=
    (ageing_fires_iff _ _ _).2 ha
  have hne : r.cur_queue ≠ r.cur_queue - 1 := by omega
  have hne2 : r.cur_queue - 1 ≠ r.cur_queue := by omega
  rw [updatetime_body_eq Policy.MLFQ u i r hr, if_pos hf]
  refine ⟨?_, ?_, ?_⟩
  · rw [qcontent_setProc, qcontent_push_to_other _ _ _ _ hne, qcontent_pop_specific]
  · have ht2 : -1 ≤ (pop_specific u r.cur_queue r.pid).queue_tail (r.cur_queue - 1) := by
      have : (pop_specific u r.cur_queue r.pid).queue_tail (r.cur_queue - 1)
          = u.queue_tail (r.cur_queue - 1) := by
        unfold pop_specific
        split
        · rfl
        · simp [State.setRow, State.setTail, hne2]
      rw [this]; exact ht
    rw [qcontent_setProc, qcontent_push_to _ _ _ hpid ht2,
      qcontent_pop_specific_other _ _ _ _ hne2]
  · intro l h1 h2
    rw [qcontent_setProc, qcontent_push_to_other _ _ _ _ h2,
      qcontent_pop_specific_other _ _ _ _ h1]

/-- The loop body of the accountant on a slot at level 0 leaves the queues
alone. -/
theorem updatetime_body_level0 (pol : Policy) (u : State) (j : Nat) (r : Proc)
    (hr : u.proc[j]? = some r) (hq : r.cur_queue = 0) :
    (updatetime_body pol u j).queue = u.queue ∧
    (updatetime_body pol u j).queue_tail = u.queue_tail := by
  have hf : ¬ ageing_fires pol u.ageing_threshold (tick_counters r) := by
    rw [ageing_fires_iff]
    intro ha
    exact ha.2.2.2 hq
  rw [updatetime_body_eq pol u j r hr, if_neg hf]
  exact ⟨rfl, rfl⟩

/-- C7. Under MLFQ, a slot that is `RUNNABLE` at level `L` in 1..4 with
`wtime = 0`, when only the accountant runs, is after `10 * L` sweeps (the
threshold of its level, which `queue_init` sets to 10, 20, 30, 40) still
`RUNNABLE` at level `L` with `wtime = 10 * L`, and after one more sweep it
has `cur_queue = L - 1`, `wtime = 0` and `mlfq_priority = L - 1`; the loop
body that ages it removes its pid from queue `L` and appends it at the tail of
queue `L - 1`, leaving the other queues alone.  A slot at level 0 stays at
level 0 through any number of sweeps and its loop body changes no queue. -/
theorem ageing_promotes_after_threshold (s : State) (i : Nat) (p : Proc) (L : Int)
    (hL1 : 1 ≤ L) (hL4 : L ≤ 4) (hthr : s.ageing_threshold L = 10 * L)
    (hp : s.proc[i]? = some p) (hs : p.state = procstate.RUNNABLE) (hq : p.cur_queue = L)
    (hw : p.wtime = 0) :
    (∀ nproc : Nat, (boot Policy.MLFQ nproc).ageing_threshold L = 10 * L) ∧
    (∃ q : Proc, (updatetime_n Policy.MLFQ (10 * L).toNat s).proc[i]? = some q ∧
      q.state = procstate.RUNNABLE ∧ q.cur_queue = L ∧ q.wtime = 10 * L) ∧
    (∃ q : Proc, (updatetime_n Policy.MLFQ ((10 * L).toNat + 1) s).proc[i]? = some q ∧
      q.state = procstate.RUNNABLE ∧ q.cur_queue = L - 1 ∧ q.wtime = 0 ∧
      q.mlfq_priority = L - 1) ∧
    (∀ (u : State) (r : Proc), u.proc[i]? = some r → r.state = procstate.RUNNABLE →
      r.cur_queue = L → r.wtime = 10 * L → u.ageing_threshold L = 10 * L → 0 ≤ r.pid →
      -1 ≤ u.queue_tail (L - 1) →
      qcontent (updatetime_body Policy.MLFQ u i) L = (qcontent u L).erase r.pid ∧
      qcontent (updatetime_body Policy.MLFQ u i) (L - 1) = qcontent u (L - 1) ++ [r.pid] ∧
      (∀ l : Int, l ≠ L → l ≠ L - 1 →
        qcontent (updatetime_body Policy.MLFQ u i) l = qcontent u l)) ∧
    (∀ (n j : Nat) (r : Proc), s.proc[j]? = some r → r.cur_queue = 0 →
      ∃ q : Proc, (updatetime_n Policy.MLFQ n s).proc[j]? = some q ∧ q.cur_queue = 0) ∧
    (∀ (u : State) (j : Nat) (r : Proc), u.proc[j]? = some r → r.cur_queue = 0 →
      (updatetime_body Policy.MLFQ u j).queue = u.queue ∧
      (updatetime_body Policy.MLFQ u j).queue_tail = u.queue_tail) := by
  have hT : ((10 * L).toNat : Int) = 10 * L := Int.toNat_of_nonneg (by omega)
  have hwait := tick_slot_waits Policy.MLFQ s.ageing_threshold (10 * L).toNat p hs
    (by rw [hw, hq, hthr, hT]; omega)
  obtain ⟨w1, w2, w3, _⟩ := hwait
  refine ⟨?_, ?_, ?_, ?_, ?_, ?_⟩
  · intro nproc
    obtain ⟨_, b1, b2, b3, b4⟩ := boot_thresholds nproc
    have hcases : L = 1 ∨ L = 2 ∨ L = 3 ∨ L = 4 := by omega
    rcases hcases with h | h | h | h <;> subst h
    · exact b1
    · exact b2
    · exact b3
    · exact b4
  · refine ⟨_, ?_, w1, by rw [w2, hq], by rw [w3, hw, hT]; omega⟩
    rw [(updatetime_n_proc _ _ _).1, List.getElem?_map, hp]
    rfl
  · obtain ⟨a1, a2, a3, a4, _⟩ := tick_slot_ages s.ageing_threshold
      ((tick_slot Policy.MLFQ s.ageing_threshold)^[(10 * L).toNat] p) w1
      (by rw [w3, w2, hw, hq, hthr, hT]; omega) (by rw [w2, hq]; omega)
    refine ⟨_, ?_, a1, by rw [a2, w2, hq], a3, by rw [a4, w2, hq]⟩
    rw [(updatetime_n_proc _ _ _).1, List.getElem?_map, hp, Option.map_some',
      Function.iterate_succ_apply']
  · intro u r hr hrs hrq hrw hut hpid htail
    have ha : ages Policy.MLFQ u.ageing_threshold r :=
      ⟨hrs, rfl, by rw [hrw, hrq, hut]; omega, by rw [hrq]; omega⟩
    have := updatetime_body_ages u i r hr ha hpid (by rw [hrq]; exact htail)
    rw [hrq] at this
    exact this
  · intro n j r hr hrq
    refine ⟨_, ?_, tick_slot_level0 Policy.MLFQ s.ageing_threshold n r hrq⟩
    rw [(updatetime_n_proc _ _ _).1, List.getElem?_map, hr]
    rfl
  · intro u j r hr hrq
    exact updatetime_body_level0 Policy.MLFQ u j r hr hrq

theorem exPinned_slot :
    exPinned.proc[0]? =
      some { exInit.proc.getD 0 Proc.zero with cur_queue := 4, mlfq_priority := 4 } := rfl

set_option maxRecDepth 100000 in
theorem ageing_promotes_after_threshold_witness :
    qcontent exPinned 4 = [1] ∧ qcontent exPinned 3 = [] ∧
    (exPinned.proc.map (fun p => (p.state, p.pid, p.cur_queue, p.wtime))) =
      [(procstate.RUNNABLE, 1, 4, 0), (procstate.UNUSED, 0, 0, 0),
       (procstate.UNUSED, 0, 0, 0)] ∧
    ((updatetime_n Policy.MLFQ 40 exPinned).proc.map
        (fun p => (p.state, p.cur_queue, p.wtime, p.mlfq_priority))) =
      [(procstate.RUNNABLE, 4, 40, 4), (procstate.UNUSED, 0, 0, 0),
       (procstate.UNUSED, 0, 0, 0)] ∧
    ((updatetime_n Policy.MLFQ 41 exPinned).proc.map
        (fun p => (p.state, p.cur_queue, p.wtime, p.mlfq_priority))) =
      [(procstate.RUNNABLE, 3, 0, 3), (procstate.UNUSED, 0, 0, 0),
       (procstate.UNUSED, 0, 0, 0)] ∧
    qcontent (updatetime_n Policy.MLFQ 40 exPinned) 4 = [1] ∧
    qcontent (updatetime_n Policy.MLFQ 41 exPinned) 4 = [] ∧
    qcontent (updatetime_n Policy.MLFQ 41 exPinned) 3 = [1] ∧
    (∃ q : Proc, (updatetime_n Policy.MLFQ ((10 * 4 : Int).toNat + 1) exPinned).proc[0]?
        = some q ∧
      q.state = procstate.RUNNABLE ∧ q.cur_queue = 4 - 1 ∧ q.wtime = 0 ∧
      q.mlfq_priority = 4 - 1) :=
  ⟨by decide, by decide, by decide, by decide, by decide, by decide, by decide, by decide,
    (ageing_promotes_after_threshold exPinned 0 _ 4 (by decide) (by decide) (by decide)
      exPinned_slot rfl rfl rfl).2.2.1⟩

/-! ## Claim C9: the pid counter over a run -/

theorem nextpid_make_runnable (pol : Policy) (s : State) (i : Nat) (p : Proc) :
    (make_runnable pol s i p).nextpid = s.nextpid := by
  unfold make_runnable; split <;> simp

theorem nextpid_wakeup (pol : Policy) (s : State) (caller : Option Nat) (chan : Chan) :
    (wakeup pol s caller chan).nextpid = s.nextpid := by
  unfold wakeup
  refine foldl_inv (fun t : State => t.nextpid = s.nextpid) _ _ s ?_ rfl
  intro t i ht
  unfold wakeup_body
  split
  · exact ht
  · cases t.proc[i]? with
    | none => exact ht
    | some p =>
      simp only []
      split
      · rw [nextpid_make_runnable, ht]
      · exact ht

theorem nextpid_yield (pol : Policy) (s : State) (caller : Nat) :
    (yield pol s caller).nextpid = s.nextpid := by
  unfold yield
  cases s.proc[caller]? with
  | none => rfl
  | some p => simp only []; split <;> simp

theorem nextpid_kill (pol : Policy) (s : State) (pid : Int) :
    (kill pol s pid).1.nextpid = s.nextpid := by
  unfold kill
  cases first_idx (fun p => decide (p.pid = pid)) s.proc with
  | none => rfl
  | some i =>
    simp only []
    cases s.proc[i]? with
    | none => rfl
    | some p =>
      simp only []
      split
      · rw [nextpid_make_runnable]; rfl
      · rfl

theorem nextpid_sleep (s : State) (caller : Nat) (chan : Chan) :
    (sleep s caller chan).nextpid = s.nextpid := by
  unfold sleep
  cases s.proc[caller]? <;> rfl

theorem nextpid_reparent (pol : Policy) (s : State) (caller : Nat) :
    (reparent pol s caller).nextpid = s.nextpid := by
  unfold reparent
  refine foldl_inv (fun t : State => t.nextpid = s.nextpid) _ _ s ?_ rfl
  intro t i ht
  unfold reparent_body
  cases t.proc[i]? with
  | none => exact ht
  | some pp =>
    simp only []
    split
    · rw [nextpid_wakeup, setProc_nextpid, ht]
    · exact ht

theorem nextpid_exit (pol : Policy) (s : State) (caller : Nat) (status : Int) :
    (exit pol s caller status).nextpid = s.nextpid := by
  unfold exit
  simp only []
  cases (reparent pol s caller).proc[caller]? with
  | none => exact nextpid_reparent pol s caller
  | some p =>
    simp only []
    cases (wakeup pol (reparent pol s caller) (some caller) (Chan.ofPtr p.parent)).proc[caller]? with
    | none => simp only []; rw [nextpid_wakeup, nextpid_reparent]
    | some p2 => simp only []; rw [setProc_nextpid, nextpid_wakeup, nextpid_reparent]

theorem nextpid_wait (s : State) (caller : Nat) (addr : Int) (copyok : Bool) :
    (wait s caller addr copyok).1.nextpid = s.nextpid := by
  unfold wait
  cases s.proc[caller]? with
  | none => rfl
  | some p =>
    simp only []
    cases first_idx
        (fun np => decide (np.parent = some caller ∧ np.state = procstate.ZOMBIE)) s.proc with
    | some i =>
      simp only []
      cases s.proc[i]? with
      | none => rfl
      | some np => simp only []; split <;> rfl
    | none =>
      simp only []
      split
      · rfl
      · exact nextpid_sleep s caller _

theorem nextpid_waitx (s : State) (caller : Nat) (addr : Int) (copyok : Bool) (w0 r0 : Int) :
    (waitx s caller addr copyok w0 r0).1.nextpid = s.nextpid := by
  unfold waitx
  cases s.proc[caller]? with
  | none => rfl
  | some p =>
    simp only []
    cases first_idx
        (fun np => decide (np.parent = some caller ∧ np.state = procstate.ZOMBIE)) s.proc with
    | some i =>
      simp only []
      cases s.proc[i]? with
      | none => rfl
      | some np => simp only []; split <;> rfl
    | none =>
      simp only []
      split
      · rfl
      · exact nextpid_sleep s caller _

theorem nextpid_sys_setpriority (pol : Policy) (s : State) (caller : Nat) (priority pid : Int) :
    (sys_setpriority pol s caller priority pid).1.nextpid = s.nextpid := by
  have h := (setpriority_table s pid priority).2.2.2.2
  simp only [sys_setpriority, calc_dpriority]
  split
  · exact h
  · rw [nextpid_yield, h]

theorem nextpid_scheduler_round (pol : Policy) (s : State) :
    (scheduler_round pol s).1.nextpid = s.nextpid := by
  cases pol with
  | FCFS => rfl
  | PBS => rfl
  | RR => rfl
  | MLFQ =>
    simp only [scheduler_round]
    unfold scheduler_mlfq
    simp only []
    split
    · rfl
    · cases mlfq_find s.proc (mlfq_chosen_pid s) with
      | none => rfl
      | some m =>
        simp only []
        cases s.proc[m]? with
        | none => rfl
        | some p =>
          simp only []
          split
          · split
            · simp
            · rfl
          · rfl

theorem nextpid_rr_dispatch (s : State) (i : Nat) : (rr_dispatch s i).nextpid = s.nextpid := by
  unfold rr_dispatch
  cases s.proc[i]? with
  | none => rfl
  | some p => simp only []; split <;> rfl

theorem nextpid_allocproc (s : State) (tf pt : Int) :
    (allocproc s tf pt).1.nextpid = s.nextpid +
      (if (first_idx (fun p => decide (p.state = procstate.UNUSED)) s.proc).isSome then 1
        else 0) := by
  unfold allocproc
  cases hf : first_idx (fun p => decide (p.state = procstate.UNUSED)) s.proc with
  | none => simp
  | some i =>
    obtain ⟨p, hp, _, _⟩ := first_idx_some _ _ _ hf
    simp only [hp, Option.isSome_some, if_true]
    split
    · rfl
    · split <;> rfl

theorem nextpid_userinit (pol : Policy) (s : State) (tf pt : Int) :
    (userinit pol s tf pt).nextpid = (allocproc s tf pt).1.nextpid := by
  unfold userinit
  simp only []
  cases (allocproc s tf pt).2 with
  | none => rfl
  | some i =>
    simp only []
    cases hp : ({ (allocproc s tf pt).1 with initproc := some i } : State).proc[i]? with
    | none => rfl
    | some p =>
      simp only []
      split
      · simp
      · rfl

theorem nextpid_fork (pol : Policy) (s : State) (caller : Nat) (tf pt : Int) (copyok : Bool) :
    (fork pol s caller tf pt copyok).1.nextpid =
      if (s.proc[caller]?).isSome then (allocproc s tf pt).1.nextpid else s.nextpid := by
  unfold fork
  cases s.proc[caller]? with
  | none => rfl
  | some p =>
    simp only [Option.isSome_some, if_true]
    cases (allocproc s tf pt).2 with
    | none => rfl
    | some i =>
      simp only []
      cases (allocproc s tf pt).1.proc[i]? with
      | none => rfl
      | some np =>
        simp only []
        split
        · rfl
        · split
          · simp
          · rfl

/-- an operation advances the pid counter by the number of its calls of
`allocpid`, each of which returns the counter as it was -/
theorem nextpid_apply (pol : Policy) (s : State) (l : Label) :
    (apply pol s l).nextpid = s.nextpid + ((allocpid_in s l).length : Int) ∧
    ∀ x ∈ allocpid_in s l, x = s.nextpid := by
  cases l with
  | userinit tf pt =>
    simp only [apply, allocpid_in, nextpid_userinit, nextpid_allocproc]
    split <;> simp [allocpid]
  | fork caller tf pt copyok =>
    simp only [apply, allocpid_in, nextpid_fork, nextpid_allocproc]
    by_cases h1 : (s.proc[caller]?).isSome
    · by_cases h2 : (first_idx (fun p => decide (p.state = procstate.UNUSED)) s.proc).isSome
      · simp [h1, h2, allocpid]
      · simp [h1, h2]
    · simp [h1]
  | exit caller status => exact ⟨by simp [apply, allocpid_in, nextpid_exit], by simp [allocpid_in]⟩
  | wait caller addr copyok =>
    exact ⟨by simp [apply, allocpid_in, nextpid_wait], by simp [allocpid_in]⟩
  | waitx caller addr copyok =>
    exact ⟨by simp [apply, allocpid_in, nextpid_waitx], by simp [allocpid_in]⟩
  | yield caller => exact ⟨by simp [apply, allocpid_in, nextpid_yield], by simp [allocpid_in]⟩
  | sleep caller chan => exact ⟨by simp [apply, allocpid_in, nextpid_sleep], by simp [allocpid_in]⟩
  | sleep_return caller =>
    refine ⟨?_, by simp [allocpid_in]⟩
    simp only [apply, allocpid_in, sleep_return]
    cases s.proc[caller]? <;> simp
  | wakeup caller chan => exact ⟨by simp [apply, allocpid_in, nextpid_wakeup], by simp [allocpid_in]⟩
  | kill pid => exact ⟨by simp [apply, allocpid_in, nextpid_kill], by simp [allocpid_in]⟩
  | setpriority caller priority pid =>
    exact ⟨by simp [apply, allocpid_in, nextpid_sys_setpriority], by simp [allocpid_in]⟩
  | tick => exact ⟨by simp [apply, allocpid_in], by simp [allocpid_in]⟩
  | updatetime =>
    refine ⟨?_, by simp [allocpid_in]⟩
    have : (updatetime pol s).nextpid = s.nextpid := (updatetime_fold pol s s.proc.length).2.1
    simp [apply, allocpid_in, this]
  | sched => exact ⟨by simp [apply, allocpid_in, nextpid_scheduler_round], by simp [allocpid_in]⟩
  | rr i => exact ⟨by simp [apply, allocpid_in, nextpid_rr_dispatch], by simp [allocpid_in]⟩

theorem allocpid_trace_spec (pol : Policy) (ls : List Label) (s : State) :
    allocpid_trace pol s ls =
      (List.range (allocpid_trace pol s ls).length).map
        (fun (j : Nat) => s.nextpid + (j : Int)) ∧
    (run pol s ls).nextpid = s.nextpid + ((allocpid_trace pol s ls).length : Int) := by
  induction ls generalizing s with
  | nil => simp [allocpid_trace, run]
  | cons l ls ih =>
    obtain ⟨h1, h2⟩ := ih (apply pol s l)
    obtain ⟨a1, a2⟩ := nextpid_apply pol s l
    have hlen : (allocpid_in s l).length ≤ 1 := by
      cases l <;> simp only [allocpid_in] <;> first | split <;> simp | simp
    have hrun : run pol s (l :: ls) = run pol (apply pol s l) ls := rfl
    refine ⟨?_, ?_⟩
    · simp only [allocpid_trace, List.length_append]
      rw [List.range_add, List.map_append]
      congr 1
      · rcases Nat.lt_or_ge (allocpid_in s l).length 1 with h0 | h0
        · have : allocpid_in s l = [] := List.eq_nil_of_length_eq_zero (by omega)
          rw [this]; rfl
        · have h1l : (allocpid_in s l).length = 1 := by omega
          obtain ⟨x, hx⟩ := List.length_eq_one.1 h1l
          have := a2 x (by rw [hx]; exact List.mem_singleton_self x)
          rw [hx, this]
          simp [List.range_succ]
      · rw [h1, a1, List.map_map]
        rw [List.length_map, List.length_range]
        apply List.map_congr_left
        intro j _
        simp only [Function.comp, Nat.cast_add]
        ring
    · rw [hrun, h2, a1]
      simp only [allocpid_trace, List.length_append, Nat.cast_add]
      ring

end Xv6
